import Mathlib

/- Verification of the wav16 codec core (src/Wav16.hpp) and the cyclic
   buffer primitive (src/CyclicBuffer.hpp) of the mcm repository.

   Machine integers are embedded as `Nat` (or `Int` where the source mixes
   signs), with explicit `% 2^w` reductions exactly where the C++ types
   truncate.  The entropy coder (`Range7`, from Range.hpp) and the adaptive
   bit model (`fastBitModel`, from Model.hpp) are not part of src/; they are
   modelled from the spec (sections 4.C and 4.D), as marked on each
   definition. -/

namespace Mcm

/-! ### Constants (src/Wav16.hpp, lines 46-56 and init, lines 130-138) -/

def kShift : ℕ := 12

def kMaxValue : ℕ := 1 <<< kShift

/-- `noise_bits_ = 3` set in `Wav16::init`. -/
def noise_bits : ℕ := 3

/-- `non_noise_bits_ = 16 - noise_bits_` set in `Wav16::init`. -/
def non_noise_bits : ℕ := 16 - noise_bits

def kContextBits : ℕ := 2

/-- `num_ctx = 2 << (non_noise_bits_ + kContextBits)` from `Wav16::init`:
the number of entries of the model table `models_`. -/
def num_ctx : ℕ := 2 <<< (non_noise_bits + kContextBits)

/-! ### FastBitModel (spec section 4.C)

Modelled from the spec: `fastBitModel<int, kShift=12, 9, 30>` (Model.hpp) is
not under src/.  State is a single integer `p` with `kShift` fractional
bits; `getP()` returns `p` itself, so a model entry is embedded as a bare
natural number. -/

/-- Modelled from the spec: initialization `p = kMaxValue / 2` of a
fastBitModel entry (spec section 4.C, Model.hpp not in src/). -/
def fastBitModelInit : ℕ := kMaxValue / 2

/-- Modelled from the spec: `update(bit)` of a fastBitModel entry with
learning exponent 9 (spec section 4.C): on bit 0, `p += (kMaxValue - p) >> 9`;
on bit 1, `p -= p >> 9`.  The clamp mentioned by the spec is inactive for
these constants (the increment already keeps `p < kMaxValue`, proved in
`fastBitModelUpdate_lt` below). -/
def fastBitModelUpdate (p bit : ℕ) : ℕ :=
  if bit = 0 then p + ((kMaxValue - p) >>> 9) else p - (p >>> 9)

/-! ### Range coder (spec section 4.D)

Modelled from the spec: `Range7` (Range.hpp) is not under src/.  The encoder
keeps 32-bit `low` and `range` and the octets emitted so far; a pending
carry is applied by incrementing the emitted octet string as a big-endian
number, which propagates the carry through the trailing run of 0xFF octets
exactly as the spec's pending-0xFF counter does. -/

structure REnc where
  low : ℕ
  range : ℕ
  out : List ℕ
deriving DecidableEq

/-- Modelled from the spec: encoder initialization `low=0, range=0xFFFFFFFF`. -/
def rcInitEnc : REnc := ⟨0, 2 ^ 32 - 1, []⟩

/-- Increment a little-endian digit string by one (helper for carry
propagation).  The all-0xFF case never occurs under the coder invariant. -/
def incLE : List ℕ → List ℕ
  | [] => []
  | b :: rest => if b = 255 then 0 :: incLE rest else (b + 1) :: rest

/-- Propagate a carry into the already-emitted octets: increment them as a
big-endian number (spec section 4.D: "propagating any pending carry through
a run of buffered 0xFF octets"). -/
def carryInc (out : List ℕ) : List ℕ := (incLE out.reverse).reverse

/-- Modelled from the spec: `low += x` on the 32-bit `low`, with the
overflow carry propagated into the emitted octets. -/
def addLow (e : REnc) (x : ℕ) : REnc :=
  if e.low + x < 2 ^ 32 then ⟨e.low + x, e.range, e.out⟩
  else ⟨e.low + x - 2 ^ 32, e.range, carryInc e.out⟩

/-- Modelled from the spec: shift out the top octet of `low` (spec
section 4.D normalization / flush step). -/
def shiftLow (e : REnc) : REnc :=
  ⟨e.low % 2 ^ 24 * 256, e.range, e.out ++ [e.low >>> 24]⟩

/-- Modelled from the spec: encoder normalization loop, "whenever range has
shrunk below 2^24, shift out the top octet of low and left-shift both low
and range by 8".  The loop is written with fuel 4, which is enough whenever
`range >= 1` (three doublings by 256 reach 2^24 from 1). -/
def normE : ℕ → REnc → REnc
  | 0, e => e
  | n + 1, e =>
    if e.range < 2 ^ 24 then normE n ⟨(shiftLow e).low, e.range * 256, (shiftLow e).out⟩
    else e

def rcNormalizeE (e : REnc) : REnc := normE 4 e

/-- Modelled from the spec: `encode(stream, bit, p, kShift)` of Range7.
A symbol with probability `p/kMaxValue` of bit 0 partitions `range` at
`mid = (range >> kShift) * p`; bit 0 keeps `[low, low+mid)`, bit 1 takes
`[low+mid, low+range)`; then normalize. -/
def rcEncodeP (p bit : ℕ) (e : REnc) : REnc :=
  let mid := (e.range >>> kShift) * p
  rcNormalizeE
    (if bit = 0 then ⟨e.low, mid, e.out⟩
     else ⟨(addLow e mid).low, e.range - mid, (addLow e mid).out⟩)

/-- Modelled from the spec: `encodeBit(stream, bit)` of Range7 (direct,
unmodelled bit): `range >>= 1; low += range` iff bit is 1; then normalize. -/
def rcEncodeD (bit : ℕ) (e : REnc) : REnc :=
  rcNormalizeE
    (if bit = 0 then ⟨e.low, e.range >>> 1, e.out⟩
     else addLow ⟨e.low, e.range >>> 1, e.out⟩ (e.range >>> 1))

/-- Modelled from the spec: `flush(stream)` emits five additional octets of
`low`, most significant first (five shift-low steps). -/
def rcFlush (e : REnc) : List ℕ :=
  (shiftLow (shiftLow (shiftLow (shiftLow (shiftLow e))))).out

/-- Modelled from the spec: decoder state; `code` is the 32-bit code
register relative to the accumulated interval base (`low` is folded into it
by the subtraction on bit 1, as in the spec's decode rule), `pos` is the
index of the next input octet. -/
structure RDec where
  range : ℕ
  code : ℕ
  pos : ℕ
deriving DecidableEq

/-- Modelled from the spec: `initDecoder` preloads the 32-bit code register
from the first four input octets; `range = 0xFFFFFFFF`. -/
def rcInitDec (F : List ℕ) : RDec :=
  ⟨2 ^ 32 - 1, ((F.getD 0 0 * 256 + F.getD 1 0) * 256 + F.getD 2 0) * 256 + F.getD 3 0, 4⟩

/-- Modelled from the spec: decoder normalization, mirror of the encoder:
when `range < 2^24`, shift `code` and `range` left by 8 and read one more
input octet into the low byte of `code`. -/
def normD : ℕ → List ℕ → RDec → RDec
  | 0, _, d => d
  | n + 1, F, d =>
    if d.range < 2 ^ 24 then
      normD n F ⟨d.range * 256, d.code * 256 + F.getD d.pos 0, d.pos + 1⟩
    else d

def rcNormalizeD (F : List ℕ) (d : RDec) : RDec := normD 4 F d

/-- Modelled from the spec: `getDecodedBit(p, kShift)` of Range7: partition
at `mid = (range >> kShift) * p`; the bit is 0 iff the code register is in
the low part; does not normalize (the caller normalizes, matching
`ent.Normalize` in `processSample`). -/
def rcGetDecodedBit (p : ℕ) (d : RDec) : ℕ × RDec :=
  let mid := (d.range >>> kShift) * p
  if d.code < mid then (0, ⟨mid, d.code, d.pos⟩)
  else (1, ⟨d.range - mid, d.code - mid, d.pos⟩)

/-- Modelled from the spec: `decodeBit(stream)` of Range7 (direct bit):
`range >>= 1`, bit is 1 iff the code register is at or above `range`, then
normalize. -/
def rcDecodeD (F : List ℕ) (d : RDec) : ℕ × RDec :=
  if d.code < d.range >>> 1 then (0, rcNormalizeD F ⟨d.range >>> 1, d.code, d.pos⟩)
  else (1, rcNormalizeD F ⟨d.range >>> 1, d.code - (d.range >>> 1), d.pos⟩)

/-! ### Wav16::processSample (src/Wav16.hpp, lines 140-180)

The template parameter `kDecode` selects encode/decode; the two
instantiations are embedded as `processSampleEnc` / `processSampleDec`.
The model table `models_` is embedded as a function `ℕ → ℕ` (entry = the
model's `p`); `upd` is pointwise update.  Both instantiations additionally
return the trace of coding operations performed (model index, the
probability used at the point of use, and the bit), which instruments the
very same computation: the codec fields are computed exactly as in the
source. -/

/-- One coding operation performed by `processSample`: a bit pushed through
the adaptive model at index `idx` with point-of-use probability `p`, or a
direct (noise) bit. -/
inductive TOp
  | modelled (idx p bit : ℕ)
  | direct (bit : ℕ)
deriving DecidableEq

def TOp.bit : TOp → ℕ
  | .modelled _ _ b => b
  | .direct b => b

/-- Pointwise update of the model table. -/
def upd (f : ℕ → ℕ) (i v : ℕ) : ℕ → ℕ := fun j => if j = i then v else f j

/-- Loop state of the encoder instantiation of `processSample`. -/
structure PSE where
  code : ℕ
  ctx : ℕ
  models : ℕ → ℕ
  ent : REnc
  ops : List TOp

/-- The first loop of `processSample<false>` (lines 150-168): for each of
the `non_noise_bits_` top bits, read `p = m.getP(); p += p == 0`, extract
`bit = code >> 31; code <<= 1`, range-encode, `m.update(bit)`,
`ctx = ctx * 2 + bit`. -/
def pseModelledLoop : ℕ → ℕ → PSE → PSE
  | 0, _, st => st
  | n + 1, base, st =>
    let idx := base + st.ctx
    let p := st.models idx + (if st.models idx = 0 then 1 else 0)
    let bit := st.code >>> 31
    pseModelledLoop n base
      { code := st.code * 2 % 2 ^ 32
        ctx := st.ctx * 2 + bit
        models := upd st.models idx (fastBitModelUpdate (st.models idx) bit)
        ent := rcEncodeP p bit st.ent
        ops := st.ops ++ [TOp.modelled idx p bit] }

/-- The second loop of `processSample<false>` (lines 171-177): the
`noise_bits_` low bits are encoded directly; `ctx` is not updated on the
encode path. -/
def pseNoiseLoop : ℕ → PSE → PSE
  | 0, st => st
  | n + 1, st =>
    pseNoiseLoop n
      { code := st.code * 2 % 2 ^ 32
        ctx := st.ctx
        models := st.models
        ent := rcEncodeD (st.code >>> 31) st.ent
        ops := st.ops ++ [TOp.direct (st.code >>> 31)] }

/-- Result of one `processSample` call (encode). -/
structure PSRes where
  ret : ℕ
  models : ℕ → ℕ
  ent : REnc
  ops : List TOp

/-- `Wav16::processSample<false>`: `code = c << 16` (32-bit), the 13-bit
modelled walk from `ctx = 1` at base `(context*2 + channel) << non_noise_bits`,
then 3 direct noise bits, returning `ctx ^ (1 << 16)`.
The source's `check(context < models_.size())` is a debug assertion with no
effect on the computation (its truth is proved separately). -/
def processSampleEnc (models : ℕ → ℕ) (ent : REnc) (context channel c : ℕ) : PSRes :=
  let code := c <<< 16 % 2 ^ 32
  let base := (context * 2 + channel) <<< non_noise_bits
  let st := pseModelledLoop non_noise_bits base ⟨code, 1, models, ent, []⟩
  let st2 := pseNoiseLoop noise_bits st
  ⟨st2.ctx ^^^ (1 <<< 16), st2.models, st2.ent, st2.ops⟩

/-- Loop state of the decoder instantiation of `processSample`. -/
structure PSD where
  ctx : ℕ
  models : ℕ → ℕ
  dec : RDec
  ops : List TOp

/-- The first loop of `processSample<true>`: `bit = ent.getDecodedBit(p, kShift)`,
`m.update(bit)`, `ctx = ctx * 2 + bit`, then `ent.Normalize(stream)`. -/
def psdModelledLoop : ℕ → ℕ → List ℕ → PSD → PSD
  | 0, _, _, st => st
  | n + 1, base, F, st =>
    let idx := base + st.ctx
    let p := st.models idx + (if st.models idx = 0 then 1 else 0)
    let bd := rcGetDecodedBit p st.dec
    psdModelledLoop n base F
      { ctx := st.ctx * 2 + bd.1
        models := upd st.models idx (fastBitModelUpdate (st.models idx) bd.1)
        dec := rcNormalizeD F bd.2
        ops := st.ops ++ [TOp.modelled idx p bd.1] }

/-- The second loop of `processSample<true>`: `ctx += ctx + ent.decodeBit(stream)`. -/
def psdNoiseLoop : ℕ → List ℕ → PSD → PSD
  | 0, _, st => st
  | n + 1, F, st =>
    let bd := rcDecodeD F st.dec
    psdNoiseLoop n F
      { ctx := st.ctx * 2 + bd.1
        models := st.models
        dec := bd.2
        ops := st.ops ++ [TOp.direct bd.1] }

/-- Result of one `processSample` call (decode). -/
structure PSDRes where
  ret : ℕ
  models : ℕ → ℕ
  dec : RDec
  ops : List TOp

/-- `Wav16::processSample<true>`: the 13-bit modelled walk, 3 direct noise
bits, returning `ctx ^ (1 << 16)`. -/
def processSampleDec (models : ℕ → ℕ) (dec : RDec) (F : List ℕ)
    (context channel : ℕ) : PSDRes :=
  let base := (context * 2 + channel) <<< non_noise_bits
  let st := psdModelledLoop non_noise_bits base F ⟨1, models, dec, []⟩
  let st2 := psdNoiseLoop noise_bits F st
  ⟨st2.ctx ^^^ (1 <<< 16), st2.models, st2.dec, st2.ops⟩

/-! ### Wav16::compress (src/Wav16.hpp, lines 182-230)

`BufferedStreamReader::get` on an exhausted stream returns EOF = -1; the
input octet stream is a `List ℕ` and `sget` embeds the read.  `init()`
resizes the model table to `num_ctx` entries all initialized to
`fastBitModelInit`; as a function the table is total, and the theorems on
the access traces show all touched indices lie below `num_ctx`.

The `LinearMixer` instances, `total_error` and the `std::cout` prints of
`compress` are dead state: the mixer outputs are discarded (the fixed
predictor is used) and nothing of them reaches `out_stream`, so they are
omitted from the embedding of the octet-stream semantics. -/

/-- `sin.get()` at stream offset `i`: the octet, or EOF = -1. -/
def sget (S : List ℕ) (i : ℕ) : ℤ :=
  match S.get? i with
  | some v => (v : ℤ)
  | none => -1

/-- Truncation to `uint16_t` of a C++ `int` value. -/
def u16 (z : ℤ) : ℕ := (z % 65536).toNat

/-- The model table after `Wav16::init()`: every entry initialized. -/
def wav16InitModels : ℕ → ℕ := fun _ => fastBitModelInit

/-- State of the compress frame loop: model table, encoder, the six
16-bit history words, plus the instrumentation trace and frame count. -/
structure CmpSt where
  models : ℕ → ℕ
  ent : REnc
  last_a : ℕ
  last_b : ℕ
  last_a2 : ℕ
  last_b2 : ℕ
  last_a3 : ℕ
  last_b3 : ℕ
  ops : List TOp
  frames : ℕ

/-- One iteration of the compress loop body plus recursion; fuel counts the
loop iterations `i = 0, 4, 8, ...` of `for (; i < max_count; i += 4)`, so
the caller passes `(max_count + 3) / 4`.  Reads the four octets, forms the
little-endian samples, computes the fixed predictions and residuals, breaks
if `c1 == EOF`, otherwise encodes channel 0 then channel 1 and shifts the
history. -/
def compressLoop : ℕ → List ℕ → ℕ → CmpSt → CmpSt
  | 0, _, _, st => st
  | n + 1, S, i, st =>
    let c1 := sget S i
    let c2 := sget S (i + 1)
    let a := u16 (c1 + c2 * 256)
    let c3 := sget S (i + 2)
    let c4 := sget S (i + 3)
    let b := u16 (c3 + c4 * 256)
    let pred_a := u16 (2 * (st.last_a : ℤ) - (st.last_a2 : ℤ))
    let pred_b := u16 (2 * (st.last_b : ℤ) - (st.last_b2 : ℤ))
    let error_a := u16 ((a : ℤ) - (pred_a : ℤ))
    let error_b := u16 ((b : ℤ) - (pred_b : ℤ))
    if c1 = -1 then st
    else
      let r1 := processSampleEnc st.models st.ent 0 0 error_a
      let r2 := processSampleEnc r1.models r1.ent 0 1 error_b
      compressLoop n S (i + 4)
        { models := r2.models
          ent := r2.ent
          last_a := a
          last_b := b
          last_a2 := st.last_a
          last_b2 := st.last_b
          last_a3 := st.last_a2
          last_b3 := st.last_b2
          ops := st.ops ++ r1.ops ++ r2.ops
          frames := st.frames + 1 }

/-- Initial state of the compress loop (after `init()` and `ent = Range7()`). -/
def cmpInit : CmpSt :=
  ⟨wav16InitModels, rcInitEnc, 0, 0, 0, 0, 0, 0, [], 0⟩

/-- `Wav16::compress(in, out, max_count)`: run the frame loop, then
`ent.flush(sout)`.  Returns the full instrumented state plus the flushed
octet stream. -/
def wav16CompressFull (S : List ℕ) (max_count : ℕ) : CmpSt :=
  compressLoop ((max_count + 3) / 4) S 0 cmpInit

/-- The compressed octet stream for input `S` with `max_count = |S|` (the
caller-supplied uncompressed byte count). -/
def wav16Compress (S : List ℕ) : List ℕ :=
  rcFlush (wav16CompressFull S S.length).ent

/-! ### Wav16::decompress (src/Wav16.hpp, lines 232-264) -/

/-- State of the decompress frame loop. -/
structure DecSt where
  models : ℕ → ℕ
  dec : RDec
  last_a : ℕ
  last_b : ℕ
  last_a2 : ℕ
  last_b2 : ℕ
  last_a3 : ℕ
  last_b3 : ℕ
  outBytes : List ℕ
  ops : List TOp

/-- The decompress loop `while (max_count > 0)`: compute predictions,
decode channel 0 then channel 1, reconstruct `a = pred_a + residual`
(16-bit wrap), emit up to four octets under the remaining byte budget,
shift history.  Each iteration consumes `min 4 budget` of the budget, so
fuel `(max_count + 3) / 4` performs exactly the source's iterations. -/
def decompressLoop : ℕ → List ℕ → ℕ → DecSt → DecSt
  | 0, _, _, st => st
  | n + 1, F, budget, st =>
    if budget = 0 then st
    else
      let pred_a := u16 (2 * (st.last_a : ℤ) - (st.last_a2 : ℤ))
      let pred_b := u16 (2 * (st.last_b : ℤ) - (st.last_b2 : ℤ))
      let r1 := processSampleDec st.models st.dec F 0 0
      let a := (pred_a + r1.ret) % 65536
      let r2 := processSampleDec r1.models r1.dec F 0 1
      let b := (pred_b + r2.ret) % 65536
      decompressLoop n F (budget - 4)
        { models := r2.models
          dec := r2.dec
          last_a := a
          last_b := b
          last_a2 := st.last_a
          last_b2 := st.last_b
          last_a3 := st.last_a2
          last_b3 := st.last_b2
          outBytes := st.outBytes ++ ([a % 256, a / 256, b % 256, b / 256].take budget)
          ops := st.ops ++ r1.ops ++ r2.ops }

/-- `Wav16::decompress(in, out, max_count)`: `init()`, `ent.initDecoder`,
then the frame loop.  (The final readahead seek only repositions the input
stream and does not affect the emitted octets.) -/
def wav16DecompressFull (F : List ℕ) (max_count : ℕ) : DecSt :=
  decompressLoop ((max_count + 3) / 4) F max_count
    ⟨wav16InitModels, rcInitDec F, 0, 0, 0, 0, 0, 0, [], []⟩

/-- The decompressed octet stream. -/
def wav16Decompress (F : List ℕ) (max_count : ℕ) : List ℕ :=
  (wav16DecompressFull F max_count).outBytes

/-! ### Wav16 configuration (src/Wav16.hpp, lines 122-128)

`opt_var` is a member set by `setOpt` and read by nothing else; the octet
stream produced by `compress` is a function of the input alone.  To state
this, the codec object is embedded with its `opt_var` field and `compress`
is wrapped at the object level. -/

/-- The `Wav16` object state relevant to configuration: `opt_var`. -/
structure Wav16Obj where
  opt_var : ℕ

/-- `Wav16()` constructor: `opt_var(0)`. -/
def wav16New : Wav16Obj := ⟨0⟩

/-- `Wav16::setOpt(var)`: stores the 32-bit option and returns true. -/
def wav16SetOpt (w : Wav16Obj) (var : ℕ) : Wav16Obj × Bool :=
  ({ w with opt_var := var % 2 ^ 32 }, true)

/-- `Wav16::compress` as a member function of the object: `init()` rebuilds
the models and `ent = Range7()` re-initializes the coder, so the output
depends only on the input octets and the byte count. -/
def wav16CompressObj (_w : Wav16Obj) (S : List ℕ) (max_count : ℕ) : List ℕ :=
  rcFlush (wav16CompressFull S max_count).ent

/-! ### CyclicBuffer (src/CyclicBuffer.hpp)

The raw array `storage_` (of `alloc_size_` elements, with `data_ =
storage_ + padding`) is embedded as a `List α` plus the `padding` offset;
`pos_` and `mask_` are `size_t`, so `pos_` arithmetic is reduced mod 2^64.
A raw write `ptr[i] = v` is `List.set` (out-of-allocation writes are
undefined behaviour in the source; the claims' hypotheses keep all writes
in bounds). -/

@[ext]
structure CyclicBuffer (α : Type) where
  pos : ℕ
  mask : ℕ
  padding : ℕ
  storage : List α

/-- `std::copy_n(src, count, dst)` at an offset of the storage list:
sequential element writes. -/
def copy_n {α : Type} : List α → ℕ → List α → List α
  | l, _, [] => l
  | l, start, x :: xs => copy_n (l.set start x) (start + 1) xs

/-- `CyclicBuffer::getSize() = mask_ + 1`. -/
def cbSize {α : Type} (b : CyclicBuffer α) : ℕ := b.mask + 1

/-- `CyclicBuffer::resize(new_size, padding)`: allocates
`new_size + padding * 2` value-initialized elements, `data_ = storage_ +
padding`, `mask_ = new_size - 1`, then `restart()` sets `pos_ = 0`.  (The
power-of-two assertion is a hypothesis of the theorems.) -/
def cbResize (α : Type) [Inhabited α] (new_size padding : ℕ) : CyclicBuffer α :=
  ⟨0, new_size - 1, padding, List.replicate (new_size + padding * 2) default⟩

/-- `CyclicBuffer::fill(d)`: `std::fill(storage_, storage_ + getSize(), d)` —
writes `d` to the first `getSize()` elements of the storage. -/
def cbFill {α : Type} (b : CyclicBuffer α) (d : α) : CyclicBuffer α :=
  { b with storage := copy_n b.storage 0 (List.replicate (cbSize b) d) }

/-- `CyclicBuffer::push(val)`: `data_[pos_++ & mask_] = val`. -/
def cbPush {α : Type} (b : CyclicBuffer α) (v : α) : CyclicBuffer α :=
  { b with
    storage := b.storage.set (b.padding + (b.pos &&& b.mask)) v
    pos := (b.pos + 1) % 2 ^ 64 }

/-- `CyclicBuffer::push_n(elements, count)`: at most two contiguous
`copy_n` spans, then `pos_ += count`. -/
def cbPushN {α : Type} (b : CyclicBuffer α) (elements : List α) (count : ℕ) :
    CyclicBuffer α :=
  let masked_pos := b.pos &&& b.mask
  let max_c := 1 + b.mask - masked_pos
  let cur := min max_c count
  let storage1 := copy_n b.storage (b.padding + masked_pos) (elements.take cur)
  let storage2 :=
    if 0 < count - cur then copy_n storage1 b.padding ((elements.drop cur).take (count - cur))
    else storage1
  { b with storage := storage2, pos := (b.pos + count) % 2 ^ 64 }

/-- Iterated `push`, the reference semantics that `push_n` is compared
against in the spec. -/
def cbPushIter {α : Type} (b : CyclicBuffer α) (xs : List α) : CyclicBuffer α :=
  xs.foldl cbPush b

/-- Well-formedness of a cyclic buffer as produced by `resize`: a
power-of-two size of at most 2^64 and a storage of `size + 2 * padding`
elements. -/
def cbWf {α : Type} (b : CyclicBuffer α) : Prop :=
  (∃ k ≤ 64, b.mask + 1 = 2 ^ k) ∧ b.storage.length = b.mask + 1 + 2 * b.padding

/-! ### Proof layer: octet-string values and coder invariants

These definitions are devices for stating and proving the theorems; they
embed no source code. -/

/-- Big-endian value of an octet string. -/
def beVal : List ℕ → ℕ
  | [] => 0
  | b :: l => b * 256 ^ l.length + beVal l

/-- Little-endian value of an octet string. -/
def leVal : List ℕ → ℕ
  | [] => 0
  | b :: l => b + 256 * leVal l

/-- All entries are octets. -/
def bytesOk (l : List ℕ) : Prop := ∀ x ∈ l, x < 256

/-- Absolute lower interval end of the encoder: the emitted octets as a
big-endian number, scaled past the 32-bit window, plus `low`. -/
def absLow (e : REnc) : ℕ := beVal e.out * 2 ^ 32 + e.low

/-- Encoder well-formedness between coding operations. -/
def wfE (e : REnc) : Prop :=
  bytesOk e.out ∧ e.low < 2 ^ 32 ∧ 2 ^ 24 ≤ e.range ∧ e.range < 2 ^ 32 ∧
    absLow e + e.range ≤ 2 ^ 32 * 256 ^ e.out.length

/-- Absolute interval bounds at the resolution of a final stream of `T`
octets (the stream carries `T - 4` octets beyond the decoder's preloaded
code window at each point `m = |out|`, giving scale `256 ^ (T - 4 - m)`). -/
def Alo (e : REnc) (T : ℕ) : ℕ := absLow e * 256 ^ (T - 4 - e.out.length)

def Ahi (e : REnc) (T : ℕ) : ℕ := (absLow e + e.range) * 256 ^ (T - 4 - e.out.length)

/-- Decoder-encoder coupling relative to the final stream `F`: equal
ranges, the read position just past the code window, and the code register
holding the stream window relative to the accumulated interval base. -/
def relD (F : List ℕ) (e : REnc) (d : RDec) : Prop :=
  d.range = e.range ∧ d.pos = e.out.length + 4 ∧
    d.code + absLow e = beVal F / 256 ^ (F.length - 4 - e.out.length)

/-- The kind of one coding step: adaptive with point-of-use probability, or
direct. -/
inductive RKind
  | modelled (p : ℕ)
  | direct

/-- An adaptive bit source: a state machine that chooses each step's kind
from its state and evolves by the coded bit.  Both the encoder and the
decoder drive the same machine, which is what makes the adaptive coder
self-synchronizing. -/
structure BitSrc (σ : Type) where
  kind : σ → RKind
  next : σ → ℕ → σ

def encStepK : RKind → ℕ → REnc → REnc
  | .modelled p, b, e => rcEncodeP p b e
  | .direct, b, e => rcEncodeD b e

/-- Encode a bit list under an adaptive machine. -/
def encA {σ : Type} (M : BitSrc σ) : σ → List ℕ → REnc → REnc
  | _, [], e => e
  | s, b :: bs, e => encA M (M.next s b) bs (encStepK (M.kind s) b e)

def nextFold {σ : Type} (M : BitSrc σ) (s : σ) (bs : List ℕ) : σ :=
  bs.foldl M.next s

def decStepK : RKind → List ℕ → RDec → ℕ × RDec
  | .modelled p, F, d =>
    let bd := rcGetDecodedBit p d
    (bd.1, rcNormalizeD F bd.2)
  | .direct, F, d => rcDecodeD F d

/-- Decode `n` bits under the adaptive machine, returning the bit list, the
final machine state and the final decoder state. -/
def decA {σ : Type} (M : BitSrc σ) : σ → ℕ → List ℕ → RDec → List ℕ × σ × RDec
  | s, 0, _, d => ([], s, d)
  | s, n + 1, F, d =>
    let bd := decStepK (M.kind s) F d
    let r := decA M (M.next s bd.1) n F bd.2
    (bd.1 :: r.1, r.2.1, r.2.2)

/-- The top `n` bits of a 32-bit code register, most significant first
(the source's `bit = code >> 31; code <<= 1` extraction). -/
def codeBits : ℕ → ℕ → List ℕ
  | 0, _ => []
  | n + 1, code => (code >>> 31) :: codeBits n (code * 2 % 2 ^ 32)

/-- The 16 bits of a 16-bit value, most significant first, exactly as
`processSample` extracts them from `code = c << 16`. -/
def bits16 (c : ℕ) : List ℕ := codeBits 16 (c <<< 16 % 2 ^ 32)

/-- Left fold assembling bits into an integer (the decoder's `ctx` walk). -/
def assembleBits (bs : List ℕ) (acc : ℕ) : ℕ := bs.foldl (fun a b => a * 2 + b) acc

/-! ### Proof layer: the Wav16 adaptive bit machine

The per-bit flattening of the Wav16 model/context schedule: samples are
coded in order, 13 modelled bits (context walk from 1, model base from the
sample's channel = sample index mod 2) then 3 direct bits per sample.  The
correspondence with `processSampleEnc` / `processSampleDec` is proved
below. -/

structure WavCtx where
  models : ℕ → ℕ
  samples : ℕ
  i : ℕ
  ctx : ℕ

def wavBase (s : WavCtx) : ℕ := (s.samples % 2) <<< non_noise_bits

def wavKind (s : WavCtx) : RKind :=
  if s.i < non_noise_bits then
    .modelled (s.models (wavBase s + s.ctx) +
      (if s.models (wavBase s + s.ctx) = 0 then 1 else 0))
  else .direct

def wavNext (s : WavCtx) (b : ℕ) : WavCtx :=
  if s.i < non_noise_bits then
    { models := upd s.models (wavBase s + s.ctx)
        (fastBitModelUpdate (s.models (wavBase s + s.ctx)) b)
      samples := s.samples
      i := s.i + 1
      ctx := s.ctx * 2 + b }
  else if s.i + 1 = 16 then
    { models := s.models, samples := s.samples + 1, i := 0, ctx := 1 }
  else
    { models := s.models, samples := s.samples, i := s.i + 1, ctx := s.ctx * 2 + b }

def wavSrc : BitSrc WavCtx := ⟨wavKind, wavNext⟩

/-- Machine state at the start of sample number `n`. -/
def wavAt (models : ℕ → ℕ) (n : ℕ) : WavCtx := ⟨models, n, 0, 1⟩

def wavStart : WavCtx := wavAt wav16InitModels 0

/-- Machine invariant: every model entry stays below `kMaxValue`. -/
def wavInv (s : WavCtx) : Prop := ∀ j, s.models j < kMaxValue

/-- The bit stream that `compress` pushes through the entropy coder:
per frame, the residual bits of channel 0 then channel 1, mirroring the
frame loop of `Wav16::compress` (same reads, predictions and EOF break). -/
def resBits : ℕ → List ℕ → ℕ → ℕ → ℕ → ℕ → ℕ → List ℕ
  | 0, _, _, _, _, _, _ => []
  | n + 1, S, i, la, lb, la2, lb2 =>
    let a := u16 (sget S i + sget S (i + 1) * 256)
    let b := u16 (sget S (i + 2) + sget S (i + 3) * 256)
    let error_a := u16 ((a : ℤ) - (u16 (2 * (la : ℤ) - (la2 : ℤ)) : ℤ))
    let error_b := u16 ((b : ℤ) - (u16 (2 * (lb : ℤ) - (lb2 : ℤ)) : ℤ))
    if sget S i = -1 then []
    else bits16 error_a ++ bits16 error_b ++ resBits n S (i + 4) a b la lb

/-- Admissible point-of-use probability of a coding step: in
`[1, kMaxValue - 1]` for a modelled bit (the divider constraint of the
range coder). -/
def okKind : RKind → Prop
  | .modelled p => 1 ≤ p ∧ p ≤ kMaxValue - 1
  | .direct => True

/-- A well-behaved adaptive bit source: an invariant preserved by `next`
under which every chosen kind is admissible. -/
def srcOk {σ : Type} (M : BitSrc σ) (Inv : σ → Prop) : Prop :=
  (∀ s b, Inv s → Inv (M.next s b)) ∧ (∀ s, Inv s → okKind (M.kind s))

/-- Range constraint on the model index of a coding operation (direct
operations touch no model entry and satisfy every range). -/
def opIdxRange (lo hi : ℕ) : TOp → Prop
  | TOp.modelled idx _ _ => lo ≤ idx ∧ idx < hi
  | TOp.direct _ => True

/-- The canonical operation trace of the adaptive machine along a bit
string (proof device): each step records the kind the machine chooses and
the bit that is coded. -/
def wavOpsA : WavCtx → List ℕ → List TOp
  | _, [] => []
  | s, b :: bs =>
    (match wavKind s with
      | .modelled p => TOp.modelled (wavBase s + s.ctx) p b
      | .direct => TOp.direct b) :: wavOpsA (wavNext s b) bs

/-- The lockstep invariant between the compress and decompress frame loops
after `f` frames, relative to the final compressed stream `F`: equal model
tables, histories and operation traces, the emitted octets are exactly the
consumed prefix of `S`, the encoder is well-formed with models below
`kMaxValue`, the decoder is coupled to the encoder through `F`, and `F` is
the flush of encoding the remaining residual bits from here. -/
def simInv (S F : List ℕ) (f : ℕ) (st_e : CmpSt) (st_d : DecSt) : Prop :=
  st_d.models = st_e.models ∧
  st_d.last_a = st_e.last_a ∧ st_d.last_b = st_e.last_b ∧
  st_d.last_a2 = st_e.last_a2 ∧ st_d.last_b2 = st_e.last_b2 ∧
  st_d.last_a3 = st_e.last_a3 ∧ st_d.last_b3 = st_e.last_b3 ∧
  st_d.ops = st_e.ops ∧
  st_d.outBytes = S.take (4 * f) ∧
  (∀ j, st_e.models j < kMaxValue) ∧
  wfE st_e.ent ∧
  relD F st_e.ent st_d.dec ∧
  F = rcFlush (encA wavSrc (wavAt st_e.models (2 * f))
    (resBits ((S.length + 3) / 4) S (4 * f)
      st_e.last_a st_e.last_b st_e.last_a2 st_e.last_b2) st_e.ent)

/-! ## Theorems

### Arithmetic helpers -/

lemma xor_two_pow_add {k v : ℕ} (h : v < 2 ^ k) : (2 ^ k + v) ^^^ 2 ^ k = v := by
  refine Nat.eq_of_testBit_eq fun j => ?_
  rw [Nat.testBit_xor]
  rcases eq_or_ne j k with rfl | hj
  · have h1 : (2 ^ j + v).testBit j = true := by
      simp [Nat.testBit, Nat.shiftRight_eq_div_pow, Nat.add_comm, Nat.add_mul_div_left,
        Nat.div_eq_of_lt h]
    have h2 : v.testBit j = false := Nat.testBit_lt_two_pow h
    simp [h1, h2]
  · have h2 : (2 ^ k).testBit j = false := Nat.testBit_two_pow_of_ne (Ne.symm hj)
    simp only [h2, Bool.xor_false]
    rcases lt_or_gt_of_ne hj with hlt | hgt
    · have he : 2 ^ k + v = 2 ^ (k - j) * 2 ^ j + v := by
        rw [← Nat.pow_add, Nat.sub_add_cancel hlt.le]
      simp only [Nat.testBit, Nat.shiftRight_eq_div_pow, he]
      rw [Nat.add_comm (2 ^ (k - j) * 2 ^ j) v,
        Nat.add_mul_div_right _ _ (Nat.pos_pow_of_pos j (by norm_num))]
      obtain ⟨m, hm⟩ : ∃ m, 2 ^ (k - j) = 2 * m :=
        ⟨2 ^ (k - j - 1), by rw [← pow_succ']; congr 1; omega⟩
      have hmod : (v / 2 ^ j + 2 ^ (k - j)) % 2 = v / 2 ^ j % 2 := by
        rw [hm]; omega
      simp only [Nat.one_and_eq_mod_two, hmod]
    · have hb1 : (2 ^ k + v).testBit j = false := by
        apply Nat.testBit_lt_two_pow
        calc 2 ^ k + v < 2 ^ k + 2 ^ k := by omega
          _ = 2 ^ (k + 1) := by ring
          _ ≤ 2 ^ j := Nat.pow_le_pow_right (by norm_num) hgt
      have hb2 : v.testBit j = false := by
        apply Nat.testBit_lt_two_pow
        exact lt_of_lt_of_le h (Nat.pow_le_pow_right (by norm_num) (le_of_lt hgt))
      simp [hb1, hb2]

/-! ### Octet-string values -/

lemma bytesOk_append {l m : List ℕ} (hl : bytesOk l) (hm : bytesOk m) :
    bytesOk (l ++ m) := by
  intro x hx
  rcases List.mem_append.mp hx with h | h
  · exact hl x h
  · exact hm x h

lemma beVal_append (l m : List ℕ) :
    beVal (l ++ m) = beVal l * 256 ^ m.length + beVal m := by
  induction l with
  | nil => simp [beVal]
  | cons b l ih =>
    simp only [List.cons_append, beVal, ih, List.append_eq, List.length_append]
    ring

lemma beVal_lt {l : List ℕ} (h : bytesOk l) : beVal l < 256 ^ l.length := by
  induction l with
  | nil => simp [beVal]
  | cons b l ih =>
    have hb : b < 256 := h b (List.mem_cons_self _ _)
    have hl : beVal l < 256 ^ l.length := ih (fun x hx => h x (List.mem_cons_of_mem _ hx))
    simp only [beVal, List.length_cons, pow_succ]
    calc b * 256 ^ l.length + beVal l < b * 256 ^ l.length + 256 ^ l.length := by omega
      _ = (b + 1) * 256 ^ l.length := by ring
      _ ≤ 256 * 256 ^ l.length := by
        apply Nat.mul_le_mul_right
        omega
      _ = 256 ^ l.length * 256 := by ring

lemma leVal_lt {l : List ℕ} (h : bytesOk l) : leVal l < 256 ^ l.length := by
  induction l with
  | nil => simp [leVal]
  | cons b l ih =>
    have hb : b < 256 := h b (List.mem_cons_self _ _)
    have hl : leVal l < 256 ^ l.length := ih (fun x hx => h x (List.mem_cons_of_mem _ hx))
    simp only [leVal, List.length_cons, pow_succ]
    calc b + 256 * leVal l < 256 + 256 * leVal l := by omega
      _ = 256 * (leVal l + 1) := by ring
      _ ≤ 256 * 256 ^ l.length := by
        apply Nat.mul_le_mul_left
        omega
      _ = 256 ^ l.length * 256 := by ring

lemma beVal_reverse (l : List ℕ) : beVal l.reverse = leVal l := by
  induction l with
  | nil => rfl
  | cons b l ih =>
    simp only [List.reverse_cons, beVal_append, leVal, ih, beVal, List.length_nil,
      List.length_cons]
    ring

lemma incLE_spec : ∀ l : List ℕ, bytesOk l → leVal l + 1 < 256 ^ l.length →
    leVal (incLE l) = leVal l + 1 ∧ (incLE l).length = l.length ∧ bytesOk (incLE l) := by
  intro l
  induction l with
  | nil => intro _ h; simp [leVal] at h
  | cons b l ih =>
    intro hok hlt
    have hb : b < 256 := hok b (List.mem_cons_self _ _)
    have hokl : bytesOk l := fun x hx => hok x (List.mem_cons_of_mem _ hx)
    by_cases hb255 : b = 255
    · subst hb255
      have hrec : leVal l + 1 < 256 ^ l.length := by
        simp only [leVal, List.length_cons, pow_succ] at hlt ⊢
        omega
      obtain ⟨h1, h2, h3⟩ := ih hokl hrec
      refine ⟨?_, ?_, ?_⟩
      · simp only [incLE, if_pos rfl, if_true, leVal, h1]
        ring
      · simp [incLE, h2]
      · intro x hx
        simp only [incLE, if_pos rfl, if_true] at hx
        rcases List.mem_cons.mp hx with rfl | h
        · omega
        · exact h3 x h
    · refine ⟨?_, ?_, ?_⟩
      · simp only [incLE, if_neg hb255, leVal]
        ring
      · simp only [incLE, if_neg hb255, List.length_cons]
      · intro x hx
        simp only [incLE, if_neg hb255] at hx
        rcases List.mem_cons.mp hx with rfl | h
        · omega
        · exact hokl x h

lemma carryInc_spec {l : List ℕ} (hok : bytesOk l) (hlt : beVal l + 1 < 256 ^ l.length) :
    beVal (carryInc l) = beVal l + 1 ∧ (carryInc l).length = l.length ∧
      bytesOk (carryInc l) := by
  have hokr : bytesOk l.reverse := fun x hx => hok x (List.mem_reverse.mp hx)
  have hltr : leVal l.reverse + 1 < 256 ^ l.reverse.length := by
    rw [← beVal_reverse, List.reverse_reverse, List.length_reverse]
    exact hlt
  obtain ⟨h1, h2, h3⟩ := incLE_spec l.reverse hokr hltr
  refine ⟨?_, ?_, ?_⟩
  · rw [carryInc, beVal_reverse, h1, ← beVal_reverse, List.reverse_reverse]
  · rw [carryInc, List.length_reverse, h2, List.length_reverse]
  · intro x hx
    exact h3 x (List.mem_reverse.mp hx)

lemma beVal_take_div {F : List ℕ} (h : bytesOk F) {i : ℕ} (hi : i ≤ F.length) :
    beVal F / 256 ^ (F.length - i) = beVal (F.take i) := by
  have hlen : (F.drop i).length = F.length - i := List.length_drop i F
  have hdrop : beVal (F.drop i) < 256 ^ (F.length - i) := by
    rw [← hlen]
    exact beVal_lt (fun x hx => h x (List.mem_of_mem_drop hx))
  have hsplit : beVal F = beVal (F.take i) * 256 ^ (F.length - i) + beVal (F.drop i) := by
    conv_lhs => rw [← List.take_append_drop i F]
    rw [beVal_append, List.length_drop]
  rw [hsplit, Nat.add_comm, Nat.add_mul_div_right _ _ (Nat.pos_pow_of_pos _ (by norm_num)),
    Nat.div_eq_of_lt hdrop]
  omega

lemma beVal_digit {F : List ℕ} (h : bytesOk F) {pos : ℕ} (hp : pos < F.length) :
    beVal F / 256 ^ (F.length - pos) * 256 + F.getD pos 0 =
      beVal F / 256 ^ (F.length - (pos + 1)) := by
  rw [beVal_take_div h (le_of_lt hp), beVal_take_div h hp]
  rw [List.take_succ]
  have hget : F[pos]? = some (F.getD pos 0) := by
    rw [List.getElem?_eq_getElem hp]
    simp [List.getD_eq_getElem?_getD, List.getElem?_eq_getElem hp]
  rw [hget]
  simp [beVal_append, beVal]

/-! ### CyclicBuffer lemmas -/

lemma copy_n_length {α : Type} :
    ∀ (src : List α) (l : List α) (start : ℕ), (copy_n l start src).length = l.length := by
  intro src
  induction src with
  | nil => intro l start; rfl
  | cons x xs ih =>
    intro l start
    simp only [copy_n, ih, List.length_set]

lemma copy_n_getElem {α : Type} :
    ∀ (src : List α) (l : List α) (start : ℕ), start + src.length ≤ l.length →
      ∀ i : ℕ,
        (copy_n l start src)[i]? =
          if start ≤ i ∧ i < start + src.length then src[i - start]? else l[i]? := by
  intro src
  induction src with
  | nil =>
    intro l start _ i
    simp only [copy_n, List.length_nil, Nat.add_zero]
    rw [if_neg (by omega)]
  | cons x xs ih =>
    intro l start hb i
    simp only [List.length_cons] at hb
    rw [copy_n, ih _ _ (by rw [List.length_set]; omega)]
    rcases eq_or_ne i start with rfl | hne
    · rw [if_neg (by omega), if_pos (by simp only [List.length_cons]; omega),
        List.getElem?_set_self (by omega), Nat.sub_self]
      simp
    · by_cases hcase : start + 1 ≤ i ∧ i < start + 1 + xs.length
      · rw [if_pos hcase, if_pos (by simp only [List.length_cons]; omega)]
        have hs : i - start = (i - (start + 1)) + 1 := by omega
        rw [hs]
        simp
      · rw [if_neg hcase, if_neg (by simp only [List.length_cons]; omega),
          List.getElem?_set_ne (Ne.symm hne)]

lemma cbPushIter_consec {α : Type} :
    ∀ (xs : List α) (b : CyclicBuffer α) (k : ℕ), k ≤ 64 → b.mask + 1 = 2 ^ k →
      b.pos < 2 ^ 64 → (b.pos &&& b.mask) + xs.length ≤ b.mask + 1 →
      cbPushIter b xs =
        { b with
          storage := copy_n b.storage (b.padding + (b.pos &&& b.mask)) xs
          pos := (b.pos + xs.length) % 2 ^ 64 } := by
  intro xs
  induction xs with
  | nil =>
    intro b k hk hmask hpos _
    simp only [cbPushIter, List.foldl_nil, copy_n, List.length_nil, Nat.add_zero,
      Nat.mod_eq_of_lt hpos]
  | cons x xs ih =>
    intro b k hk hmask hpos hroom
    have hmaskmod : ∀ y : ℕ, y &&& b.mask = y % 2 ^ k := fun y => by
      have hm : b.mask = 2 ^ k - 1 := by omega
      rw [hm, Nat.and_pow_two_sub_one_eq_mod]
    have hdvd : (2 : ℕ) ^ k ∣ 2 ^ 64 := pow_dvd_pow 2 hk
    simp only [cbPushIter, List.foldl_cons]
    have hstep : cbPush b x =
        { b with
          storage := b.storage.set (b.padding + (b.pos &&& b.mask)) x
          pos := (b.pos + 1) % 2 ^ 64 } := rfl
    rw [hstep]
    rcases eq_or_ne xs.length 0 with hlen0 | hlenne
    · have hnil : xs = [] := List.length_eq_zero.mp hlen0
      subst hnil
      simp only [cbPushIter, List.foldl_nil, copy_n, List.length_cons, List.length_nil]
    · have hlen : 0 < xs.length := by omega
      have hroom1 : (b.pos &&& b.mask) + 1 < 2 ^ k := by
        simp only [List.length_cons] at hroom
        omega
      rw [hmaskmod] at hroom1
      have hnext : ((b.pos + 1) % 2 ^ 64) &&& b.mask = (b.pos &&& b.mask) + 1 := by
        rw [hmaskmod, hmaskmod, Nat.mod_mod_of_dvd _ hdvd, Nat.add_mod]
        have h1 : (1 : ℕ) % 2 ^ k = 1 := Nat.mod_eq_of_lt (by omega)
        rw [h1, Nat.mod_eq_of_lt hroom1]
      have happ := ih
        { b with
          storage := b.storage.set (b.padding + (b.pos &&& b.mask)) x
          pos := (b.pos + 1) % 2 ^ 64 } k hk hmask
        (Nat.mod_lt _ (by norm_num))
        (by
          simp only [hnext]
          simp only [List.length_cons] at hroom
          omega)
      rw [cbPushIter] at happ
      rw [happ]
      ext1
      · show ((b.pos + 1) % 2 ^ 64 + xs.length) % 2 ^ 64 =
          (b.pos + (x :: xs).length) % 2 ^ 64
        rw [Nat.mod_add_mod]
        congr 1
        simp only [List.length_cons]
        omega
      · rfl
      · rfl
      · show copy_n (b.storage.set (b.padding + (b.pos &&& b.mask)) x)
            (b.padding + ((b.pos + 1) % 2 ^ 64 &&& b.mask)) xs =
          copy_n b.storage (b.padding + (b.pos &&& b.mask)) (x :: xs)
        rw [copy_n, hnext, Nat.add_assoc]

lemma cbPushN_single {α : Type} (b : CyclicBuffer α) (elements : List α) (count : ℕ)
    (h : count ≤ 1 + b.mask - (b.pos &&& b.mask)) :
    cbPushN b elements count =
      { b with
        storage := copy_n b.storage (b.padding + (b.pos &&& b.mask)) (elements.take count)
        pos := (b.pos + count) % 2 ^ 64 } := by
  unfold cbPushN
  simp only [min_eq_right h]
  rw [if_neg (by omega)]

lemma cbPushN_double {α : Type} (b : CyclicBuffer α) (elements : List α) (count : ℕ)
    (h : 1 + b.mask - (b.pos &&& b.mask) < count) :
    cbPushN b elements count =
      { b with
        storage := copy_n
          (copy_n b.storage (b.padding + (b.pos &&& b.mask))
            (elements.take (1 + b.mask - (b.pos &&& b.mask))))
          b.padding
          ((elements.drop (1 + b.mask - (b.pos &&& b.mask))).take
            (count - (1 + b.mask - (b.pos &&& b.mask))))
        pos := (b.pos + count) % 2 ^ 64 } := by
  unfold cbPushN
  simp only [min_eq_left (le_of_lt h)]
  rw [if_pos (by omega)]

/-- C9: for a power-of-two buffer and `count ≤ size`, `push_n` advances
`pos` by exactly `count` (as a `size_t`) and produces the same buffer as
`count` successive `push` calls.  (That `push_n` writes at most two
contiguous spans is its very definition: one or two `copy_n` blocks.) -/
theorem claim_C9_pushN_eq_iterated_push {α : Type} (b : CyclicBuffer α)
    (elements : List α) (count : ℕ) (hwf : cbWf b) (hpos : b.pos < 2 ^ 64)
    (hcount : count ≤ b.mask + 1) (hlen : count ≤ elements.length) :
    cbPushN b elements count = cbPushIter b (elements.take count) ∧
      (cbPushN b elements count).pos = (b.pos + count) % 2 ^ 64 := by
  obtain ⟨⟨k, hk, hmask⟩, _⟩ := hwf
  have hmaskmod : ∀ y : ℕ, y &&& b.mask = y % 2 ^ k := fun y => by
    have hm : b.mask = 2 ^ k - 1 := by omega
    rw [hm, Nat.and_pow_two_sub_one_eq_mod]
  have hdvd : (2 : ℕ) ^ k ∣ 2 ^ 64 := pow_dvd_pow 2 hk
  have hmplt : b.pos &&& b.mask < 2 ^ k := by
    rw [hmaskmod]
    exact Nat.mod_lt _ (Nat.pos_pow_of_pos _ (by norm_num))
  by_cases hsplit : count ≤ 1 + b.mask - (b.pos &&& b.mask)
  · rw [cbPushN_single b elements count hsplit]
    constructor
    · rw [cbPushIter_consec (elements.take count) b k hk hmask hpos
        (by rw [List.length_take]; omega)]
      have hlt : (elements.take count).length = count := by
        rw [List.length_take]
        omega
      rw [hlt]
    · rfl
  · push_neg at hsplit
    have hcur : 1 + b.mask - (b.pos &&& b.mask) ≤ count := le_of_lt hsplit
    rw [cbPushN_double b elements count hsplit]
    have hc : count = (1 + b.mask - (b.pos &&& b.mask)) +
        (count - (1 + b.mask - (b.pos &&& b.mask))) := by omega
    constructor
    · conv_rhs => rw [hc, List.take_add]
      rw [cbPushIter, List.foldl_append, ← cbPushIter, ← cbPushIter]
      have hlen1 : (elements.take (1 + b.mask - (b.pos &&& b.mask))).length =
          1 + b.mask - (b.pos &&& b.mask) := by
        rw [List.length_take]
        omega
      rw [cbPushIter_consec _ b k hk hmask hpos (by rw [hlen1]; omega)]
      rw [hlen1]
      have hlen2 : ((elements.drop (1 + b.mask - (b.pos &&& b.mask))).take
          (count - (1 + b.mask - (b.pos &&& b.mask)))).length =
          count - (1 + b.mask - (b.pos &&& b.mask)) := by
        rw [List.length_take, List.length_drop]
        omega
      have hzero : ((b.pos + (1 + b.mask - (b.pos &&& b.mask))) % 2 ^ 64) &&& b.mask = 0 := by
        have hc0 := hmaskmod b.pos
        rw [hc0, hmaskmod, Nat.mod_mod_of_dvd _ hdvd]
        have hdm := Nat.div_add_mod b.pos (2 ^ k)
        have hlt : b.pos % 2 ^ k < 2 ^ k := by rw [← hc0]; exact hmplt
        have hmul : 2 ^ k * (b.pos / 2 ^ k + 1) = 2 ^ k * (b.pos / 2 ^ k) + 2 ^ k := by
          ring
        have h4 : b.pos + (1 + b.mask - b.pos % 2 ^ k) = 2 ^ k * (b.pos / 2 ^ k + 1) := by
          omega
        rw [h4, Nat.mul_mod_right]
      rw [cbPushIter_consec
        (List.take (count - (1 + b.mask - (b.pos &&& b.mask)))
          (List.drop (1 + b.mask - (b.pos &&& b.mask)) elements))
        { pos := (b.pos + (1 + b.mask - (b.pos &&& b.mask))) % 2 ^ 64, mask := b.mask,
          padding := b.padding,
          storage :=
            copy_n b.storage (b.padding + (b.pos &&& b.mask))
              (List.take (1 + b.mask - (b.pos &&& b.mask)) elements) }
        k hk hmask (Nat.mod_lt _ (by norm_num))
        (by
          show ((b.pos + (1 + b.mask - (b.pos &&& b.mask))) % 2 ^ 64 &&& b.mask) +
            (List.take (count - (1 + b.mask - (b.pos &&& b.mask)))
              (List.drop (1 + b.mask - (b.pos &&& b.mask)) elements)).length ≤ b.mask + 1
          rw [hzero, hlen2]
          omega)]
      ext1
      · show (b.pos + count) % 2 ^ 64 =
          ((b.pos + (1 + b.mask - (b.pos &&& b.mask))) % 2 ^ 64 +
            (List.take (count - (1 + b.mask - (b.pos &&& b.mask)))
              (List.drop (1 + b.mask - (b.pos &&& b.mask)) elements)).length) % 2 ^ 64
        rw [Nat.mod_add_mod, hlen2]
        congr 1
        omega
      · rfl
      · rfl
      · show copy_n
            (copy_n b.storage (b.padding + (b.pos &&& b.mask))
              (List.take (1 + b.mask - (b.pos &&& b.mask)) elements))
            b.padding
            (List.take (count - (1 + b.mask - (b.pos &&& b.mask)))
              (List.drop (1 + b.mask - (b.pos &&& b.mask)) elements)) =
          copy_n
            (copy_n b.storage (b.padding + (b.pos &&& b.mask))
              (List.take (1 + b.mask - (b.pos &&& b.mask)) elements))
            (b.padding +
              ((b.pos + (1 + b.mask - (b.pos &&& b.mask))) % 2 ^ 64 &&& b.mask))
            (List.take (count - (1 + b.mask - (b.pos &&& b.mask)))
              (List.drop (1 + b.mask - (b.pos &&& b.mask)) elements))
        rw [hzero, Nat.add_zero]
    · rfl

/-- C8 (counterexample): for a buffer resized to 4 elements with padding 4,
`fill(7)` does not write 7 to the whole 12-element storage. -/
theorem claim_C8_counterexample :
    ¬ ∀ i < (cbFill (cbResize ℕ 4 4) 7).storage.length,
        (cbFill (cbResize ℕ 4 4) 7).storage[i]? = some 7 := by decide

/-- C8 (amended): `fill(v)` writes `v` to exactly the first `getSize()`
elements of the storage (the front padding and the leading part of the data
region), leaving the trailing `2 * padding` elements unchanged. -/
theorem claim_C8_amended {α : Type} (b : CyclicBuffer α) (d : α)
    (h : b.mask + 1 ≤ b.storage.length) :
    (cbFill b d).storage.length = b.storage.length ∧
      ∀ i : ℕ, (cbFill b d).storage[i]? =
        if i < cbSize b then some d else b.storage[i]? := by
  constructor
  · exact copy_n_length _ _ _
  · intro i
    have hrep : (List.replicate (cbSize b) d).length = cbSize b := List.length_replicate _ _
    rw [cbFill]
    show (copy_n b.storage 0 (List.replicate (cbSize b) d))[i]? = _
    rw [copy_n_getElem _ _ _
      (by simp only [Nat.zero_add, List.length_replicate, cbSize]; exact h) i]
    rcases lt_or_ge i (cbSize b) with hi | hi
    · rw [if_pos (by rw [hrep]; omega), if_pos hi, Nat.sub_zero,
        List.getElem?_replicate, if_pos hi]
    · rw [if_neg (by rw [hrep]; omega), if_neg (by omega)]

/-! ### Model update and bit-extraction bounds -/

lemma fastBitModelUpdate_lt {p : ℕ} (h : p < kMaxValue) (bit : ℕ) :
    fastBitModelUpdate p bit < kMaxValue := by
  unfold fastBitModelUpdate
  split
  · rw [Nat.shiftRight_eq_div_pow]
    have hx : 0 < kMaxValue - p := by omega
    have := Nat.div_lt_self hx (show 1 < 2 ^ 9 by norm_num)
    omega
  · rw [Nat.shiftRight_eq_div_pow]
    have := Nat.div_le_self p (2 ^ 9)
    omega

lemma shiftRight31_le_one {code : ℕ} (h : code < 2 ^ 32) : code >>> 31 ≤ 1 := by
  rw [Nat.shiftRight_eq_div_pow]
  have h2 : code / 2 ^ 31 < 2 := (Nat.div_lt_iff_lt_mul (by norm_num)).mpr (by norm_num at h ⊢; omega)
  omega

lemma rcGetDecodedBit_bit_le (p : ℕ) (d : RDec) : (rcGetDecodedBit p d).1 ≤ 1 := by
  by_cases h : d.code < (d.range >>> kShift) * p <;> simp [rcGetDecodedBit, h]

lemma rcDecodeD_bit_le (F : List ℕ) (d : RDec) : (rcDecodeD F d).1 ≤ 1 := by
  by_cases h : d.code < d.range >>> 1 <;> simp [rcDecodeD, h]

/-! ### Code-register bit streams -/

lemma codeBits_length : ∀ (n code : ℕ), (codeBits n code).length = n := by
  intro n
  induction n with
  | zero => intro code; rfl
  | succ n ih => intro code; simp [codeBits, ih]

lemma codeBits_le_one : ∀ (n code : ℕ), code < 2 ^ 32 → ∀ b ∈ codeBits n code, b ≤ 1 := by
  intro n
  induction n with
  | zero => intro code _ b hb; simp [codeBits] at hb
  | succ n ih =>
    intro code hcode b hb
    rw [codeBits] at hb
    rcases List.mem_cons.mp hb with rfl | hmem
    · exact shiftRight31_le_one hcode
    · exact ih _ (Nat.mod_lt _ (by norm_num)) b hmem

lemma codeBits_add : ∀ (a code : ℕ), code < 2 ^ 32 → ∀ b : ℕ,
    codeBits (a + b) code = codeBits a code ++ codeBits b (code * 2 ^ a % 2 ^ 32) := by
  intro a
  induction a with
  | zero =>
    intro code hcode b
    have h : code * 2 ^ 0 % 2 ^ 32 = code := by
      rw [pow_zero, Nat.mul_one, Nat.mod_eq_of_lt hcode]
    rw [Nat.zero_add, h]
    simp [codeBits]
  | succ a ih =>
    intro code hcode b
    rw [Nat.succ_add, codeBits, codeBits,
      ih (code * 2 % 2 ^ 32) (Nat.mod_lt _ (by norm_num)) b, List.cons_append]
    congr 3
    rw [Nat.mod_mul_mod]
    congr 1
    ring

lemma assembleBits_cons (b : ℕ) (bs : List ℕ) (acc : ℕ) :
    assembleBits (b :: bs) acc = assembleBits bs (acc * 2 + b) := rfl

lemma assembleBits_append (xs ys : List ℕ) (acc : ℕ) :
    assembleBits (xs ++ ys) acc = assembleBits ys (assembleBits xs acc) := by
  simp [assembleBits, List.foldl_append]

lemma assembleBits_split : ∀ (bs : List ℕ) (acc : ℕ),
    assembleBits bs acc = acc * 2 ^ bs.length + assembleBits bs 0 := by
  intro bs
  induction bs with
  | nil => intro acc; simp [assembleBits]
  | cons b rest ih =>
    intro acc
    rw [assembleBits_cons, ih (acc * 2 + b), assembleBits_cons, ih (0 * 2 + b)]
    simp only [List.length_cons, pow_succ]
    ring

lemma assembleBits_lt : ∀ (bs : List ℕ), (∀ b ∈ bs, b ≤ 1) →
    assembleBits bs 0 < 2 ^ bs.length := by
  intro bs
  induction bs with
  | nil => intro _; simp [assembleBits]
  | cons b rest ih =>
    intro hb
    rw [assembleBits_cons, assembleBits_split]
    have h1 : b ≤ 1 := hb b (List.mem_cons_self _ _)
    have h2 : assembleBits rest 0 < 2 ^ rest.length :=
      ih (fun x hx => hb x (List.mem_cons_of_mem _ hx))
    simp only [List.length_cons, pow_succ]
    have h3 : (0 * 2 + b) * 2 ^ rest.length ≤ 2 ^ rest.length := by
      have : 0 * 2 + b ≤ 1 := by omega
      calc (0 * 2 + b) * 2 ^ rest.length ≤ 1 * 2 ^ rest.length :=
            Nat.mul_le_mul_right _ this
        _ = 2 ^ rest.length := one_mul _
    omega

lemma assembleBits_codeBits : ∀ (n : ℕ), n ≤ 32 → ∀ (code acc : ℕ), code < 2 ^ 32 →
    assembleBits (codeBits n code) acc = acc * 2 ^ n + code / 2 ^ (32 - n) := by
  intro n
  induction n with
  | zero =>
    intro _ code acc hcode
    simp [codeBits, assembleBits]
    omega
  | succ n ih =>
    intro hn code acc hcode
    rw [codeBits, assembleBits_cons,
      ih (by omega) _ _ (Nat.mod_lt _ (by norm_num))]
    have hrw : code * 2 % 2 ^ 32 = code % 2 ^ 31 * 2 := by
      have h32 : (2 : ℕ) ^ 32 = 2 ^ 31 * 2 := by norm_num
      rw [h32, Nat.mul_mod_mul_right]
    have hpow : (2 : ℕ) ^ (32 - n) = 2 ^ (31 - n) * 2 := by
      rw [← pow_succ]
      congr 1
      omega
    rw [hrw, hpow, Nat.mul_div_mul_right _ _ (by norm_num)]
    have hgoal : code / 2 ^ (32 - (n + 1)) =
        code / 2 ^ 31 * 2 ^ n + code % 2 ^ 31 / 2 ^ (31 - n) := by
      have h1 : (32 - (n + 1)) = 31 - n := by omega
      rw [h1]
      have hd : code = code % 2 ^ 31 + code / 2 ^ 31 * 2 ^ n * 2 ^ (31 - n) := by
        have hp : (2 : ℕ) ^ n * 2 ^ (31 - n) = 2 ^ 31 := by
          rw [← pow_add]
          congr 1
          omega
        calc code = 2 ^ 31 * (code / 2 ^ 31) + code % 2 ^ 31 :=
              (Nat.div_add_mod code (2 ^ 31)).symm
          _ = code % 2 ^ 31 + code / 2 ^ 31 * 2 ^ n * 2 ^ (31 - n) := by
              rw [Nat.mul_assoc, hp]
              ring
      conv_lhs => rw [hd]
      rw [Nat.add_mul_div_right _ _ (Nat.pos_pow_of_pos _ (by norm_num))]
      ring
    rw [hgoal, Nat.shiftRight_eq_div_pow]
    ring

/-! ### Shape of the processSample operation traces -/

lemma pseModelledLoop_shape : ∀ (n base : ℕ) (st : PSE), st.code < 2 ^ 32 →
    ∃ new : List TOp,
      (pseModelledLoop n base st).ops = st.ops ++ new ∧
      new.map TOp.bit = codeBits n st.code ∧
      (∀ op ∈ new, ∃ i p b, op = TOp.modelled i p b) ∧
      (pseModelledLoop n base st).code = st.code * 2 ^ n % 2 ^ 32 ∧
      (pseModelledLoop n base st).ctx = assembleBits (codeBits n st.code) st.ctx := by
  intro n
  induction n with
  | zero =>
    intro base st hcode
    refine ⟨[], by simp [pseModelledLoop], by simp [codeBits], by simp, ?_, ?_⟩
    · simp only [pseModelledLoop, pow_zero, Nat.mul_one]
      omega
    · simp [pseModelledLoop, codeBits, assembleBits]
  | succ n ih =>
    intro base st hcode
    rw [pseModelledLoop]
    obtain ⟨new, h1, h2, h3, h4, h5⟩ := ih base
      { code := st.code * 2 % 2 ^ 32
        ctx := st.ctx * 2 + st.code >>> 31
        models := upd st.models (base + st.ctx)
          (fastBitModelUpdate (st.models (base + st.ctx)) (st.code >>> 31))
        ent := rcEncodeP
          (st.models (base + st.ctx) + (if st.models (base + st.ctx) = 0 then 1 else 0))
          (st.code >>> 31) st.ent
        ops := st.ops ++ [TOp.modelled (base + st.ctx)
          (st.models (base + st.ctx) + (if st.models (base + st.ctx) = 0 then 1 else 0))
          (st.code >>> 31)] }
      (Nat.mod_lt _ (by norm_num))
    refine ⟨TOp.modelled (base + st.ctx)
      (st.models (base + st.ctx) + (if st.models (base + st.ctx) = 0 then 1 else 0))
      (st.code >>> 31) :: new, ?_, ?_, ?_, ?_, ?_⟩
    · rw [h1]
      simp
    · rw [codeBits, List.map_cons, h2]
      rfl
    · intro op hop
      rcases List.mem_cons.mp hop with rfl | hmem
      · exact ⟨_, _, _, rfl⟩
      · exact h3 op hmem
    · rw [h4, Nat.mod_mul_mod]
      congr 1
      ring
    · rw [h5, codeBits]
      rfl

lemma pseNoiseLoop_shape : ∀ (n : ℕ) (st : PSE), st.code < 2 ^ 32 →
    ∃ new : List TOp,
      (pseNoiseLoop n st).ops = st.ops ++ new ∧
      new.map TOp.bit = codeBits n st.code ∧
      (∀ op ∈ new, ∃ b, op = TOp.direct b) ∧
      (pseNoiseLoop n st).ctx = st.ctx ∧
      (pseNoiseLoop n st).models = st.models := by
  intro n
  induction n with
  | zero =>
    intro st hcode
    exact ⟨[], by simp [pseNoiseLoop], by simp [codeBits], by simp, rfl, rfl⟩
  | succ n ih =>
    intro st hcode
    rw [pseNoiseLoop]
    obtain ⟨new, h1, h2, h3, h4, h5⟩ := ih
      { code := st.code * 2 % 2 ^ 32
        ctx := st.ctx
        models := st.models
        ent := rcEncodeD (st.code >>> 31) st.ent
        ops := st.ops ++ [TOp.direct (st.code >>> 31)] }
      (Nat.mod_lt _ (by norm_num))
    refine ⟨TOp.direct (st.code >>> 31) :: new, ?_, ?_, ?_, h4, h5⟩
    · rw [h1]
      simp
    · rw [codeBits, List.map_cons, h2]
      rfl
    · intro op hop
      rcases List.mem_cons.mp hop with rfl | hmem
      · exact ⟨_, rfl⟩
      · exact h3 op hmem

lemma psdModelledLoop_shape : ∀ (n base : ℕ) (F : List ℕ) (st : PSD),
    ∃ new : List TOp,
      (psdModelledLoop n base F st).ops = st.ops ++ new ∧
      (∀ op ∈ new, ∃ i p b, op = TOp.modelled i p b) ∧
      (∀ b ∈ new.map TOp.bit, b ≤ 1) ∧
      new.length = n ∧
      (psdModelledLoop n base F st).ctx = assembleBits (new.map TOp.bit) st.ctx := by
  intro n
  induction n with
  | zero =>
    intro base F st
    exact ⟨[], by simp [psdModelledLoop], by simp, by simp, rfl,
      by simp [psdModelledLoop, assembleBits]⟩
  | succ n ih =>
    intro base F st
    rw [psdModelledLoop]
    obtain ⟨new, h1, h2, h3, h4, h5⟩ := ih base F
      { ctx := st.ctx * 2 + (rcGetDecodedBit
          (st.models (base + st.ctx) + (if st.models (base + st.ctx) = 0 then 1 else 0))
          st.dec).1
        models := upd st.models (base + st.ctx)
          (fastBitModelUpdate (st.models (base + st.ctx))
            (rcGetDecodedBit
              (st.models (base + st.ctx) + (if st.models (base + st.ctx) = 0 then 1 else 0))
              st.dec).1)
        dec := rcNormalizeD F (rcGetDecodedBit
          (st.models (base + st.ctx) + (if st.models (base + st.ctx) = 0 then 1 else 0))
          st.dec).2
        ops := st.ops ++ [TOp.modelled (base + st.ctx)
          (st.models (base + st.ctx) + (if st.models (base + st.ctx) = 0 then 1 else 0))
          (rcGetDecodedBit
            (st.models (base + st.ctx) + (if st.models (base + st.ctx) = 0 then 1 else 0))
            st.dec).1] }
    refine ⟨TOp.modelled (base + st.ctx)
      (st.models (base + st.ctx) + (if st.models (base + st.ctx) = 0 then 1 else 0))
      (rcGetDecodedBit
        (st.models (base + st.ctx) + (if st.models (base + st.ctx) = 0 then 1 else 0))
        st.dec).1 :: new, ?_, ?_, ?_, ?_, ?_⟩
    · rw [h1]
      simp
    · intro op hop
      rcases List.mem_cons.mp hop with rfl | hmem
      · exact ⟨_, _, _, rfl⟩
      · exact h2 op hmem
    · intro b hb
      rcases List.mem_cons.mp hb with rfl | hmem
      · exact rcGetDecodedBit_bit_le _ _
      · exact h3 b hmem
    · simp [h4]
    · rw [h5, List.map_cons]
      rfl

lemma psdNoiseLoop_shape : ∀ (n : ℕ) (F : List ℕ) (st : PSD),
    ∃ new : List TOp,
      (psdNoiseLoop n F st).ops = st.ops ++ new ∧
      (∀ op ∈ new, ∃ b, op = TOp.direct b) ∧
      (∀ b ∈ new.map TOp.bit, b ≤ 1) ∧
      new.length = n ∧
      (psdNoiseLoop n F st).ctx = assembleBits (new.map TOp.bit) st.ctx ∧
      (psdNoiseLoop n F st).models = st.models := by
  intro n
  induction n with
  | zero =>
    intro F st
    exact ⟨[], by simp [psdNoiseLoop], by simp, by simp, rfl,
      by simp [psdNoiseLoop, assembleBits], rfl⟩
  | succ n ih =>
    intro F st
    rw [psdNoiseLoop]
    obtain ⟨new, h1, h2, h3, h4, h5, h6⟩ := ih F
      { ctx := st.ctx * 2 + (rcDecodeD F st.dec).1
        models := st.models
        dec := (rcDecodeD F st.dec).2
        ops := st.ops ++ [TOp.direct (rcDecodeD F st.dec).1] }
    refine ⟨TOp.direct (rcDecodeD F st.dec).1 :: new, ?_, ?_, ?_, ?_, ?_, h6⟩
    · rw [h1]
      simp
    · intro op hop
      rcases List.mem_cons.mp hop with rfl | hmem
      · exact ⟨_, rfl⟩
      · exact h2 op hmem
    · intro b hb
      rcases List.mem_cons.mp hb with rfl | hmem
      · exact rcDecodeD_bit_le _ _
      · exact h3 b hmem
    · simp [h4]
    · rw [h5, List.map_cons]
      rfl

/-! ### Context-walk index bounds -/

lemma pseModelledLoop_idx : ∀ (n m base : ℕ) (st : PSE), 1 ≤ st.ctx → st.ctx < 2 ^ m →
    st.code < 2 ^ 32 →
    ∀ op ∈ (pseModelledLoop n base st).ops,
      op ∈ st.ops ∨ ∃ i p b, op = TOp.modelled i p b ∧ base + 1 ≤ i ∧
        i < base + 2 ^ (m + n - 1) ∧ 1 ≤ p ∧ b ≤ 1 := by
  intro n
  induction n with
  | zero =>
    intro m base st _ _ _ op hop
    exact Or.inl hop
  | succ n ih =>
    intro m base st hc1 hc2 hcode op hop
    rw [pseModelledLoop] at hop
    have hbit : st.code >>> 31 ≤ 1 := shiftRight31_le_one hcode
    have := ih (m + 1) base _ (by simp only []; omega)
      (by
        simp only []
        have : st.ctx * 2 + st.code >>> 31 < 2 ^ m * 2 := by omega
        calc st.ctx * 2 + st.code >>> 31 < 2 ^ m * 2 := this
          _ = 2 ^ (m + 1) := by rw [pow_succ])
      (Nat.mod_lt _ (by norm_num)) op hop
    rcases this with hmem | hrange
    · simp only [] at hmem
      rcases List.mem_append.mp hmem with h | h
      · exact Or.inl h
      · right
        rcases List.mem_singleton.mp h with rfl
        refine ⟨base + st.ctx, _, st.code >>> 31, rfl, by omega, ?_, ?_, hbit⟩
        · have hle : 2 ^ m ≤ 2 ^ (m + (n + 1) - 1) :=
            Nat.pow_le_pow_right (by norm_num) (by omega)
          omega
        · split <;> omega
    · obtain ⟨i, p, b, heq, hlo, hhi, hp, hb⟩ := hrange
      right
      refine ⟨i, p, b, heq, hlo, ?_, hp, hb⟩
      have : m + 1 + n - 1 = m + (n + 1) - 1 := by omega
      rw [this] at hhi
      exact hhi

lemma psdModelledLoop_idx : ∀ (n m base : ℕ) (F : List ℕ) (st : PSD),
    1 ≤ st.ctx → st.ctx < 2 ^ m →
    ∀ op ∈ (psdModelledLoop n base F st).ops,
      op ∈ st.ops ∨ ∃ i p b, op = TOp.modelled i p b ∧ base + 1 ≤ i ∧
        i < base + 2 ^ (m + n - 1) ∧ 1 ≤ p ∧ b ≤ 1 := by
  intro n
  induction n with
  | zero =>
    intro m base F st _ _ op hop
    exact Or.inl hop
  | succ n ih =>
    intro m base F st hc1 hc2 op hop
    rw [psdModelledLoop] at hop
    have hbit := rcGetDecodedBit_bit_le
      (st.models (base + st.ctx) + (if st.models (base + st.ctx) = 0 then 1 else 0)) st.dec
    have := ih (m + 1) base F _ (by simp only []; omega)
      (by
        simp only []
        have h2 : st.ctx * 2 + (rcGetDecodedBit
            (st.models (base + st.ctx) + (if st.models (base + st.ctx) = 0 then 1 else 0))
            st.dec).1 < 2 ^ m * 2 := by omega
        calc _ < 2 ^ m * 2 := h2
          _ = 2 ^ (m + 1) := by rw [pow_succ])
      op hop
    rcases this with hmem | hrange
    · simp only [] at hmem
      rcases List.mem_append.mp hmem with h | h
      · exact Or.inl h
      · right
        rcases List.mem_singleton.mp h with rfl
        refine ⟨base + st.ctx, _, _, rfl, by omega, ?_, ?_, hbit⟩
        · have hle : 2 ^ m ≤ 2 ^ (m + (n + 1) - 1) :=
            Nat.pow_le_pow_right (by norm_num) (by omega)
          omega
        · split <;> omega
    · obtain ⟨i, p, b, heq, hlo, hhi, hp, hb⟩ := hrange
      right
      refine ⟨i, p, b, heq, hlo, ?_, hp, hb⟩
      have : m + 1 + n - 1 = m + (n + 1) - 1 := by omega
      rw [this] at hhi
      exact hhi

/-! ### Per-sample trace facts -/

lemma processSampleEnc_ops_facts (models : ℕ → ℕ) (ent : REnc) (ch c : ℕ)
    (hc : c < 2 ^ 16) :
    (processSampleEnc models ent 0 ch c).ops.map TOp.bit = bits16 c ∧
      (processSampleEnc models ent 0 ch c).ops.length = 16 ∧
      (processSampleEnc models ent 0 ch c).ret = (2 ^ 13 + c / 2 ^ 3) ^^^ (1 <<< 16) := by
  have hcode : c <<< 16 % 2 ^ 32 = c * 2 ^ 16 := by
    rw [Nat.shiftLeft_eq]
    exact Nat.mod_eq_of_lt (by
      calc c * 2 ^ 16 < 2 ^ 16 * 2 ^ 16 := by
            exact (Nat.mul_lt_mul_right (by norm_num : (0 : ℕ) < 2 ^ 16)).mpr hc
        _ = 2 ^ 32 := by norm_num)
  have hcode32 : c <<< 16 % 2 ^ 32 < 2 ^ 32 := Nat.mod_lt _ (by norm_num)
  unfold processSampleEnc
  dsimp only
  obtain ⟨new1, e1, e2, e3, e4, e5⟩ := pseModelledLoop_shape non_noise_bits
    ((0 * 2 + ch) <<< non_noise_bits)
    ⟨c <<< 16 % 2 ^ 32, 1, models, ent, []⟩ hcode32
  obtain ⟨new2, f1, f2, f3, f4, f5⟩ := pseNoiseLoop_shape noise_bits _ (by rw [e4]; exact Nat.mod_lt _ (by norm_num))
  refine ⟨?_, ?_, ?_⟩
  · rw [f1, e1, List.nil_append, List.map_append, e2, f2, e4]
    rw [show (noise_bits : ℕ) = 3 from rfl, show (non_noise_bits : ℕ) = 13 from rfl]
    rw [← codeBits_add 13 _ hcode32 3]
    rfl
  · rw [f1, e1, List.nil_append, List.length_append]
    have l1 : new1.length = non_noise_bits := by
      rw [← List.length_map new1 TOp.bit, e2, codeBits_length]
    have l2 : new2.length = noise_bits := by
      rw [← List.length_map new2 TOp.bit, f2, codeBits_length]
    rw [l1, l2]
    rfl
  · rw [f4, e5, show (non_noise_bits : ℕ) = 13 from rfl,
      assembleBits_codeBits 13 (by norm_num) _ 1 hcode32, hcode]
    have hdiv : c * 2 ^ 16 / 2 ^ (32 - 13) = c / 2 ^ 3 := by
      have h1 : (2 : ℕ) ^ (32 - 13) = 2 ^ 3 * 2 ^ 16 := by norm_num
      rw [h1, Nat.mul_div_mul_right _ _ (by norm_num : (0 : ℕ) < 2 ^ 16)]
    rw [hdiv, one_mul]

lemma processSampleDec_ops_facts (models : ℕ → ℕ) (dec : RDec) (F : List ℕ) (ch : ℕ) :
    (∀ b ∈ (processSampleDec models dec F 0 ch).ops.map TOp.bit, b ≤ 1) ∧
      (processSampleDec models dec F 0 ch).ops.length = 16 ∧
      (processSampleDec models dec F 0 ch).ret =
        assembleBits ((processSampleDec models dec F 0 ch).ops.map TOp.bit) 0 := by
  unfold processSampleDec
  dsimp only
  obtain ⟨new1, e1, e2, e3, e4, e5⟩ := psdModelledLoop_shape non_noise_bits
    ((0 * 2 + ch) <<< non_noise_bits) F ⟨1, models, dec, []⟩
  obtain ⟨new2, f1, f2, f3, f4, f5, f6⟩ := psdNoiseLoop_shape noise_bits F _
  have hbits : ∀ b ∈ new1.map TOp.bit ++ new2.map TOp.bit, b ≤ 1 := by
    intro b hb
    rcases List.mem_append.mp hb with h | h
    · exact e3 b h
    · exact f3 b h
  have hlen : (new1.map TOp.bit ++ new2.map TOp.bit).length = 16 := by
    rw [List.length_append, List.length_map, List.length_map, e4, f4]
    rfl
  refine ⟨?_, ?_, ?_⟩
  · intro b hb
    rw [f1, e1, List.nil_append, List.map_append] at hb
    exact hbits b hb
  · rw [f1, e1, List.nil_append, List.length_append, e4, f4]
    rfl
  · rw [f5, e5, f1, e1, List.nil_append, List.map_append, ← assembleBits_append]
    rw [assembleBits_split (new1.map TOp.bit ++ new2.map TOp.bit) 1, hlen, one_mul]
    have hv : assembleBits (new1.map TOp.bit ++ new2.map TOp.bit) 0 < 2 ^ 16 := by
      have := assembleBits_lt (new1.map TOp.bit ++ new2.map TOp.bit) hbits
      rw [hlen] at this
      exact this
    have hxor := xor_two_pow_add (k := 16) hv
    rw [show (1 <<< 16 : ℕ) = 2 ^ 16 from rfl]
    exact hxor

lemma processSampleEnc_idx (models : ℕ → ℕ) (ent : REnc) (ch c : ℕ) :
    ∀ op ∈ (processSampleEnc models ent 0 ch c).ops,
      opIdxRange (ch * 2 ^ 13 + 1) (ch * 2 ^ 13 + 2 ^ 13) op := by
  have hbase : (0 * 2 + ch) <<< non_noise_bits = ch * 2 ^ 13 := by
    rw [Nat.shiftLeft_eq, show non_noise_bits = 13 from rfl]
    ring
  intro op hop
  unfold processSampleEnc at hop
  dsimp only at hop
  obtain ⟨new2, f1, f2, f3, f4, f5⟩ := pseNoiseLoop_shape noise_bits
    (pseModelledLoop non_noise_bits ((0 * 2 + ch) <<< non_noise_bits)
      ⟨c <<< 16 % 2 ^ 32, 1, models, ent, []⟩)
    (by
      obtain ⟨_, _, _, _, h4, _⟩ := pseModelledLoop_shape non_noise_bits
        ((0 * 2 + ch) <<< non_noise_bits) ⟨c <<< 16 % 2 ^ 32, 1, models, ent, []⟩
        (Nat.mod_lt _ (by norm_num))
      rw [h4]
      exact Nat.mod_lt _ (by norm_num))
  rw [f1] at hop
  rcases List.mem_append.mp hop with h | h
  · have := pseModelledLoop_idx non_noise_bits 1 ((0 * 2 + ch) <<< non_noise_bits)
      ⟨c <<< 16 % 2 ^ 32, 1, models, ent, []⟩ (le_refl 1) (by norm_num)
      (Nat.mod_lt _ (by norm_num)) op h
    rcases this with hmem | ⟨i, p, b, heq, hlo, hhi, hp, hb⟩
    · simp at hmem
    · subst heq
      rw [hbase] at hlo hhi
      exact ⟨hlo, by
        have h13 : 1 + non_noise_bits - 1 = 13 := rfl
        rw [h13] at hhi
        exact hhi⟩
  · obtain ⟨b, rfl⟩ := f3 op h
    trivial

lemma processSampleDec_idx (models : ℕ → ℕ) (dec : RDec) (F : List ℕ) (ch : ℕ) :
    ∀ op ∈ (processSampleDec models dec F 0 ch).ops,
      opIdxRange (ch * 2 ^ 13 + 1) (ch * 2 ^ 13 + 2 ^ 13) op := by
  have hbase : (0 * 2 + ch) <<< non_noise_bits = ch * 2 ^ 13 := by
    rw [Nat.shiftLeft_eq, show non_noise_bits = 13 from rfl]
    ring
  intro op hop
  unfold processSampleDec at hop
  dsimp only at hop
  obtain ⟨new2, f1, f2, f3, f4, f5, f6⟩ := psdNoiseLoop_shape noise_bits F
    (psdModelledLoop non_noise_bits ((0 * 2 + ch) <<< non_noise_bits) F
      ⟨1, models, dec, []⟩)
  rw [f1] at hop
  rcases List.mem_append.mp hop with h | h
  · have := psdModelledLoop_idx non_noise_bits 1 ((0 * 2 + ch) <<< non_noise_bits) F
      ⟨1, models, dec, []⟩ (le_refl 1) (by norm_num) op h
    rcases this with hmem | ⟨i, p, b, heq, hlo, hhi, hp, hb⟩
    · simp at hmem
    · subst heq
      rw [hbase] at hlo hhi
      exact ⟨hlo, by
        have h13 : 1 + non_noise_bits - 1 = 13 := rfl
        rw [h13] at hhi
        exact hhi⟩
  · obtain ⟨b, rfl⟩ := f2 op h
    trivial

lemma opIdxRange_mono {lo hi lo' hi' : ℕ} (h1 : lo' ≤ lo) (h2 : hi ≤ hi') (op : TOp)
    (h : opIdxRange lo hi op) : opIdxRange lo' hi' op := by
  cases op with
  | modelled i p b =>
    obtain ⟨ha, hb⟩ := h
    exact ⟨by omega, by omega⟩
  | direct b => trivial

/-! ### Operation traces of the frame loops -/

lemma compressLoop_ops_pred (P : TOp → Prop)
    (hP : ∀ (models : ℕ → ℕ) (ent : REnc) (ch c : ℕ), ch ≤ 1 →
      ∀ op ∈ (processSampleEnc models ent 0 ch c).ops, P op) :
    ∀ (n : ℕ) (S : List ℕ) (i : ℕ) (st : CmpSt), (∀ op ∈ st.ops, P op) →
      ∀ op ∈ (compressLoop n S i st).ops, P op := by
  intro n
  induction n with
  | zero =>
    intro S i st hst op hop
    exact hst op hop
  | succ n ih =>
    intro S i st hst op hop
    rw [compressLoop] at hop
    dsimp only at hop
    split at hop
    · exact hst op hop
    · refine ih S (i + 4) _ ?_ op hop
      intro op' hop'
      simp only [] at hop'
      rcases List.mem_append.mp hop' with h | h
      · rcases List.mem_append.mp h with h2 | h2
        · exact hst op' h2
        · exact hP _ _ 0 _ (by norm_num) op' h2
      · exact hP _ _ 1 _ (le_refl 1) op' h

lemma decompressLoop_ops_pred (P : TOp → Prop)
    (hP : ∀ (models : ℕ → ℕ) (dec : RDec) (F : List ℕ) (ch : ℕ), ch ≤ 1 →
      ∀ op ∈ (processSampleDec models dec F 0 ch).ops, P op) :
    ∀ (n : ℕ) (F : List ℕ) (budget : ℕ) (st : DecSt), (∀ op ∈ st.ops, P op) →
      ∀ op ∈ (decompressLoop n F budget st).ops, P op := by
  intro n
  induction n with
  | zero =>
    intro F budget st hst op hop
    exact hst op hop
  | succ n ih =>
    intro F budget st hst op hop
    rw [decompressLoop] at hop
    dsimp only at hop
    split at hop
    · exact hst op hop
    · refine ih F (budget - 4) _ ?_ op hop
      intro op' hop'
      simp only [] at hop'
      rcases List.mem_append.mp hop' with h | h
      · rcases List.mem_append.mp h with h2 | h2
        · exact hst op' h2
        · exact hP _ _ _ 0 (by norm_num) op' h2
      · exact hP _ _ _ 1 (le_refl 1) op' h

/-! ### Frame counting in compress -/

lemma u16_lt (z : ℤ) : u16 z < 2 ^ 16 := by
  unfold u16
  have h1 := Int.emod_nonneg z (by norm_num : (65536 : ℤ) ≠ 0)
  have h2 := Int.emod_lt_of_pos z (by norm_num : (0 : ℤ) < 65536)
  omega

lemma sget_ne_eof {S : List ℕ} {i : ℕ} (h : i < S.length) : sget S i ≠ -1 := by
  unfold sget
  rw [List.get?_eq_get h]
  simp

lemma processSampleEnc_ops_length (models : ℕ → ℕ) (ent : REnc) (ch c : ℕ)
    (hc : c < 2 ^ 16) : (processSampleEnc models ent 0 ch c).ops.length = 16 :=
  (processSampleEnc_ops_facts models ent ch c hc).2.1

lemma compressLoop_frames : ∀ (n : ℕ) (S : List ℕ) (i : ℕ) (st : CmpSt),
    (∀ k < n, i + 4 * k < S.length) →
    (compressLoop n S i st).frames = st.frames + n ∧
      (compressLoop n S i st).ops.length = st.ops.length + 32 * n := by
  intro n
  induction n with
  | zero =>
    intro S i st _
    exact ⟨rfl, rfl⟩
  | succ n ih =>
    intro S i st hin
    rw [compressLoop]
    dsimp only
    rw [if_neg (sget_ne_eof (by have := hin 0 (by omega); omega))]
    constructor
    · rw [(ih S (i + 4) _ (fun k hk => by have := hin (k + 1) (by omega); omega)).1]
      dsimp only
      omega
    · rw [(ih S (i + 4) _ (fun k hk => by have := hin (k + 1) (by omega); omega)).2]
      dsimp only
      simp only [List.length_append]
      rw [processSampleEnc_ops_length _ _ _ _ (u16_lt _),
        processSampleEnc_ops_length _ _ _ _ (u16_lt _)]
      omega

/-! ### Claims C4, C5, C6, C7, C10 -/

/-- C4 (counterexample): the claim says `processSample` returns
`ctx XOR (1 << 16)` equal to the 16-bit value assembled from the coded
bits.  On the encode path `ctx` only accumulates the 13 modelled bits, so
for residual 0 on channel 0 (fresh model table and encoder) the coded bits
assemble to 0 while the function returns 0x12000 = 73728. -/
theorem claim_C4_counterexample :
    (processSampleEnc wav16InitModels rcInitEnc 0 0 0).ret ≠
      assembleBits ((processSampleEnc wav16InitModels rcInitEnc 0 0 0).ops.map TOp.bit) 0 := by
  decide

/-- C4 (amended): one encode call of `processSample` codes exactly the 16
bits of the residual `c` most-significant-first: the first 13 operations go
through the adaptive model at indices `(channel << 13) + ctx` on the walk
from `ctx = 1` (with the point-of-use probability always nonzero, i.e.
patched from 0 to 1), the last 3 are direct bits; the encode-path return
value is `(2^13 + (c >> 3)) XOR (1 << 16)` — the 13-bit walk with its
leading-1 marker, not the assembled 16-bit value — and is discarded by
`compress`.  On the decode path the return value does equal the 16-bit
value assembled from the coded bits. -/
theorem claim_C4_amended (models : ℕ → ℕ) (ent : REnc) (dec : RDec) (F : List ℕ)
    (ch c : ℕ) (hch : ch ≤ 1) (hc : c < 2 ^ 16) :
    ((processSampleEnc models ent 0 ch c).ops.map TOp.bit = bits16 c ∧
      (processSampleEnc models ent 0 ch c).ops.length = 16 ∧
      (∀ op ∈ (processSampleEnc models ent 0 ch c).ops.take non_noise_bits,
        ∃ i p b, op = TOp.modelled i p b ∧ ch * 2 ^ 13 + 1 ≤ i ∧
          i < ch * 2 ^ 13 + 2 ^ 13 ∧ 1 ≤ p) ∧
      (∀ op ∈ (processSampleEnc models ent 0 ch c).ops.drop non_noise_bits,
        ∃ b, op = TOp.direct b) ∧
      (processSampleEnc models ent 0 ch c).ret = (2 ^ 13 + c / 2 ^ 3) ^^^ (1 <<< 16)) ∧
      (processSampleDec models dec F 0 ch).ret =
        assembleBits ((processSampleDec models dec F 0 ch).ops.map TOp.bit) 0 := by
  obtain ⟨hmap, hlen, hret⟩ := processSampleEnc_ops_facts models ent ch c hc
  have hidx := processSampleEnc_idx models ent ch c
  refine ⟨⟨hmap, hlen, ?_, ?_, hret⟩, (processSampleDec_ops_facts models dec F ch).2.2⟩
  · intro op hop
    have hmem : op ∈ (processSampleEnc models ent 0 ch c).ops := List.mem_of_mem_take hop
    -- the first non_noise_bits operations are the modelled ones
    revert hop hmem
    unfold processSampleEnc
    dsimp only
    obtain ⟨new1, e1, e2, e3, e4, e5⟩ := pseModelledLoop_shape non_noise_bits
      ((0 * 2 + ch) <<< non_noise_bits) ⟨c <<< 16 % 2 ^ 32, 1, models, ent, []⟩
      (Nat.mod_lt _ (by norm_num))
    obtain ⟨new2, f1, f2, f3, f4, f5⟩ := pseNoiseLoop_shape noise_bits _
      (by rw [e4]; exact Nat.mod_lt _ (by norm_num))
    intro hop hmem
    rw [f1, e1, List.nil_append] at hop
    have hlen1 : new1.length = non_noise_bits := by
      rw [← List.length_map new1 TOp.bit, e2, codeBits_length]
    rw [← hlen1, List.take_left] at hop
    have hop' : op ∈ (pseModelledLoop non_noise_bits
        ((0 * 2 + ch) <<< non_noise_bits)
        ⟨c <<< 16 % 2 ^ 32, 1, models, ent, []⟩).ops := by
      rw [e1, List.nil_append]
      exact hop
    have := pseModelledLoop_idx non_noise_bits 1 ((0 * 2 + ch) <<< non_noise_bits)
      ⟨c <<< 16 % 2 ^ 32, 1, models, ent, []⟩ (le_refl 1) (by norm_num)
      (Nat.mod_lt _ (by norm_num)) op hop'
    rcases this with hmem0 | ⟨i, p, b, heq, hlo, hhi, hp, _⟩
    · simp at hmem0
    · refine ⟨i, p, b, heq, ?_, ?_, hp⟩
      · rw [← (by rw [Nat.shiftLeft_eq, show non_noise_bits = 13 from rfl]; ring :
          (0 * 2 + ch) <<< non_noise_bits = ch * 2 ^ 13)]
        exact hlo
      · rw [← (by rw [Nat.shiftLeft_eq, show non_noise_bits = 13 from rfl]; ring :
          (0 * 2 + ch) <<< non_noise_bits = ch * 2 ^ 13)]
        have h13 : 1 + non_noise_bits - 1 = 13 := rfl
        rw [h13] at hhi
        exact hhi
  · intro op hop
    revert hop
    unfold processSampleEnc
    dsimp only
    obtain ⟨new1, e1, e2, e3, e4, e5⟩ := pseModelledLoop_shape non_noise_bits
      ((0 * 2 + ch) <<< non_noise_bits) ⟨c <<< 16 % 2 ^ 32, 1, models, ent, []⟩
      (Nat.mod_lt _ (by norm_num))
    obtain ⟨new2, f1, f2, f3, f4, f5⟩ := pseNoiseLoop_shape noise_bits _
      (by rw [e4]; exact Nat.mod_lt _ (by norm_num))
    intro hop
    rw [f1, e1, List.nil_append] at hop
    have hlen1 : new1.length = non_noise_bits := by
      rw [← List.length_map new1 TOp.bit, e2, codeBits_length]
    rw [← hlen1, List.drop_left] at hop
    exact f3 op hop

/-- C5 (counterexample): for the 7-octet input `[0,0,0,0,0,0,0]` the
encoder does not stop at the frame boundary after the first frame: it
encodes a second (partial) frame, so the frame count is 2, not 1. -/
theorem claim_C5_counterexample :
    (wav16CompressFull [0, 0, 0, 0, 0, 0, 0] 7).frames ≠ 1 := by decide

/-- C5 (amended): the encoder breaks out of the frame loop only when the
first octet of a frame reads EOF.  With `max_count` equal to the input
length it therefore encodes ceil(L/4) frames — including a partial final
frame whose missing octets read as EOF = -1 — and emits 32 coding
operations (16 residual bits per channel) for every such frame; for a
7-octet input that is 2 frames and 64 operations, with residuals emitted
for the partial frame. -/
theorem claim_C5_amended (S : List ℕ) :
    (wav16CompressFull S S.length).frames = (S.length + 3) / 4 ∧
      (wav16CompressFull S S.length).ops.length = 32 * ((S.length + 3) / 4) := by
  have h := compressLoop_frames ((S.length + 3) / 4) S 0 cmpInit
    (fun k hk => by omega)
  unfold wav16CompressFull
  refine ⟨?_, ?_⟩
  · rw [h.1]
    simp [cmpInit]
  · rw [h.2]
    simp [cmpInit]

/-- C6: the compressed octet stream is a pure function of the input octets
and the byte count: re-running `compress` gives the identical stream, and
`opt_var` (stored by `setOpt`, read by nothing) never influences it. -/
theorem claim_C6_deterministic_opt_var_free (w : Wav16Obj) (v1 v2 : ℕ) (S : List ℕ)
    (mc : ℕ) :
    wav16CompressObj (wav16SetOpt w v1).1 S mc = wav16CompressObj (wav16SetOpt w v2).1 S mc ∧
      wav16CompressObj w S mc = wav16CompressObj w S mc ∧
      (wav16SetOpt w v1).2 = true :=
  ⟨rfl, rfl, rfl⟩

/-- C7: the table allocated by `init` has `2 << (non_noise_bits +
kContextBits) = 2^16` entries; for either channel the base context passes
the `check(context < models_.size())` assertion, and every model access of
`processSample` (encode and decode) is at an index strictly below the table
size. -/
theorem claim_C7_table_bounds :
    num_ctx = 2 ^ 16 ∧
      ∀ (models : ℕ → ℕ) (ent : REnc) (dec : RDec) (F : List ℕ) (channel c : ℕ),
        channel ≤ 1 →
        (0 * 2 + channel) <<< non_noise_bits < num_ctx ∧
          (∀ op ∈ (processSampleEnc models ent 0 channel c).ops,
            opIdxRange 0 num_ctx op) ∧
          (∀ op ∈ (processSampleDec models dec F 0 channel).ops,
            opIdxRange 0 num_ctx op) := by
  have hnum : num_ctx = 2 ^ 16 := by decide
  refine ⟨hnum, fun models ent dec F channel c hch => ⟨?_, ?_, ?_⟩⟩
  · rw [Nat.shiftLeft_eq, hnum, show non_noise_bits = 13 from rfl]
    have : (0 * 2 + channel) * 2 ^ 13 ≤ 1 * 2 ^ 13 := by
      apply Nat.mul_le_mul_right
      omega
    omega
  · intro op hop
    refine opIdxRange_mono (by omega) ?_ op (processSampleEnc_idx models ent channel c op hop)
    rw [hnum]
    have : channel * 2 ^ 13 + 2 ^ 13 ≤ 1 * 2 ^ 13 + 2 ^ 13 := by
      have := Nat.mul_le_mul_right (2 ^ 13) hch
      omega
    omega
  · intro op hop
    refine opIdxRange_mono (by omega) ?_ op (processSampleDec_idx models dec F channel op hop)
    rw [hnum]
    have : channel * 2 ^ 13 + 2 ^ 13 ≤ 1 * 2 ^ 13 + 2 ^ 13 := by
      have := Nat.mul_le_mul_right (2 ^ 13) hch
      omega
    omega

/-- C10: the model indices touched on channel 0 lie in `[1, 2^13)` and those
on channel 1 in `[2^13 + 1, 2^14)` — two disjoint intervals — for encode and
decode alike, and throughout any full `compress` or `decompress` run every
touched index stays below `2^14` (of the 2^16-entry table). -/
theorem claim_C10_channel_disjointness :
    (∀ (models : ℕ → ℕ) (ent : REnc) (c : ℕ),
      ∀ op ∈ (processSampleEnc models ent 0 0 c).ops, opIdxRange 1 (2 ^ 13) op) ∧
      (∀ (models : ℕ → ℕ) (ent : REnc) (c : ℕ),
        ∀ op ∈ (processSampleEnc models ent 0 1 c).ops,
          opIdxRange (2 ^ 13 + 1) (2 ^ 14) op) ∧
      (∀ (models : ℕ → ℕ) (dec : RDec) (F : List ℕ),
        ∀ op ∈ (processSampleDec models dec F 0 0).ops, opIdxRange 1 (2 ^ 13) op) ∧
      (∀ (models : ℕ → ℕ) (dec : RDec) (F : List ℕ),
        ∀ op ∈ (processSampleDec models dec F 0 1).ops,
          opIdxRange (2 ^ 13 + 1) (2 ^ 14) op) ∧
      (∀ (S : List ℕ) (mc : ℕ),
        ∀ op ∈ (wav16CompressFull S mc).ops, opIdxRange 1 (2 ^ 14) op) ∧
      (∀ (F : List ℕ) (mc : ℕ),
        ∀ op ∈ (wav16DecompressFull F mc).ops, opIdxRange 1 (2 ^ 14) op) := by
  have hchan : ∀ (ch : ℕ), ch ≤ 1 → 1 ≤ ch * 2 ^ 13 + 1 ∧
      ch * 2 ^ 13 + 2 ^ 13 ≤ 2 ^ 14 := by
    intro ch hch
    constructor
    · omega
    · have := Nat.mul_le_mul_right (2 ^ 13) hch
      omega
  refine ⟨?_, ?_, ?_, ?_, ?_, ?_⟩
  · intro models ent c op hop
    have := processSampleEnc_idx models ent 0 c op hop
    exact opIdxRange_mono (by omega) (by omega) op this
  · intro models ent c op hop
    have := processSampleEnc_idx models ent 1 c op hop
    exact opIdxRange_mono (by omega) (by omega) op this
  · intro models dec F op hop
    have := processSampleDec_idx models dec F 0 op hop
    exact opIdxRange_mono (by omega) (by omega) op this
  · intro models dec F op hop
    have := processSampleDec_idx models dec F 1 op hop
    exact opIdxRange_mono (by omega) (by omega) op this
  · intro S mc op hop
    refine compressLoop_ops_pred (opIdxRange 1 (2 ^ 14)) ?_ _ S 0 cmpInit
      (by intro op' hop'; simp [cmpInit] at hop') op hop
    intro models ent ch c hch op' hop'
    have := processSampleEnc_idx models ent ch c op' hop'
    exact opIdxRange_mono (hchan ch hch).1 (hchan ch hch).2 op' this
  · intro F mc op hop
    refine decompressLoop_ops_pred (opIdxRange 1 (2 ^ 14)) ?_ _ F mc _
      (by intro op' hop'; simp at hop') op hop
    intro models dec F' ch hch op' hop'
    have := processSampleDec_idx models dec F' ch op' hop'
    exact opIdxRange_mono (hchan ch hch).1 (hchan ch hch).2 op' this

/-- Witness for C9 at a concrete wrap-around input: a 4-slot buffer at
position 6 (masked position 2) receiving 3 elements, so the two spans are
exercised. -/
theorem claim_C9_witness :
    cbWf (⟨6, 3, 4, List.replicate 12 0⟩ : CyclicBuffer ℕ) ∧ (6 : ℕ) < 2 ^ 64 ∧
      (3 : ℕ) ≤ 3 + 1 ∧ (3 : ℕ) ≤ [1, 2, 3].length ∧
      (cbPushN (⟨6, 3, 4, List.replicate 12 0⟩ : CyclicBuffer ℕ) [1, 2, 3] 3 =
        cbPushIter (⟨6, 3, 4, List.replicate 12 0⟩ : CyclicBuffer ℕ) ([1, 2, 3].take 3) ∧
        (cbPushN (⟨6, 3, 4, List.replicate 12 0⟩ : CyclicBuffer ℕ) [1, 2, 3] 3).pos =
          (6 + 3) % 2 ^ 64) :=
  ⟨⟨⟨2, by norm_num, by norm_num⟩, by norm_num⟩, by norm_num, by norm_num, by norm_num,
    claim_C9_pushN_eq_iterated_push _ _ _ ⟨⟨2, by norm_num, by norm_num⟩, by norm_num⟩
      (by norm_num) (by norm_num) (by norm_num)⟩

/-- Witness for C8 (amended) at the concrete buffer of the counterexample. -/
theorem claim_C8_witness :
    (cbResize ℕ 4 4).mask + 1 ≤ (cbResize ℕ 4 4).storage.length ∧
      ((cbFill (cbResize ℕ 4 4) 7).storage.length = (cbResize ℕ 4 4).storage.length ∧
        ∀ i : ℕ, (cbFill (cbResize ℕ 4 4) 7).storage[i]? =
          if i < cbSize (cbResize ℕ 4 4) then some 7 else (cbResize ℕ 4 4).storage[i]?) :=
  ⟨by decide, claim_C8_amended _ 7 (by decide)⟩

/-- Witness for C4 (amended) at channel 1 and residual 5. -/
theorem claim_C4_witness :
    (1 : ℕ) ≤ 1 ∧ (5 : ℕ) < 2 ^ 16 ∧
      (((processSampleEnc wav16InitModels rcInitEnc 0 1 5).ops.map TOp.bit = bits16 5 ∧
        (processSampleEnc wav16InitModels rcInitEnc 0 1 5).ops.length = 16 ∧
        (∀ op ∈ (processSampleEnc wav16InitModels rcInitEnc 0 1 5).ops.take non_noise_bits,
          ∃ i p b, op = TOp.modelled i p b ∧ 1 * 2 ^ 13 + 1 ≤ i ∧
            i < 1 * 2 ^ 13 + 2 ^ 13 ∧ 1 ≤ p) ∧
        (∀ op ∈ (processSampleEnc wav16InitModels rcInitEnc 0 1 5).ops.drop non_noise_bits,
          ∃ b, op = TOp.direct b) ∧
        (processSampleEnc wav16InitModels rcInitEnc 0 1 5).ret =
          (2 ^ 13 + 5 / 2 ^ 3) ^^^ (1 <<< 16)) ∧
        (processSampleDec wav16InitModels (rcInitDec []) [] 0 1).ret =
          assembleBits
            ((processSampleDec wav16InitModels (rcInitDec []) [] 0 1).ops.map TOp.bit) 0) :=
  ⟨by decide, by decide,
    claim_C4_amended wav16InitModels rcInitEnc (rcInitDec []) [] 1 5 (by decide) (by decide)⟩

/-- Witness for C7 at channel 1. -/
theorem claim_C7_witness :
    (1 : ℕ) ≤ 1 ∧
      ((0 * 2 + 1) <<< non_noise_bits < num_ctx ∧
        (∀ op ∈ (processSampleEnc wav16InitModels rcInitEnc 0 1 9).ops,
          opIdxRange 0 num_ctx op) ∧
        (∀ op ∈ (processSampleDec wav16InitModels (rcInitDec []) [] 0 1).ops,
          opIdxRange 0 num_ctx op)) :=
  ⟨by decide,
    claim_C7_table_bounds.2 wav16InitModels rcInitEnc (rcInitDec []) [] 1 9 (by decide)⟩

/-! ### Range coder: encoder-step invariants -/

lemma addLow_spec {e : REnc} {x : ℕ} (hout : bytesOk e.out) (hlow : e.low < 2 ^ 32)
    (hx : x < 2 ^ 32) (hbound : absLow e + x < 2 ^ 32 * 256 ^ e.out.length) :
    absLow (addLow e x) = absLow e + x ∧ (addLow e x).out.length = e.out.length ∧
      bytesOk (addLow e x).out ∧ (addLow e x).low < 2 ^ 32 ∧
      (addLow e x).range = e.range := by
  unfold addLow
  split
  · refine ⟨?_, rfl, hout, by show e.low + x < 2 ^ 32; omega, rfl⟩
    show beVal e.out * 2 ^ 32 + (e.low + x) = beVal e.out * 2 ^ 32 + e.low + x
    omega
  · rename_i hcarry
    push_neg at hcarry
    have h256 : (2 : ℕ) ^ 32 * 256 ^ e.out.length = 256 ^ e.out.length * 2 ^ 32 := by ring
    have hstep : beVal e.out + 1 < 256 ^ e.out.length := by
      unfold absLow at hbound
      by_contra hcon
      push_neg at hcon
      have : 256 ^ e.out.length * 2 ^ 32 ≤ beVal e.out * 2 ^ 32 + 2 ^ 32 := by
        calc 256 ^ e.out.length * 2 ^ 32 ≤ (beVal e.out + 1) * 2 ^ 32 :=
              Nat.mul_le_mul_right _ hcon
          _ = beVal e.out * 2 ^ 32 + 2 ^ 32 := by ring
      omega
    obtain ⟨hc1, hc2, hc3⟩ := carryInc_spec hout (by omega)
    refine ⟨?_, hc2, hc3, by show e.low + x - 2 ^ 32 < 2 ^ 32; omega, rfl⟩
    show beVal (carryInc e.out) * 2 ^ 32 + (e.low + x - 2 ^ 32) =
      beVal e.out * 2 ^ 32 + e.low + x
    rw [hc1]
    have hge : e.low + x ≥ 2 ^ 32 := hcarry
    ring_nf
    omega

lemma shiftLow_spec {e : REnc} (hout : bytesOk e.out) (hlow : e.low < 2 ^ 32) :
    absLow (shiftLow e) = absLow e * 256 ∧ (shiftLow e).out.length = e.out.length + 1 ∧
      bytesOk (shiftLow e).out ∧ (shiftLow e).low < 2 ^ 32 ∧
      (shiftLow e).range = e.range := by
  have hbyte : e.low >>> 24 < 256 := by
    rw [Nat.shiftRight_eq_div_pow]
    have : e.low / 2 ^ 24 < 2 ^ 8 :=
      (Nat.div_lt_iff_lt_mul (by norm_num)).mpr (by norm_num at hlow ⊢; omega)
    omega
  refine ⟨?_, by simp [shiftLow], ?_, ?_, rfl⟩
  · show beVal (e.out ++ [e.low >>> 24]) * 2 ^ 32 + e.low % 2 ^ 24 * 256 =
      (beVal e.out * 2 ^ 32 + e.low) * 256
    rw [beVal_append]
    have hsplit : e.low = e.low >>> 24 * 2 ^ 24 + e.low % 2 ^ 24 := by
      rw [Nat.shiftRight_eq_div_pow]
      omega
    simp only [beVal, List.length_nil, List.length_cons, pow_zero, Nat.mul_one, Nat.add_zero,
      pow_one]
    conv_rhs => rw [hsplit]
    ring
  · intro b hb
    unfold shiftLow at hb
    dsimp only at hb
    rcases List.mem_append.mp hb with h | h
    · exact hout b h
    · rcases List.mem_singleton.mp h with rfl
      exact hbyte
  · show e.low % 2 ^ 24 * 256 < 2 ^ 32
    have h := Nat.mod_lt e.low (show 0 < 2 ^ 24 by norm_num)
    omega

lemma shiftLow_low (e : REnc) : (shiftLow e).low = e.low * 256 % 2 ^ 32 := by
  unfold shiftLow
  dsimp only
  have h32 : (2 : ℕ) ^ 32 = 2 ^ 24 * 256 := by norm_num
  rw [h32, Nat.mul_mod_mul_right]

lemma normE_spec : ∀ (fuel : ℕ) (e : REnc), bytesOk e.out → e.low < 2 ^ 32 →
    1 ≤ e.range → e.range < 2 ^ 32 →
    ∃ δ : ℕ,
      absLow (normE fuel e) = absLow e * 256 ^ δ ∧
      (normE fuel e).range = e.range * 256 ^ δ ∧
      (normE fuel e).out.length = e.out.length + δ ∧
      bytesOk (normE fuel e).out ∧ (normE fuel e).low < 2 ^ 32 ∧
      (normE fuel e).range < 2 ^ 32 ∧
      (2 ^ 24 ≤ (normE fuel e).range ∨ e.range * 256 ^ fuel < 2 ^ 24) := by
  intro fuel
  induction fuel with
  | zero =>
    intro e h1 h2 h3 h4
    refine ⟨0, by simp [normE], by simp [normE], by simp [normE], h1, h2, h4, ?_⟩
    rcases lt_or_ge e.range (2 ^ 24) with h | h
    · right
      simpa using h
    · left
      exact h
  | succ fuel ih =>
    intro e h1 h2 h3 h4
    rw [normE]
    split
    · rename_i hlt
      obtain ⟨sl1, sl2, sl3, sl4, _⟩ := shiftLow_spec h1 h2
      obtain ⟨δ, g1, g2, g3, g4, g5, g6, g7⟩ := ih { shiftLow e with range := e.range * 256 }
        sl3 sl4 (by show 1 ≤ e.range * 256; omega) (by
          show e.range * 256 < 2 ^ 32
          calc e.range * 256 < 2 ^ 24 * 256 := by
                exact (Nat.mul_lt_mul_right (by norm_num)).mpr hlt
            _ = 2 ^ 32 := by norm_num)
      have habs : absLow { shiftLow e with range := e.range * 256 } = absLow e * 256 := by
        unfold absLow at sl1 ⊢
        exact sl1
      refine ⟨δ + 1, ?_, ?_, ?_, g4, g5, g6, ?_⟩
      · rw [g1, habs, pow_succ]
        ring
      · rw [g2]
        show e.range * 256 * 256 ^ δ = e.range * 256 ^ (δ + 1)
        rw [pow_succ]
        ring
      · rw [g3]
        show (shiftLow e).out.length + δ = e.out.length + (δ + 1)
        rw [sl2]
        omega
      · rcases g7 with h | h
        · exact Or.inl h
        · right
          calc e.range * 256 ^ (fuel + 1) = e.range * 256 * 256 ^ fuel := by
                rw [pow_succ]
                ring
            _ < 2 ^ 24 := h
    · rename_i hge
      push_neg at hge
      exact ⟨0, by simp, by simp, by simp, h1, h2, h4, Or.inl hge⟩

lemma rcMid_bounds {range p : ℕ} (h1 : 2 ^ 24 ≤ range) (hp1 : 1 ≤ p) (hp2 : p ≤ 4095) :
    2 ^ 12 ≤ (range >>> kShift) * p ∧ (range >>> kShift) * p < range ∧
      2 ^ 12 ≤ range - (range >>> kShift) * p := by
  rw [Nat.shiftRight_eq_div_pow, show kShift = 12 from rfl]
  have hq1 : 2 ^ 12 ≤ range / 2 ^ 12 := by
    have h := Nat.div_le_div_right (c := 2 ^ 12) h1
    have h24 : (2 : ℕ) ^ 24 / 2 ^ 12 = 2 ^ 12 := by norm_num
    omega
  have hqm : range / 2 ^ 12 * 2 ^ 12 ≤ range := Nat.div_mul_le_self range (2 ^ 12)
  have hup : range / 2 ^ 12 * p ≤ range / 2 ^ 12 * 4095 := Nat.mul_le_mul_left _ hp2
  have hsplit : range / 2 ^ 12 * 4095 + range / 2 ^ 12 = range / 2 ^ 12 * 2 ^ 12 := by
    have : (2 : ℕ) ^ 12 = 4095 + 1 := by norm_num
    rw [this]
    ring
  have hlo : 2 ^ 12 * 1 ≤ range / 2 ^ 12 * p := Nat.mul_le_mul hq1 hp1
  refine ⟨by omega, by omega, by omega⟩

lemma normWrap (f : REnc) (h1 : bytesOk f.out) (h2 : f.low < 2 ^ 32)
    (h3 : 2 ^ 12 ≤ f.range) (h4 : f.range < 2 ^ 32)
    (h5 : absLow f + f.range ≤ 2 ^ 32 * 256 ^ f.out.length) :
    wfE (rcNormalizeE f) ∧ f.out.length ≤ (rcNormalizeE f).out.length ∧
      absLow f * 256 ^ ((rcNormalizeE f).out.length - f.out.length) =
        absLow (rcNormalizeE f) ∧
      absLow (rcNormalizeE f) + (rcNormalizeE f).range =
        (absLow f + f.range) * 256 ^ ((rcNormalizeE f).out.length - f.out.length) := by
  unfold rcNormalizeE
  obtain ⟨δ, g1, g2, g3, g4, g5, g6, g7⟩ := normE_spec 4 f h1 h2 (by omega) h4
  have hrge : 2 ^ 24 ≤ (normE 4 f).range := by
    rcases g7 with h | h
    · exact h
    · exfalso
      have hm : 2 ^ 12 * 256 ^ 4 ≤ f.range * 256 ^ 4 := Nat.mul_le_mul_right _ h3
      have c1 : (2 : ℕ) ^ 12 * 256 ^ 4 = 2 ^ 44 := by norm_num
      have c2 : (2 : ℕ) ^ 24 ≤ 2 ^ 44 := by norm_num
      omega
  have hδ : (normE 4 f).out.length - f.out.length = δ := by
    rw [g3]
    omega
  rw [hδ]
  refine ⟨⟨g4, g5, hrge, g6, ?_⟩, by rw [g3]; omega, by rw [g1], ?_⟩
  · rw [g1, g2, g3, pow_add]
    calc absLow f * 256 ^ δ + f.range * 256 ^ δ = (absLow f + f.range) * 256 ^ δ := by
          ring
      _ ≤ 2 ^ 32 * 256 ^ f.out.length * 256 ^ δ := Nat.mul_le_mul_right _ h5
      _ = 2 ^ 32 * (256 ^ f.out.length * 256 ^ δ) := by ring
  · rw [g1, g2]
    ring

lemma encStepK_spec {e : REnc} {k : RKind} (b : ℕ) (hwf : wfE e) (hk : okKind k) :
    wfE (encStepK k b e) ∧
      e.out.length ≤ (encStepK k b e).out.length ∧
      absLow e * 256 ^ ((encStepK k b e).out.length - e.out.length) ≤
        absLow (encStepK k b e) ∧
      absLow (encStepK k b e) + (encStepK k b e).range ≤
        (absLow e + e.range) * 256 ^ ((encStepK k b e).out.length - e.out.length) := by
  obtain ⟨hout, hlow, hrlo, hrhi, hbound⟩ := hwf
  cases k with
  | modelled p =>
    obtain ⟨hp1, hp2⟩ := hk
    have hp2' : p ≤ 4095 := by
      have h : kMaxValue - 1 = 4095 := by decide
      omega
    obtain ⟨hm1, hm2, hm3⟩ := rcMid_bounds hrlo hp1 hp2'
    by_cases hb : b = 0
    · have he : encStepK (.modelled p) b e =
        rcNormalizeE { e with range := (e.range >>> kShift) * p } := by
        show rcEncodeP p b e = _
        unfold rcEncodeP
        dsimp only
        rw [if_pos hb]
      rw [he]
      obtain ⟨w1, w2, w3, w4⟩ := normWrap { e with range := (e.range >>> kShift) * p }
        hout hlow hm1 (by show (e.range >>> kShift) * p < 2 ^ 32; omega)
        (by
          show absLow e + (e.range >>> kShift) * p ≤ 2 ^ 32 * 256 ^ e.out.length
          omega)
      refine ⟨w1, w2, ?_, ?_⟩
      · rw [← w3]
        exact le_refl _
      · calc absLow (rcNormalizeE _) + (rcNormalizeE _).range
            = (absLow e + (e.range >>> kShift) * p) * 256 ^ _ := w4
          _ ≤ (absLow e + e.range) * 256 ^ _ := Nat.mul_le_mul_right _ (by omega)
    · have he : encStepK (.modelled p) b e =
        rcNormalizeE ⟨(addLow e ((e.range >>> kShift) * p)).low,
          e.range - (e.range >>> kShift) * p,
          (addLow e ((e.range >>> kShift) * p)).out⟩ := by
        show rcEncodeP p b e = _
        unfold rcEncodeP
        dsimp only
        rw [if_neg hb]
      rw [he]
      obtain ⟨a1, a2, a3, a4, _⟩ := addLow_spec hout hlow (by omega)
        (by omega : absLow e + (e.range >>> kShift) * p < 2 ^ 32 * 256 ^ e.out.length)
      have hb3 : absLow ⟨(addLow e ((e.range >>> kShift) * p)).low,
          e.range - (e.range >>> kShift) * p,
          (addLow e ((e.range >>> kShift) * p)).out⟩ =
          absLow e + (e.range >>> kShift) * p := a1
      have hb4 : (⟨(addLow e ((e.range >>> kShift) * p)).low,
          e.range - (e.range >>> kShift) * p,
          (addLow e ((e.range >>> kShift) * p)).out⟩ : REnc).out.length =
          e.out.length := a2
      obtain ⟨w1, w2, w3, w4⟩ := normWrap
        ⟨(addLow e ((e.range >>> kShift) * p)).low,
          e.range - (e.range >>> kShift) * p,
          (addLow e ((e.range >>> kShift) * p)).out⟩
        a3 a4 (by show 2 ^ 12 ≤ e.range - (e.range >>> kShift) * p; omega)
        (by show e.range - (e.range >>> kShift) * p < 2 ^ 32; omega)
        (by
          rw [hb3, hb4]
          show absLow e + (e.range >>> kShift) * p +
            (e.range - (e.range >>> kShift) * p) ≤ 2 ^ 32 * 256 ^ e.out.length
          omega)
      rw [hb3, hb4] at w3 w4
      rw [hb4] at w2
      refine ⟨w1, w2, ?_, ?_⟩
      · rw [← w3]
        exact Nat.mul_le_mul_right _ (by omega)
      · rw [w4]
        show (absLow e + (e.range >>> kShift) * p + (e.range - (e.range >>> kShift) * p)) *
            256 ^ _ ≤ (absLow e + e.range) * 256 ^ _
        exact Nat.mul_le_mul_right _ (by omega)
  | direct =>
    have hr2 : e.range >>> 1 = e.range / 2 := by
      rw [Nat.shiftRight_eq_div_pow, pow_one]
    have hd1 : 2 ^ 12 ≤ e.range / 2 := by
      have h24 : (2 : ℕ) ^ 24 / 2 ≤ e.range / 2 := Nat.div_le_div_right hrlo
      have c1 : (2 : ℕ) ^ 24 / 2 = 2 ^ 23 := by norm_num
      have c2 : (2 : ℕ) ^ 12 ≤ 2 ^ 23 := by norm_num
      omega
    have hd2 : e.range / 2 < e.range := Nat.div_lt_self (by omega) (by norm_num)
    have hd3 : e.range / 2 + e.range / 2 ≤ e.range := by omega
    by_cases hb : b = 0
    · have he : encStepK .direct b e = rcNormalizeE { e with range := e.range >>> 1 } := by
        show rcEncodeD b e = _
        unfold rcEncodeD
        rw [if_pos hb]
      rw [he]
      obtain ⟨w1, w2, w3, w4⟩ := normWrap { e with range := e.range >>> 1 }
        hout hlow (by show 2 ^ 12 ≤ e.range >>> 1; omega)
        (by show e.range >>> 1 < 2 ^ 32; omega)
        (by show absLow e + e.range >>> 1 ≤ 2 ^ 32 * 256 ^ e.out.length; omega)
      refine ⟨w1, w2, ?_, ?_⟩
      · rw [← w3]
        exact le_refl _
      · calc absLow (rcNormalizeE _) + (rcNormalizeE _).range
            = (absLow e + e.range >>> 1) * 256 ^ _ := w4
          _ ≤ (absLow e + e.range) * 256 ^ _ := Nat.mul_le_mul_right _ (by omega)
    · have he : encStepK .direct b e =
        rcNormalizeE (addLow ⟨e.low, e.range >>> 1, e.out⟩ (e.range >>> 1)) := by
        show rcEncodeD b e = _
        unfold rcEncodeD
        rw [if_neg hb]
      rw [he]
      obtain ⟨a1, a2, a3, a4, a5⟩ := addLow_spec
        (show bytesOk (⟨e.low, e.range >>> 1, e.out⟩ : REnc).out from hout)
        (show (⟨e.low, e.range >>> 1, e.out⟩ : REnc).low < 2 ^ 32 from hlow)
        (show e.range >>> 1 < 2 ^ 32 by omega)
        (show absLow ⟨e.low, e.range >>> 1, e.out⟩ + e.range >>> 1 <
            2 ^ 32 * 256 ^ (⟨e.low, e.range >>> 1, e.out⟩ : REnc).out.length by
          show absLow e + e.range >>> 1 < 2 ^ 32 * 256 ^ e.out.length
          omega)
      have hb1 : absLow (addLow ⟨e.low, e.range >>> 1, e.out⟩ (e.range >>> 1)) =
          absLow e + e.range >>> 1 := a1
      have hb2 : (addLow ⟨e.low, e.range >>> 1, e.out⟩ (e.range >>> 1)).out.length =
          e.out.length := a2
      have hb3 : (addLow ⟨e.low, e.range >>> 1, e.out⟩ (e.range >>> 1)).range =
          e.range >>> 1 := a5
      obtain ⟨w1, w2, w3, w4⟩ := normWrap
        (addLow ⟨e.low, e.range >>> 1, e.out⟩ (e.range >>> 1))
        a3 a4 (by rw [hb3]; show 2 ^ 12 ≤ e.range >>> 1; omega)
        (by rw [hb3]; show e.range >>> 1 < 2 ^ 32; omega)
        (by
          rw [hb1, hb2, hb3]
          show absLow e + e.range >>> 1 + e.range >>> 1 ≤ 2 ^ 32 * 256 ^ e.out.length
          omega)
      rw [hb1, hb2] at w3
      rw [hb1, hb2, hb3] at w4
      rw [hb2] at w2
      refine ⟨w1, w2, ?_, ?_⟩
      · rw [← w3]
        exact Nat.mul_le_mul_right _ (by omega)
      · rw [w4]
        exact Nat.mul_le_mul_right _ (by omega)

/-! ### Flush -/

lemma rcFlush_spec {e : REnc} (hout : bytesOk e.out) (hlow : e.low < 2 ^ 32) :
    beVal (rcFlush e) = absLow e * 256 ∧ (rcFlush e).length = e.out.length + 5 ∧
      bytesOk (rcFlush e) := by
  obtain ⟨s11, s12, s13, s14, _⟩ := shiftLow_spec hout hlow
  obtain ⟨s21, s22, s23, s24, _⟩ := shiftLow_spec s13 s14
  obtain ⟨s31, s32, s33, s34, _⟩ := shiftLow_spec s23 s24
  obtain ⟨s41, s42, s43, s44, _⟩ := shiftLow_spec s33 s34
  obtain ⟨s51, s52, s53, s54, _⟩ := shiftLow_spec s43 s44
  have habs : absLow (shiftLow (shiftLow (shiftLow (shiftLow (shiftLow e))))) =
      absLow e * 256 ^ 5 := by
    rw [s51, s41, s31, s21, s11]
    ring
  have hlen : (shiftLow (shiftLow (shiftLow (shiftLow (shiftLow e))))).out.length =
      e.out.length + 5 := by
    rw [s52, s42, s32, s22, s12]
  have hl1 : (shiftLow e).low = e.low * 256 % 2 ^ 32 := shiftLow_low e
  have hstep : ∀ g : REnc, ∀ y : ℕ, g.low = y % 2 ^ 32 →
      (shiftLow g).low = y * 256 % 2 ^ 32 := by
    intro g y hy
    rw [shiftLow_low, hy, Nat.mod_mul_mod]
  have hl2 := hstep _ _ hl1
  have hl3 := hstep _ _ hl2
  have hl4 := hstep _ _ hl3
  have hl5 := hstep _ _ hl4
  have hzero : (shiftLow (shiftLow (shiftLow (shiftLow (shiftLow e))))).low = 0 := by
    rw [hl5]
    have hfac : e.low * 256 * 256 * 256 * 256 * 256 = e.low * 256 * 2 ^ 32 := by
      norm_num
      ring
    rw [hfac, Nat.mul_mod_left]
  have hout5 : beVal (rcFlush e) * 2 ^ 32 = absLow e * 256 * 2 ^ 32 := by
    have h := habs
    unfold absLow at h
    rw [hzero, Nat.add_zero] at h
    unfold rcFlush
    rw [h]
    unfold absLow
    ring
  refine ⟨Nat.eq_of_mul_eq_mul_right (by norm_num) hout5, hlen, s53⟩

/-! ### The final stream lies in every intermediate coding interval -/

lemma encA_X_mem {σ : Type} (M : BitSrc σ) (Inv : σ → Prop) (hsrc : srcOk M Inv) :
    ∀ (bs : List ℕ) (s : σ) (e : REnc), Inv s → wfE e →
      bytesOk (rcFlush (encA M s bs e)) ∧
      (rcFlush (encA M s bs e)).length = (encA M s bs e).out.length + 5 ∧
      e.out.length + 5 ≤ (rcFlush (encA M s bs e)).length ∧
      Alo e (rcFlush (encA M s bs e)).length ≤ beVal (rcFlush (encA M s bs e)) ∧
      beVal (rcFlush (encA M s bs e)) < Ahi e (rcFlush (encA M s bs e)).length := by
  intro bs
  induction bs with
  | nil =>
    intro s e hs hwf
    obtain ⟨hout, hlow, hrlo, hrhi, hbound⟩ := hwf
    obtain ⟨f1, f2, f3⟩ := rcFlush_spec hout hlow
    have henc : encA M s [] e = e := rfl
    rw [henc]
    have hexp : (rcFlush e).length - 4 - e.out.length = 1 := by
      rw [f2]
      omega
    refine ⟨f3, f2, by omega, ?_, ?_⟩
    · unfold Alo
      rw [hexp, pow_one, f1]
    · unfold Ahi
      rw [hexp, pow_one, f1]
      have h1 : 0 < e.range := by omega
      calc absLow e * 256 < absLow e * 256 + e.range * 256 := by
            have : 0 < e.range * 256 := by omega
            omega
        _ = (absLow e + e.range) * 256 := by ring
  | cons b bs ih =>
    intro s e hs hwf
    have henc : encA M s (b :: bs) e = encA M (M.next s b) bs (encStepK (M.kind s) b e) :=
      rfl
    rw [henc]
    obtain ⟨q1, q2, q3, q4⟩ := encStepK_spec b hwf (hsrc.2 s hs)
    obtain ⟨g1, g2, g3, g4, g5⟩ := ih (M.next s b) (encStepK (M.kind s) b e)
      (hsrc.1 s b hs) q1
    refine ⟨g1, g2, by omega, ?_, ?_⟩
    · have hsplit : (rcFlush (encA M (M.next s b) bs (encStepK (M.kind s) b e))).length -
          4 - e.out.length =
          ((encStepK (M.kind s) b e).out.length - e.out.length) +
          ((rcFlush (encA M (M.next s b) bs (encStepK (M.kind s) b e))).length - 4 -
            (encStepK (M.kind s) b e).out.length) := by
        omega
      unfold Alo at g4 ⊢
      rw [hsplit, pow_add, ← Nat.mul_assoc]
      calc absLow e * 256 ^ ((encStepK (M.kind s) b e).out.length - e.out.length) *
            256 ^ _ ≤ absLow (encStepK (M.kind s) b e) * 256 ^ _ :=
            Nat.mul_le_mul_right _ q3
        _ ≤ _ := g4
    · have hsplit : (rcFlush (encA M (M.next s b) bs (encStepK (M.kind s) b e))).length -
          4 - e.out.length =
          ((encStepK (M.kind s) b e).out.length - e.out.length) +
          ((rcFlush (encA M (M.next s b) bs (encStepK (M.kind s) b e))).length - 4 -
            (encStepK (M.kind s) b e).out.length) := by
        omega
      unfold Ahi at g5 ⊢
      rw [hsplit, pow_add]
      calc beVal (rcFlush (encA M (M.next s b) bs (encStepK (M.kind s) b e)))
          < (absLow (encStepK (M.kind s) b e) + (encStepK (M.kind s) b e).range) *
            256 ^ _ := g5
        _ ≤ (absLow e + e.range) *
            256 ^ ((encStepK (M.kind s) b e).out.length - e.out.length) * 256 ^ _ :=
            Nat.mul_le_mul_right _ q4
        _ = (absLow e + e.range) *
            (256 ^ ((encStepK (M.kind s) b e).out.length - e.out.length) * 256 ^ _) := by
            ring

/-! ### Lockstep normalization of encoder and decoder -/

lemma normE_len_le : ∀ (fuel : ℕ) (e : REnc), e.out.length ≤ (normE fuel e).out.length := by
  intro fuel
  induction fuel with
  | zero => intro e; exact le_refl _
  | succ fuel ih =>
    intro e
    rw [normE]
    split
    · calc e.out.length ≤ (e.out ++ [e.low >>> 24]).length := by
            rw [List.length_append]
            omega
        _ ≤ _ := ih ⟨(shiftLow e).low, e.range * 256, (shiftLow e).out⟩
    · exact le_refl _

lemma normPair : ∀ (fuel : ℕ) (F : List ℕ) (e : REnc) (d : RDec),
    bytesOk F → bytesOk e.out → e.low < 2 ^ 32 →
    d.range = e.range → d.pos = e.out.length + 4 →
    d.code + absLow e = beVal F / 256 ^ (F.length - 4 - e.out.length) →
    (normE fuel e).out.length + 4 ≤ F.length →
    (normD fuel F d).range = (normE fuel e).range ∧
      (normD fuel F d).pos = (normE fuel e).out.length + 4 ∧
      (normD fuel F d).code + absLow (normE fuel e) =
        beVal F / 256 ^ (F.length - 4 - (normE fuel e).out.length) := by
  intro fuel
  induction fuel with
  | zero =>
    intro F e d _ _ _ hr hp hc _
    exact ⟨hr, hp, hc⟩
  | succ fuel ih =>
    intro F e d hF hout hlow hr hp hc hle
    rw [normE, normD]
    by_cases hcond : e.range < 2 ^ 24
    · rw [if_pos hcond, if_pos (by rw [hr]; exact hcond)]
      have hle2 : (normE fuel ⟨(shiftLow e).low, e.range * 256, (shiftLow e).out⟩).out.length
          + 4 ≤ F.length := by
        rw [normE, if_pos hcond] at hle
        exact hle
      obtain ⟨s1, s2, s3, s4, _⟩ := shiftLow_spec hout hlow
      have hm1 : (shiftLow e).out.length = e.out.length + 1 := s2
      have hposlt : e.out.length + 4 < F.length := by
        have h := normE_len_le fuel ⟨(shiftLow e).low, e.range * 256, (shiftLow e).out⟩
        have h2 : (⟨(shiftLow e).low, e.range * 256, (shiftLow e).out⟩ : REnc).out.length =
            e.out.length + 1 := hm1
        omega
      have hdigit := beVal_digit hF (show e.out.length + 4 < F.length from hposlt)
      apply ih F ⟨(shiftLow e).low, e.range * 256, (shiftLow e).out⟩
        ⟨d.range * 256, d.code * 256 + F.getD d.pos 0, d.pos + 1⟩ hF s3 s4
      · show d.range * 256 = e.range * 256
        rw [hr]
      · show d.pos + 1 = (shiftLow e).out.length + 4
        rw [hm1]
        omega
      · show d.code * 256 + F.getD d.pos 0 + absLow (shiftLow e) =
          beVal F / 256 ^ (F.length - 4 - (shiftLow e).out.length)
        rw [s1, hm1, hp]
        have hexp1 : F.length - (e.out.length + 4) = F.length - 4 - e.out.length := by
          omega
        have hexp2 : F.length - (e.out.length + 4 + 1) =
            F.length - 4 - (e.out.length + 1) := by
          omega
        rw [hexp1, hexp2] at hdigit
        calc d.code * 256 + F.getD (e.out.length + 4) 0 + absLow e * 256
            = (d.code + absLow e) * 256 + F.getD (e.out.length + 4) 0 := by ring
          _ = beVal F / 256 ^ (F.length - 4 - e.out.length) * 256 +
              F.getD (e.out.length + 4) 0 := by rw [hc]
          _ = beVal F / 256 ^ (F.length - 4 - (e.out.length + 1)) := hdigit
      · exact hle2
    · rw [if_neg hcond, if_neg (by rw [hr]; exact hcond)]
      exact ⟨hr, hp, hc⟩

/-! ### One-step decoder simulation -/

lemma normShiftBounds (f : REnc) (T : ℕ) (h1 : bytesOk f.out) (h2 : f.low < 2 ^ 32)
    (h3 : 2 ^ 12 ≤ f.range) (h4 : f.range < 2 ^ 32)
    (h5 : absLow f + f.range ≤ 2 ^ 32 * 256 ^ f.out.length)
    (hfit : (rcNormalizeE f).out.length + 4 ≤ T) :
    Alo f T = Alo (rcNormalizeE f) T ∧ Ahi f T = Ahi (rcNormalizeE f) T := by
  obtain ⟨_, w2, w3, w4⟩ := normWrap f h1 h2 h3 h4 h5
  have hsplit : T - 4 - f.out.length =
      ((rcNormalizeE f).out.length - f.out.length) +
        (T - 4 - (rcNormalizeE f).out.length) := by
    omega
  constructor
  · unfold Alo
    rw [hsplit, pow_add, ← Nat.mul_assoc, w3]
  · unfold Ahi
    rw [hsplit, pow_add, ← Nat.mul_assoc, ← w4]

lemma decStep_sim {k : RKind} {b : ℕ} {e : REnc} {F : List ℕ} {d : RDec}
    (hb : b ≤ 1) (hwf : wfE e) (hk : okKind k) (hF : bytesOk F)
    (hrel : relD F e d)
    (hfit : (encStepK k b e).out.length + 4 ≤ F.length)
    (hlo : Alo (encStepK k b e) F.length ≤ beVal F)
    (hhi : beVal F < Ahi (encStepK k b e) F.length) :
    (decStepK k F d).1 = b ∧ relD F (encStepK k b e) (decStepK k F d).2 := by
  obtain ⟨hout, hlow, hrlo, hrhi, hbound⟩ := hwf
  obtain ⟨hdr, hdp, hdc⟩ := hrel
  have hpow : (0 : ℕ) < 256 ^ (F.length - 4 - e.out.length) := pow_pos (by norm_num) _
  cases k with
  | modelled p =>
    obtain ⟨hp1, hp2⟩ := hk
    have hp2' : p ≤ 4095 := by
      have h : kMaxValue - 1 = 4095 := by decide
      omega
    obtain ⟨hm1, hm2, hm3⟩ := rcMid_bounds hrlo hp1 hp2'
    have hmid : (d.range >>> kShift) * p = (e.range >>> kShift) * p := by rw [hdr]
    by_cases hb0 : b = 0
    · subst hb0
      have he : encStepK (.modelled p) 0 e =
          rcNormalizeE ⟨e.low, (e.range >>> kShift) * p, e.out⟩ := by
        show rcEncodeP p 0 e = _
        unfold rcEncodeP
        dsimp only
        rw [if_pos rfl]
      rw [he] at hfit hlo hhi ⊢
      obtain ⟨hA, hB⟩ := normShiftBounds ⟨e.low, (e.range >>> kShift) * p, e.out⟩
        F.length hout hlow hm1
        (by show (e.range >>> kShift) * p < 2 ^ 32; omega)
        (by
          show absLow e + (e.range >>> kShift) * p ≤ 2 ^ 32 * 256 ^ e.out.length
          omega)
        hfit
      rw [← hB] at hhi
      have hhi2 : beVal F < (absLow e + (e.range >>> kShift) * p) *
          256 ^ (F.length - 4 - e.out.length) := hhi
      have hdiv : beVal F / 256 ^ (F.length - 4 - e.out.length) <
          absLow e + (e.range >>> kShift) * p :=
        (Nat.div_lt_iff_lt_mul hpow).mpr hhi2
      have hdec : d.code < (d.range >>> kShift) * p := by
        rw [hmid]
        omega
      have hstep : decStepK (.modelled p) F d =
          (0, rcNormalizeD F ⟨(d.range >>> kShift) * p, d.code, d.pos⟩) := by
        unfold decStepK rcGetDecodedBit
        dsimp only
        rw [if_pos hdec]
      rw [hstep]
      exact ⟨rfl, normPair 4 F ⟨e.low, (e.range >>> kShift) * p, e.out⟩
        ⟨(d.range >>> kShift) * p, d.code, d.pos⟩ hF hout hlow hmid hdp hdc hfit⟩
    · have hb1 : b = 1 := by omega
      subst hb1
      have he : encStepK (.modelled p) 1 e =
          rcNormalizeE ⟨(addLow e ((e.range >>> kShift) * p)).low,
            e.range - (e.range >>> kShift) * p,
            (addLow e ((e.range >>> kShift) * p)).out⟩ := by
        show rcEncodeP p 1 e = _
        unfold rcEncodeP
        dsimp only
        rw [if_neg one_ne_zero]
      rw [he] at hfit hlo hhi ⊢
      obtain ⟨a1, a2, a3, a4, _⟩ := addLow_spec hout hlow (by omega)
        (by omega : absLow e + (e.range >>> kShift) * p < 2 ^ 32 * 256 ^ e.out.length)
      have hb3 : absLow ⟨(addLow e ((e.range >>> kShift) * p)).low,
          e.range - (e.range >>> kShift) * p,
          (addLow e ((e.range >>> kShift) * p)).out⟩ =
          absLow e + (e.range >>> kShift) * p := a1
      have hb4 : (⟨(addLow e ((e.range >>> kShift) * p)).low,
          e.range - (e.range >>> kShift) * p,
          (addLow e ((e.range >>> kShift) * p)).out⟩ : REnc).out.length =
          e.out.length := a2
      obtain ⟨hA, hB⟩ := normShiftBounds ⟨(addLow e ((e.range >>> kShift) * p)).low,
          e.range - (e.range >>> kShift) * p,
          (addLow e ((e.range >>> kShift) * p)).out⟩
        F.length a3 a4
        (by show 2 ^ 12 ≤ e.range - (e.range >>> kShift) * p; omega)
        (by show e.range - (e.range >>> kShift) * p < 2 ^ 32; omega)
        (by
          rw [hb3, hb4]
          show absLow e + (e.range >>> kShift) * p +
            (e.range - (e.range >>> kShift) * p) ≤ 2 ^ 32 * 256 ^ e.out.length
          omega)
        hfit
      rw [← hA] at hlo
      have hlo2 : (absLow e + (e.range >>> kShift) * p) *
          256 ^ (F.length - 4 - e.out.length) ≤ beVal F := by
        unfold Alo at hlo
        rw [hb3, hb4] at hlo
        exact hlo
      have hdiv : absLow e + (e.range >>> kShift) * p ≤
          beVal F / 256 ^ (F.length - 4 - e.out.length) :=
        (Nat.le_div_iff_mul_le hpow).mpr hlo2
      have hge : (d.range >>> kShift) * p ≤ d.code := by
        rw [hmid]
        omega
      have hdec : ¬ d.code < (d.range >>> kShift) * p := by omega
      have hstep : decStepK (.modelled p) F d =
          (1, rcNormalizeD F ⟨d.range - (d.range >>> kShift) * p,
            d.code - (d.range >>> kShift) * p, d.pos⟩) := by
        unfold decStepK rcGetDecodedBit
        dsimp only
        rw [if_neg hdec]
      rw [hstep]
      refine ⟨rfl, normPair 4 F _ _ hF a3 a4 ?_ ?_ ?_ hfit⟩
      · show d.range - (d.range >>> kShift) * p = e.range - (e.range >>> kShift) * p
        rw [hmid, hdr]
      · show d.pos = (⟨(addLow e ((e.range >>> kShift) * p)).low,
          e.range - (e.range >>> kShift) * p,
          (addLow e ((e.range >>> kShift) * p)).out⟩ : REnc).out.length + 4
        rw [hb4]
        exact hdp
      · show d.code - (d.range >>> kShift) * p +
          absLow ⟨(addLow e ((e.range >>> kShift) * p)).low,
            e.range - (e.range >>> kShift) * p,
            (addLow e ((e.range >>> kShift) * p)).out⟩ =
          beVal F / 256 ^ (F.length - 4 -
            (⟨(addLow e ((e.range >>> kShift) * p)).low,
              e.range - (e.range >>> kShift) * p,
              (addLow e ((e.range >>> kShift) * p)).out⟩ : REnc).out.length)
        rw [hb3, hb4]
        omega
  | direct =>
    have hr2 : d.range >>> 1 = e.range >>> 1 := by rw [hdr]
    have hrd : e.range >>> 1 = e.range / 2 := by
      rw [Nat.shiftRight_eq_div_pow, pow_one]
    have hd1 : 2 ^ 12 ≤ e.range / 2 := by
      have h24 : (2 : ℕ) ^ 24 / 2 ≤ e.range / 2 := Nat.div_le_div_right hrlo
      have c1 : (2 : ℕ) ^ 24 / 2 = 2 ^ 23 := by norm_num
      have c2 : (2 : ℕ) ^ 12 ≤ 2 ^ 23 := by norm_num
      omega
    have hd2 : e.range / 2 < e.range := Nat.div_lt_self (by omega) (by norm_num)
    have hd3 : e.range / 2 + e.range / 2 ≤ e.range := by omega
    by_cases hb0 : b = 0
    · subst hb0
      have he : encStepK .direct 0 e =
          rcNormalizeE ⟨e.low, e.range >>> 1, e.out⟩ := by
        show rcEncodeD 0 e = _
        unfold rcEncodeD
        rw [if_pos rfl]
      rw [he] at hfit hlo hhi ⊢
      obtain ⟨hA, hB⟩ := normShiftBounds ⟨e.low, e.range >>> 1, e.out⟩
        F.length hout hlow (by show 2 ^ 12 ≤ e.range >>> 1; omega)
        (by show e.range >>> 1 < 2 ^ 32; omega)
        (by show absLow e + e.range >>> 1 ≤ 2 ^ 32 * 256 ^ e.out.length; omega)
        hfit
      rw [← hB] at hhi
      have hhi2 : beVal F < (absLow e + e.range >>> 1) *
          256 ^ (F.length - 4 - e.out.length) := hhi
      have hdiv : beVal F / 256 ^ (F.length - 4 - e.out.length) <
          absLow e + e.range >>> 1 :=
        (Nat.div_lt_iff_lt_mul hpow).mpr hhi2
      have hdec : d.code < d.range >>> 1 := by
        rw [hr2]
        omega
      have hstep : decStepK .direct F d =
          (0, rcNormalizeD F ⟨d.range >>> 1, d.code, d.pos⟩) := by
        show rcDecodeD F d = _
        unfold rcDecodeD
        rw [if_pos hdec]
      rw [hstep]
      exact ⟨rfl, normPair 4 F ⟨e.low, e.range >>> 1, e.out⟩
        ⟨d.range >>> 1, d.code, d.pos⟩ hF hout hlow hr2 hdp hdc hfit⟩
    · have hb1 : b = 1 := by omega
      subst hb1
      have he : encStepK .direct 1 e =
          rcNormalizeE (addLow ⟨e.low, e.range >>> 1, e.out⟩ (e.range >>> 1)) := by
        show rcEncodeD 1 e = _
        unfold rcEncodeD
        rw [if_neg one_ne_zero]
      rw [he] at hfit hlo hhi ⊢
      obtain ⟨a1, a2, a3, a4, a5⟩ := addLow_spec
        (show bytesOk (⟨e.low, e.range >>> 1, e.out⟩ : REnc).out from hout)
        (show (⟨e.low, e.range >>> 1, e.out⟩ : REnc).low < 2 ^ 32 from hlow)
        (show e.range >>> 1 < 2 ^ 32 by omega)
        (show absLow ⟨e.low, e.range >>> 1, e.out⟩ + e.range >>> 1 <
            2 ^ 32 * 256 ^ (⟨e.low, e.range >>> 1, e.out⟩ : REnc).out.length by
          show absLow e + e.range >>> 1 < 2 ^ 32 * 256 ^ e.out.length
          omega)
      have hb3 : absLow (addLow ⟨e.low, e.range >>> 1, e.out⟩ (e.range >>> 1)) =
          absLow e + e.range >>> 1 := a1
      have hb4 : (addLow ⟨e.low, e.range >>> 1, e.out⟩ (e.range >>> 1)).out.length =
          e.out.length := a2
      have hb5 : (addLow ⟨e.low, e.range >>> 1, e.out⟩ (e.range >>> 1)).range =
          e.range >>> 1 := a5
      obtain ⟨hA, hB⟩ := normShiftBounds
        (addLow ⟨e.low, e.range >>> 1, e.out⟩ (e.range >>> 1))
        F.length a3 a4
        (by rw [hb5]; show 2 ^ 12 ≤ e.range >>> 1; omega)
        (by rw [hb5]; show e.range >>> 1 < 2 ^ 32; omega)
        (by
          rw [hb3, hb4, hb5]
          show absLow e + e.range >>> 1 + e.range >>> 1 ≤ 2 ^ 32 * 256 ^ e.out.length
          omega)
        hfit
      rw [← hA] at hlo
      have hlo2 : (absLow e + e.range >>> 1) *
          256 ^ (F.length - 4 - e.out.length) ≤ beVal F := by
        unfold Alo at hlo
        rw [hb3, hb4] at hlo
        exact hlo
      have hdiv : absLow e + e.range >>> 1 ≤
          beVal F / 256 ^ (F.length - 4 - e.out.length) :=
        (Nat.le_div_iff_mul_le hpow).mpr hlo2
      have hge : d.range >>> 1 ≤ d.code := by
        rw [hr2]
        omega
      have hdec : ¬ d.code < d.range >>> 1 := by omega
      have hstep : decStepK .direct F d =
          (1, rcNormalizeD F ⟨d.range >>> 1, d.code - d.range >>> 1, d.pos⟩) := by
        show rcDecodeD F d = _
        unfold rcDecodeD
        rw [if_neg hdec]
      rw [hstep]
      refine ⟨rfl, normPair 4 F _ _ hF a3 a4 ?_ ?_ ?_ hfit⟩
      · show d.range >>> 1 = (addLow ⟨e.low, e.range >>> 1, e.out⟩ (e.range >>> 1)).range
        rw [hb5]
        exact hr2
      · show d.pos = (addLow ⟨e.low, e.range >>> 1, e.out⟩ (e.range >>> 1)).out.length + 4
        rw [hb4]
        exact hdp
      · show d.code - d.range >>> 1 +
          absLow (addLow ⟨e.low, e.range >>> 1, e.out⟩ (e.range >>> 1)) =
          beVal F / 256 ^ (F.length - 4 -
            (addLow ⟨e.low, e.range >>> 1, e.out⟩ (e.range >>> 1)).out.length)
        rw [hb3, hb4]
        omega

/-! ### The decoder replays the encoded bit string -/

lemma decA_sim {σ : Type} (M : BitSrc σ) (Inv : σ → Prop) (hsrc : srcOk M Inv) :
    ∀ (bs : List ℕ) (s : σ) (e : REnc) (d : RDec),
      (∀ x ∈ bs, x ≤ 1) → Inv s → wfE e →
      relD (rcFlush (encA M s bs e)) e d →
      (decA M s bs.length (rcFlush (encA M s bs e)) d).1 = bs ∧
        (decA M s bs.length (rcFlush (encA M s bs e)) d).2.1 = nextFold M s bs ∧
        relD (rcFlush (encA M s bs e)) (encA M s bs e)
          (decA M s bs.length (rcFlush (encA M s bs e)) d).2.2 := by
  intro bs
  induction bs with
  | nil =>
    intro s e d _ _ _ hrel
    exact ⟨rfl, rfl, hrel⟩
  | cons b bs ih =>
    intro s e d hbits hs hwf hrel
    have hb : b ≤ 1 := hbits b (List.mem_cons_self b bs)
    have hk := hsrc.2 s hs
    have hs' : Inv (M.next s b) := hsrc.1 s b hs
    obtain ⟨q1, q2, q3, q4⟩ := @encStepK_spec e (M.kind s) b hwf hk
    obtain ⟨g1, g2, g3, g4, g5⟩ := encA_X_mem M Inv hsrc bs (M.next s b)
      (encStepK (M.kind s) b e) hs' q1
    have henc : encA M s (b :: bs) e =
        encA M (M.next s b) bs (encStepK (M.kind s) b e) := rfl
    rw [henc] at hrel ⊢
    obtain ⟨hbit, hrel'⟩ := decStep_sim hb hwf hk g1 hrel (by omega) g4 g5
    obtain ⟨i1, i2, i3⟩ := ih (M.next s b) (encStepK (M.kind s) b e)
      (decStepK (M.kind s)
        (rcFlush (encA M (M.next s b) bs (encStepK (M.kind s) b e))) d).2
      (fun x hx => hbits x (List.mem_cons_of_mem b hx)) hs' q1 hrel'
    simp only [List.length_cons, decA]
    rw [hbit]
    refine ⟨by rw [i1], ?_, i3⟩
    rw [i2]
    rfl

lemma beVal_take4 {F : List ℕ} (h : 4 ≤ F.length) :
    beVal (F.take 4) =
      ((F.getD 0 0 * 256 + F.getD 1 0) * 256 + F.getD 2 0) * 256 + F.getD 3 0 := by
  rcases F with _ | ⟨a, F⟩
  · simp at h
  rcases F with _ | ⟨b, F⟩
  · simp at h
  rcases F with _ | ⟨c, F⟩
  · simp at h
  rcases F with _ | ⟨d, F⟩
  · simp at h
  show beVal [a, b, c, d] = _
  simp only [beVal, List.getD_cons_zero, List.getD_cons_succ, List.length_cons,
    List.length_nil]
  norm_num
  ring

lemma wfE_init : wfE rcInitEnc := by
  refine ⟨?_, ?_, ?_, ?_, ?_⟩
  · intro x hx
    simp [rcInitEnc] at hx
  · show (0 : ℕ) < 2 ^ 32
    norm_num
  · show 2 ^ 24 ≤ 2 ^ 32 - 1
    norm_num
  · show 2 ^ 32 - 1 < 2 ^ 32
    norm_num
  · show beVal [] * 2 ^ 32 + 0 + (2 ^ 32 - 1) ≤ 2 ^ 32 * 256 ^ (List.length [])
    simp [beVal]

lemma rc_roundtrip {σ : Type} (M : BitSrc σ) (Inv : σ → Prop) (hsrc : srcOk M Inv)
    (bs : List ℕ) (s : σ) (hbits : ∀ x ∈ bs, x ≤ 1) (hs : Inv s) :
    (decA M s bs.length (rcFlush (encA M s bs rcInitEnc))
        (rcInitDec (rcFlush (encA M s bs rcInitEnc)))).1 = bs ∧
      (decA M s bs.length (rcFlush (encA M s bs rcInitEnc))
        (rcInitDec (rcFlush (encA M s bs rcInitEnc)))).2.1 = nextFold M s bs := by
  obtain ⟨g1, g2, g3, g4, g5⟩ := encA_X_mem M Inv hsrc bs s rcInitEnc hs wfE_init
  have h4 : 4 ≤ (rcFlush (encA M s bs rcInitEnc)).length := by omega
  have hrel0 : relD (rcFlush (encA M s bs rcInitEnc)) rcInitEnc
      (rcInitDec (rcFlush (encA M s bs rcInitEnc))) := by
    refine ⟨rfl, rfl, ?_⟩
    show (((rcFlush (encA M s bs rcInitEnc)).getD 0 0 * 256 +
            (rcFlush (encA M s bs rcInitEnc)).getD 1 0) * 256 +
            (rcFlush (encA M s bs rcInitEnc)).getD 2 0) * 256 +
          (rcFlush (encA M s bs rcInitEnc)).getD 3 0 + absLow rcInitEnc =
        beVal (rcFlush (encA M s bs rcInitEnc)) /
          256 ^ ((rcFlush (encA M s bs rcInitEnc)).length - 4)
    rw [beVal_take_div g1 h4, beVal_take4 h4]
    show _ + (beVal [] * 2 ^ 32 + 0) = _
    simp [beVal]
  obtain ⟨i1, i2, _⟩ := decA_sim M Inv hsrc bs s rcInitEnc
    (rcInitDec (rcFlush (encA M s bs rcInitEnc))) hbits hs wfE_init hrel0
  exact ⟨i1, i2⟩

/-! ### Fold helpers for the adaptive machine -/

lemma encA_append {σ : Type} (M : BitSrc σ) :
    ∀ (xs ys : List ℕ) (s : σ) (e : REnc),
      encA M s (xs ++ ys) e = encA M (nextFold M s xs) ys (encA M s xs e) := by
  intro xs
  induction xs with
  | nil => intro ys s e; rfl
  | cons x xs ih =>
    intro ys s e
    show encA M (M.next s x) (xs ++ ys) (encStepK (M.kind s) x e) = _
    rw [ih]
    rfl

lemma nextFold_append {σ : Type} (M : BitSrc σ) (xs ys : List ℕ) (s : σ) :
    nextFold M s (xs ++ ys) = nextFold M (nextFold M s xs) ys := by
  unfold nextFold
  rw [List.foldl_append]

lemma nextFold_inv {σ : Type} {M : BitSrc σ} {Inv : σ → Prop} (hsrc : srcOk M Inv) :
    ∀ (bs : List ℕ) (s : σ), Inv s → Inv (nextFold M s bs) := by
  intro bs
  induction bs with
  | nil => intro s hs; exact hs
  | cons b bs ih => intro s hs; exact ih (M.next s b) (hsrc.1 s b hs)

lemma encA_wf {σ : Type} {M : BitSrc σ} {Inv : σ → Prop} (hsrc : srcOk M Inv) :
    ∀ (bs : List ℕ) (s : σ) (e : REnc), Inv s → wfE e → wfE (encA M s bs e) := by
  intro bs
  induction bs with
  | nil => intro s e _ hwf; exact hwf
  | cons b bs ih =>
    intro s e hs hwf
    exact ih (M.next s b) _ (hsrc.1 s b hs) (encStepK_spec b hwf (hsrc.2 s hs)).1

/-! ### The Wav16 machine is a well-behaved bit source -/

lemma wavSrcOk : srcOk wavSrc wavInv := by
  constructor
  · intro s b hs
    intro j
    show (wavNext s b).models j < kMaxValue
    unfold wavNext
    split
    · show upd s.models (wavBase s + s.ctx)
        (fastBitModelUpdate (s.models (wavBase s + s.ctx)) b) j < kMaxValue
      unfold upd
      split
      · exact fastBitModelUpdate_lt (hs _) b
      · exact hs j
    · split
      · exact hs j
      · exact hs j
  · intro s hs
    show okKind (wavKind s)
    unfold wavKind
    split
    · show 1 ≤ s.models (wavBase s + s.ctx) +
          (if s.models (wavBase s + s.ctx) = 0 then 1 else 0) ∧
        s.models (wavBase s + s.ctx) +
          (if s.models (wavBase s + s.ctx) = 0 then 1 else 0) ≤ kMaxValue - 1
      have h := hs (wavBase s + s.ctx)
      have hk : kMaxValue = 4096 := by decide
      split <;> omega
    · trivial

/-! ### processSample (encode) is 16 steps of the adaptive machine -/

lemma pseModelledLoop_encA : ∀ (fuel : ℕ) (st : PSE) (n i : ℕ),
    i + fuel = non_noise_bits → st.code < 2 ^ 32 →
    encA wavSrc ⟨st.models, n, i, st.ctx⟩ (codeBits fuel st.code) st.ent =
        (pseModelledLoop fuel ((n % 2) <<< non_noise_bits) st).ent ∧
      nextFold wavSrc ⟨st.models, n, i, st.ctx⟩ (codeBits fuel st.code) =
        ⟨(pseModelledLoop fuel ((n % 2) <<< non_noise_bits) st).models, n, non_noise_bits,
          (pseModelledLoop fuel ((n % 2) <<< non_noise_bits) st).ctx⟩ ∧
      (pseModelledLoop fuel ((n % 2) <<< non_noise_bits) st).ops =
        st.ops ++ wavOpsA ⟨st.models, n, i, st.ctx⟩ (codeBits fuel st.code) := by
  intro fuel
  induction fuel with
  | zero =>
    intro st n i hi hcode
    have h13 : i = non_noise_bits := by
      have h : non_noise_bits = 13 := rfl
      omega
    subst h13
    exact ⟨rfl, rfl, by simp [pseModelledLoop, codeBits, wavOpsA]⟩
  | succ fuel ih =>
    intro st n i hi hcode
    have hi13 : i < non_noise_bits := by
      have h : non_noise_bits = 13 := rfl
      omega
    have hkind : wavSrc.kind ⟨st.models, n, i, st.ctx⟩ =
        .modelled (st.models ((n % 2) <<< non_noise_bits + st.ctx) +
          (if st.models ((n % 2) <<< non_noise_bits + st.ctx) = 0 then 1 else 0)) := by
      show wavKind _ = _
      unfold wavKind wavBase
      rw [if_pos hi13]
    have hnext : wavSrc.next ⟨st.models, n, i, st.ctx⟩ (st.code >>> 31) =
        ⟨upd st.models ((n % 2) <<< non_noise_bits + st.ctx)
          (fastBitModelUpdate (st.models ((n % 2) <<< non_noise_bits + st.ctx))
            (st.code >>> 31)),
          n, i + 1, st.ctx * 2 + st.code >>> 31⟩ := by
      show wavNext _ _ = _
      unfold wavNext wavBase
      rw [if_pos hi13]
    rw [codeBits, pseModelledLoop]
    obtain ⟨ih1, ih2, ih3⟩ := ih
      { code := st.code * 2 % 2 ^ 32
        ctx := st.ctx * 2 + st.code >>> 31
        models := upd st.models ((n % 2) <<< non_noise_bits + st.ctx)
          (fastBitModelUpdate (st.models ((n % 2) <<< non_noise_bits + st.ctx))
            (st.code >>> 31))
        ent := rcEncodeP
          (st.models ((n % 2) <<< non_noise_bits + st.ctx) +
            (if st.models ((n % 2) <<< non_noise_bits + st.ctx) = 0 then 1 else 0))
          (st.code >>> 31) st.ent
        ops := st.ops ++ [TOp.modelled ((n % 2) <<< non_noise_bits + st.ctx)
          (st.models ((n % 2) <<< non_noise_bits + st.ctx) +
            (if st.models ((n % 2) <<< non_noise_bits + st.ctx) = 0 then 1 else 0))
          (st.code >>> 31)] }
      n (i + 1) (by omega) (Nat.mod_lt _ (by norm_num))
    refine ⟨?_, ?_, ?_⟩
    · show encA wavSrc (wavSrc.next ⟨st.models, n, i, st.ctx⟩ (st.code >>> 31))
        (codeBits fuel (st.code * 2 % 2 ^ 32))
        (encStepK (wavSrc.kind ⟨st.models, n, i, st.ctx⟩) (st.code >>> 31) st.ent) = _
      rw [hkind, hnext]
      exact ih1
    · show nextFold wavSrc (wavSrc.next ⟨st.models, n, i, st.ctx⟩ (st.code >>> 31))
        (codeBits fuel (st.code * 2 % 2 ^ 32)) = _
      rw [hnext]
      exact ih2
    · rw [ih3]
      have hops : wavOpsA ⟨st.models, n, i, st.ctx⟩
          ((st.code >>> 31) :: codeBits fuel (st.code * 2 % 2 ^ 32)) =
          TOp.modelled ((n % 2) <<< non_noise_bits + st.ctx)
            (st.models ((n % 2) <<< non_noise_bits + st.ctx) +
              (if st.models ((n % 2) <<< non_noise_bits + st.ctx) = 0 then 1 else 0))
            (st.code >>> 31) ::
          wavOpsA (wavSrc.next ⟨st.models, n, i, st.ctx⟩ (st.code >>> 31))
            (codeBits fuel (st.code * 2 % 2 ^ 32)) := by
        rw [wavOpsA]
        rw [show wavKind ⟨st.models, n, i, st.ctx⟩ =
          .modelled (st.models ((n % 2) <<< non_noise_bits + st.ctx) +
            (if st.models ((n % 2) <<< non_noise_bits + st.ctx) = 0 then 1 else 0))
          from hkind]
        rfl
      rw [hops, hnext]
      simp

lemma pseNoiseLoop_encA : ∀ (fuel : ℕ) (st : PSE) (n i ctx : ℕ),
    i + fuel = 16 → non_noise_bits ≤ i → st.code < 2 ^ 32 →
    encA wavSrc ⟨st.models, n, i, ctx⟩ (codeBits fuel st.code) st.ent =
        (pseNoiseLoop fuel st).ent ∧
      nextFold wavSrc ⟨st.models, n, i, ctx⟩ (codeBits fuel st.code) =
        (if fuel = 0 then ⟨st.models, n, i, ctx⟩
          else ⟨(pseNoiseLoop fuel st).models, n + 1, 0, 1⟩) ∧
      (pseNoiseLoop fuel st).ops =
        st.ops ++ wavOpsA ⟨st.models, n, i, ctx⟩ (codeBits fuel st.code) := by
  intro fuel
  induction fuel with
  | zero =>
    intro st n i ctx hi hge hcode
    refine ⟨rfl, ?_, by simp [pseNoiseLoop, codeBits, wavOpsA]⟩
    rw [if_pos rfl]
    rfl
  | succ fuel ih =>
    intro st n i ctx hi hge hcode
    have h13 : non_noise_bits = 13 := rfl
    have hnlt : ¬ i < non_noise_bits := by omega
    have hkind : wavSrc.kind ⟨st.models, n, i, ctx⟩ = .direct := by
      show wavKind _ = _
      unfold wavKind
      rw [if_neg hnlt]
    rw [codeBits, pseNoiseLoop]
    by_cases hlast : fuel = 0
    · subst hlast
      have hi15 : i = 15 := by omega
      subst hi15
      have hnext : wavSrc.next ⟨st.models, n, 15, ctx⟩ (st.code >>> 31) =
          ⟨st.models, n + 1, 0, 1⟩ := by
        show wavNext ⟨st.models, n, 15, ctx⟩ (st.code >>> 31) = ⟨st.models, n + 1, 0, 1⟩
        unfold wavNext
        rw [if_neg hnlt, if_pos rfl]
      refine ⟨?_, ?_, ?_⟩
      · show encA wavSrc (wavSrc.next ⟨st.models, n, 15, ctx⟩ (st.code >>> 31))
          (codeBits 0 (st.code * 2 % 2 ^ 32))
          (encStepK (wavSrc.kind ⟨st.models, n, 15, ctx⟩) (st.code >>> 31) st.ent) = _
        rw [hkind]
        rfl
      · show nextFold wavSrc (wavSrc.next ⟨st.models, n, 15, ctx⟩ (st.code >>> 31))
          (codeBits 0 (st.code * 2 % 2 ^ 32)) = _
        rw [hnext, if_neg (Nat.succ_ne_zero 0)]
        rfl
      · have hops : wavOpsA ⟨st.models, n, 15, ctx⟩
            ((st.code >>> 31) :: codeBits 0 (st.code * 2 % 2 ^ 32)) =
            TOp.direct (st.code >>> 31) ::
              wavOpsA (wavSrc.next ⟨st.models, n, 15, ctx⟩ (st.code >>> 31))
                (codeBits 0 (st.code * 2 % 2 ^ 32)) := by
          rw [wavOpsA]
          rw [show wavKind ⟨st.models, n, 15, ctx⟩ = .direct from hkind]
          rfl
        rw [hops]
        simp [pseNoiseLoop, wavOpsA, codeBits]
    · have hi16 : i + 1 < 16 := by omega
      have hnext : wavSrc.next ⟨st.models, n, i, ctx⟩ (st.code >>> 31) =
          ⟨st.models, n, i + 1, ctx * 2 + st.code >>> 31⟩ := by
        show wavNext _ _ = _
        unfold wavNext
        rw [if_neg hnlt, if_neg (by omega : ¬ i + 1 = 16)]
      obtain ⟨ih1, ih2, ih3⟩ := ih
        { code := st.code * 2 % 2 ^ 32
          ctx := st.ctx
          models := st.models
          ent := rcEncodeD (st.code >>> 31) st.ent
          ops := st.ops ++ [TOp.direct (st.code >>> 31)] }
        n (i + 1) (ctx * 2 + st.code >>> 31) (by omega) (by omega)
        (Nat.mod_lt _ (by norm_num))
      refine ⟨?_, ?_, ?_⟩
      · show encA wavSrc (wavSrc.next ⟨st.models, n, i, ctx⟩ (st.code >>> 31))
          (codeBits fuel (st.code * 2 % 2 ^ 32))
          (encStepK (wavSrc.kind ⟨st.models, n, i, ctx⟩) (st.code >>> 31) st.ent) = _
        rw [hkind, hnext]
        exact ih1
      · show nextFold wavSrc (wavSrc.next ⟨st.models, n, i, ctx⟩ (st.code >>> 31))
          (codeBits fuel (st.code * 2 % 2 ^ 32)) = _
        rw [hnext, if_neg (Nat.succ_ne_zero fuel)]
        rw [ih2, if_neg hlast]
      · have hops : wavOpsA ⟨st.models, n, i, ctx⟩
            ((st.code >>> 31) :: codeBits fuel (st.code * 2 % 2 ^ 32)) =
            TOp.direct (st.code >>> 31) ::
              wavOpsA (wavSrc.next ⟨st.models, n, i, ctx⟩ (st.code >>> 31))
                (codeBits fuel (st.code * 2 % 2 ^ 32)) := by
          rw [wavOpsA]
          rw [show wavKind ⟨st.models, n, i, ctx⟩ = .direct from hkind]
          rfl
        rw [ih3, hops, hnext]
        simp

lemma wavOpsA_append : ∀ (xs ys : List ℕ) (s : WavCtx),
    wavOpsA s (xs ++ ys) = wavOpsA s xs ++ wavOpsA (nextFold wavSrc s xs) ys := by
  intro xs
  induction xs with
  | nil => intro ys s; rfl
  | cons x xs ih =>
    intro ys s
    rw [List.cons_append, wavOpsA, wavOpsA, ih]
    rfl

lemma sampleEnc_encA (models : ℕ → ℕ) (ent : REnc) (n c : ℕ) :
    encA wavSrc (wavAt models n) (bits16 c) ent =
        (processSampleEnc models ent 0 (n % 2) c).ent ∧
      nextFold wavSrc (wavAt models n) (bits16 c) =
        wavAt (processSampleEnc models ent 0 (n % 2) c).models (n + 1) ∧
      (processSampleEnc models ent 0 (n % 2) c).ops =
        wavOpsA (wavAt models n) (bits16 c) := by
  have hcode32 : c <<< 16 % 2 ^ 32 < 2 ^ 32 := Nat.mod_lt _ (by norm_num)
  have hbase : (0 * 2 + n % 2) <<< non_noise_bits = (n % 2) <<< non_noise_bits := by
    norm_num
  have hpse : processSampleEnc models ent 0 (n % 2) c =
      ⟨(pseNoiseLoop 3 (pseModelledLoop 13 ((n % 2) <<< non_noise_bits)
            ⟨c <<< 16 % 2 ^ 32, 1, models, ent, []⟩)).ctx ^^^ (1 <<< 16),
        (pseNoiseLoop 3 (pseModelledLoop 13 ((n % 2) <<< non_noise_bits)
            ⟨c <<< 16 % 2 ^ 32, 1, models, ent, []⟩)).models,
        (pseNoiseLoop 3 (pseModelledLoop 13 ((n % 2) <<< non_noise_bits)
            ⟨c <<< 16 % 2 ^ 32, 1, models, ent, []⟩)).ent,
        (pseNoiseLoop 3 (pseModelledLoop 13 ((n % 2) <<< non_noise_bits)
            ⟨c <<< 16 % 2 ^ 32, 1, models, ent, []⟩)).ops⟩ := by
    unfold processSampleEnc
    dsimp only
    rw [hbase]
    rfl
  have hsplit : bits16 c = codeBits 13 (c <<< 16 % 2 ^ 32) ++
      codeBits 3 ((c <<< 16 % 2 ^ 32) * 2 ^ 13 % 2 ^ 32) := by
    show codeBits 16 (c <<< 16 % 2 ^ 32) = _
    rw [show (16 : ℕ) = 13 + 3 from rfl, codeBits_add 13 _ hcode32 3]
  obtain ⟨m1, m2, m3⟩ := pseModelledLoop_encA 13 ⟨c <<< 16 % 2 ^ 32, 1, models, ent, []⟩
    n 0 rfl hcode32
  have m1' : encA wavSrc (wavAt models n) (codeBits 13 (c <<< 16 % 2 ^ 32)) ent =
      (pseModelledLoop 13 ((n % 2) <<< non_noise_bits)
        ⟨c <<< 16 % 2 ^ 32, 1, models, ent, []⟩).ent := m1
  have m2' : nextFold wavSrc (wavAt models n) (codeBits 13 (c <<< 16 % 2 ^ 32)) =
      (⟨(pseModelledLoop 13 ((n % 2) <<< non_noise_bits)
            ⟨c <<< 16 % 2 ^ 32, 1, models, ent, []⟩).models, n, 13,
          (pseModelledLoop 13 ((n % 2) <<< non_noise_bits)
            ⟨c <<< 16 % 2 ^ 32, 1, models, ent, []⟩).ctx⟩ : WavCtx) := m2
  have m3' : (pseModelledLoop 13 ((n % 2) <<< non_noise_bits)
        ⟨c <<< 16 % 2 ^ 32, 1, models, ent, []⟩).ops =
      wavOpsA (wavAt models n) (codeBits 13 (c <<< 16 % 2 ^ 32)) := m3
  have hc1 : (pseModelledLoop 13 ((n % 2) <<< non_noise_bits)
      ⟨c <<< 16 % 2 ^ 32, 1, models, ent, []⟩).code =
      (c <<< 16 % 2 ^ 32) * 2 ^ 13 % 2 ^ 32 := by
    obtain ⟨new1, _, _, _, e4, _⟩ := pseModelledLoop_shape 13 ((n % 2) <<< non_noise_bits)
      ⟨c <<< 16 % 2 ^ 32, 1, models, ent, []⟩ hcode32
    exact e4
  have hcode2 : (pseModelledLoop 13 ((n % 2) <<< non_noise_bits)
      ⟨c <<< 16 % 2 ^ 32, 1, models, ent, []⟩).code < 2 ^ 32 := by
    rw [hc1]
    exact Nat.mod_lt _ (by norm_num)
  obtain ⟨n1, n2, n3⟩ := pseNoiseLoop_encA 3
    (pseModelledLoop 13 ((n % 2) <<< non_noise_bits)
      ⟨c <<< 16 % 2 ^ 32, 1, models, ent, []⟩) n 13
    (pseModelledLoop 13 ((n % 2) <<< non_noise_bits)
      ⟨c <<< 16 % 2 ^ 32, 1, models, ent, []⟩).ctx rfl (by decide) hcode2
  refine ⟨?_, ?_, ?_⟩
  · rw [hsplit, encA_append, m1', m2', ← hc1, n1, hpse]
  · rw [hsplit, nextFold_append, m2', ← hc1, n2,
      if_neg (by norm_num : (3 : ℕ) ≠ 0), hpse]
    rfl
  · rw [hpse]
    show (pseNoiseLoop 3 (pseModelledLoop 13 ((n % 2) <<< non_noise_bits)
        ⟨c <<< 16 % 2 ^ 32, 1, models, ent, []⟩)).ops =
      wavOpsA (wavAt models n) (bits16 c)
    rw [n3, m3', hc1, hsplit, wavOpsA_append, m2']

lemma wavOpsA_bits : ∀ (bs : List ℕ) (s : WavCtx),
    (wavOpsA s bs).map TOp.bit = bs := by
  intro bs
  induction bs with
  | nil => intro s; rfl
  | cons b bs ih =>
    intro s
    rw [wavOpsA, List.map_cons, ih]
    congr 1
    cases h : wavKind s <;> rfl

lemma decA_add {σ : Type} (M : BitSrc σ) :
    ∀ (m k : ℕ) (s : σ) (F : List ℕ) (d : RDec),
      (decA M s (m + k) F d).1 =
          (decA M s m F d).1 ++
            (decA M (decA M s m F d).2.1 k F (decA M s m F d).2.2).1 ∧
        (decA M s (m + k) F d).2.1 =
          (decA M (decA M s m F d).2.1 k F (decA M s m F d).2.2).2.1 ∧
        (decA M s (m + k) F d).2.2 =
          (decA M (decA M s m F d).2.1 k F (decA M s m F d).2.2).2.2 := by
  intro m
  induction m with
  | zero =>
    intro k s F d
    rw [Nat.zero_add]
    exact ⟨rfl, rfl, rfl⟩
  | succ m ih =>
    intro k s F d
    rw [Nat.succ_add]
    obtain ⟨i1, i2, i3⟩ := ih k (M.next s (decStepK (M.kind s) F d).1) F
      (decStepK (M.kind s) F d).2
    refine ⟨?_, ?_, ?_⟩
    · show (decStepK (M.kind s) F d).1 ::
        (decA M (M.next s (decStepK (M.kind s) F d).1) (m + k) F
          (decStepK (M.kind s) F d).2).1 = _
      rw [i1]
      rfl
    · show (decA M (M.next s (decStepK (M.kind s) F d).1) (m + k) F
        (decStepK (M.kind s) F d).2).2.1 = _
      rw [i2]
      rfl
    · show (decA M (M.next s (decStepK (M.kind s) F d).1) (m + k) F
        (decStepK (M.kind s) F d).2).2.2 = _
      rw [i3]
      rfl

/-! ### processSample (decode) is 16 steps of the adaptive machine -/

lemma psdModelledLoop_decA : ∀ (fuel : ℕ) (st : PSD) (F : List ℕ) (n i : ℕ),
    i + fuel = non_noise_bits →
    (decA wavSrc ⟨st.models, n, i, st.ctx⟩ fuel F st.dec).2.2 =
        (psdModelledLoop fuel ((n % 2) <<< non_noise_bits) F st).dec ∧
      (decA wavSrc ⟨st.models, n, i, st.ctx⟩ fuel F st.dec).2.1 =
        ⟨(psdModelledLoop fuel ((n % 2) <<< non_noise_bits) F st).models, n, non_noise_bits,
          (psdModelledLoop fuel ((n % 2) <<< non_noise_bits) F st).ctx⟩ ∧
      (psdModelledLoop fuel ((n % 2) <<< non_noise_bits) F st).ops =
        st.ops ++ wavOpsA ⟨st.models, n, i, st.ctx⟩
          (decA wavSrc ⟨st.models, n, i, st.ctx⟩ fuel F st.dec).1 := by
  intro fuel
  induction fuel with
  | zero =>
    intro st F n i hi
    have h13 : i = non_noise_bits := by
      have h : non_noise_bits = 13 := rfl
      omega
    subst h13
    exact ⟨rfl, rfl, by simp [psdModelledLoop, wavOpsA, decA]⟩
  | succ fuel ih =>
    intro st F n i hi
    have hi13 : i < non_noise_bits := by
      have h : non_noise_bits = 13 := rfl
      omega
    have hkind : wavSrc.kind ⟨st.models, n, i, st.ctx⟩ =
        .modelled (st.models ((n % 2) <<< non_noise_bits + st.ctx) +
          (if st.models ((n % 2) <<< non_noise_bits + st.ctx) = 0 then 1 else 0)) := by
      show wavKind _ = _
      unfold wavKind wavBase
      rw [if_pos hi13]
    have hsk : decStepK (wavSrc.kind ⟨st.models, n, i, st.ctx⟩) F st.dec =
        ((rcGetDecodedBit
            (st.models ((n % 2) <<< non_noise_bits + st.ctx) +
              (if st.models ((n % 2) <<< non_noise_bits + st.ctx) = 0 then 1 else 0))
            st.dec).1,
          rcNormalizeD F (rcGetDecodedBit
            (st.models ((n % 2) <<< non_noise_bits + st.ctx) +
              (if st.models ((n % 2) <<< non_noise_bits + st.ctx) = 0 then 1 else 0))
            st.dec).2) := by
      rw [hkind]
      rfl
    have hnext : wavSrc.next ⟨st.models, n, i, st.ctx⟩
        (rcGetDecodedBit
          (st.models ((n % 2) <<< non_noise_bits + st.ctx) +
            (if st.models ((n % 2) <<< non_noise_bits + st.ctx) = 0 then 1 else 0))
          st.dec).1 =
        ⟨upd st.models ((n % 2) <<< non_noise_bits + st.ctx)
          (fastBitModelUpdate (st.models ((n % 2) <<< non_noise_bits + st.ctx))
            (rcGetDecodedBit
              (st.models ((n % 2) <<< non_noise_bits + st.ctx) +
                (if st.models ((n % 2) <<< non_noise_bits + st.ctx) = 0 then 1 else 0))
              st.dec).1),
          n, i + 1, st.ctx * 2 +
            (rcGetDecodedBit
              (st.models ((n % 2) <<< non_noise_bits + st.ctx) +
                (if st.models ((n % 2) <<< non_noise_bits + st.ctx) = 0 then 1 else 0))
              st.dec).1⟩ := by
      show wavNext _ _ = _
      unfold wavNext wavBase
      rw [if_pos hi13]
    rw [psdModelledLoop]
    obtain ⟨ih1, ih2, ih3⟩ := ih
      { ctx := st.ctx * 2 + (rcGetDecodedBit
          (st.models ((n % 2) <<< non_noise_bits + st.ctx) +
            (if st.models ((n % 2) <<< non_noise_bits + st.ctx) = 0 then 1 else 0))
          st.dec).1
        models := upd st.models ((n % 2) <<< non_noise_bits + st.ctx)
          (fastBitModelUpdate (st.models ((n % 2) <<< non_noise_bits + st.ctx))
            (rcGetDecodedBit
              (st.models ((n % 2) <<< non_noise_bits + st.ctx) +
                (if st.models ((n % 2) <<< non_noise_bits + st.ctx) = 0 then 1 else 0))
              st.dec).1)
        dec := rcNormalizeD F (rcGetDecodedBit
          (st.models ((n % 2) <<< non_noise_bits + st.ctx) +
            (if st.models ((n % 2) <<< non_noise_bits + st.ctx) = 0 then 1 else 0))
          st.dec).2
        ops := st.ops ++ [TOp.modelled ((n % 2) <<< non_noise_bits + st.ctx)
          (st.models ((n % 2) <<< non_noise_bits + st.ctx) +
            (if st.models ((n % 2) <<< non_noise_bits + st.ctx) = 0 then 1 else 0))
          (rcGetDecodedBit
            (st.models ((n % 2) <<< non_noise_bits + st.ctx) +
              (if st.models ((n % 2) <<< non_noise_bits + st.ctx) = 0 then 1 else 0))
            st.dec).1] }
      F n (i + 1) (by omega)
    simp only [decA]
    rw [hsk]
    dsimp only
    rw [hnext]
    refine ⟨ih1, ih2, ?_⟩
    rw [ih3]
    have hops : wavOpsA ⟨st.models, n, i, st.ctx⟩
        ((rcGetDecodedBit
            (st.models ((n % 2) <<< non_noise_bits + st.ctx) +
              (if st.models ((n % 2) <<< non_noise_bits + st.ctx) = 0 then 1 else 0))
            st.dec).1 ::
          (decA wavSrc
            ⟨upd st.models ((n % 2) <<< non_noise_bits + st.ctx)
              (fastBitModelUpdate (st.models ((n % 2) <<< non_noise_bits + st.ctx))
                (rcGetDecodedBit
                  (st.models ((n % 2) <<< non_noise_bits + st.ctx) +
                    (if st.models ((n % 2) <<< non_noise_bits + st.ctx) = 0 then 1 else 0))
                  st.dec).1),
              n, i + 1, st.ctx * 2 +
                (rcGetDecodedBit
                  (st.models ((n % 2) <<< non_noise_bits + st.ctx) +
                    (if st.models ((n % 2) <<< non_noise_bits + st.ctx) = 0 then 1 else 0))
                  st.dec).1⟩
            fuel F
            (rcNormalizeD F (rcGetDecodedBit
              (st.models ((n % 2) <<< non_noise_bits + st.ctx) +
                (if st.models ((n % 2) <<< non_noise_bits + st.ctx) = 0 then 1 else 0))
              st.dec).2)).1) =
        TOp.modelled ((n % 2) <<< non_noise_bits + st.ctx)
          (st.models ((n % 2) <<< non_noise_bits + st.ctx) +
            (if st.models ((n % 2) <<< non_noise_bits + st.ctx) = 0 then 1 else 0))
          (rcGetDecodedBit
            (st.models ((n % 2) <<< non_noise_bits + st.ctx) +
              (if st.models ((n % 2) <<< non_noise_bits + st.ctx) = 0 then 1 else 0))
            st.dec).1 ::
        wavOpsA (wavSrc.next ⟨st.models, n, i, st.ctx⟩
            (rcGetDecodedBit
              (st.models ((n % 2) <<< non_noise_bits + st.ctx) +
                (if st.models ((n % 2) <<< non_noise_bits + st.ctx) = 0 then 1 else 0))
              st.dec).1)
          (decA wavSrc
            ⟨upd st.models ((n % 2) <<< non_noise_bits + st.ctx)
              (fastBitModelUpdate (st.models ((n % 2) <<< non_noise_bits + st.ctx))
                (rcGetDecodedBit
                  (st.models ((n % 2) <<< non_noise_bits + st.ctx) +
                    (if st.models ((n % 2) <<< non_noise_bits + st.ctx) = 0 then 1 else 0))
                  st.dec).1),
              n, i + 1, st.ctx * 2 +
                (rcGetDecodedBit
                  (st.models ((n % 2) <<< non_noise_bits + st.ctx) +
                    (if st.models ((n % 2) <<< non_noise_bits + st.ctx) = 0 then 1 else 0))
                  st.dec).1⟩
            fuel F
            (rcNormalizeD F (rcGetDecodedBit
              (st.models ((n % 2) <<< non_noise_bits + st.ctx) +
                (if st.models ((n % 2) <<< non_noise_bits + st.ctx) = 0 then 1 else 0))
              st.dec).2)).1 := by
      rw [wavOpsA]
      rw [show wavKind ⟨st.models, n, i, st.ctx⟩ =
        .modelled (st.models ((n % 2) <<< non_noise_bits + st.ctx) +
          (if st.models ((n % 2) <<< non_noise_bits + st.ctx) = 0 then 1 else 0))
        from hkind]
      rfl
    rw [hops, hnext]
    simp

lemma psdNoiseLoop_decA : ∀ (fuel : ℕ) (st : PSD) (F : List ℕ) (n i ctx : ℕ),
    i + fuel = 16 → non_noise_bits ≤ i →
    (decA wavSrc ⟨st.models, n, i, ctx⟩ fuel F st.dec).2.2 =
        (psdNoiseLoop fuel F st).dec ∧
      (decA wavSrc ⟨st.models, n, i, ctx⟩ fuel F st.dec).2.1 =
        (if fuel = 0 then ⟨st.models, n, i, ctx⟩
          else ⟨(psdNoiseLoop fuel F st).models, n + 1, 0, 1⟩) ∧
      (psdNoiseLoop fuel F st).ops =
        st.ops ++ wavOpsA ⟨st.models, n, i, ctx⟩
          (decA wavSrc ⟨st.models, n, i, ctx⟩ fuel F st.dec).1 := by
  intro fuel
  induction fuel with
  | zero =>
    intro st F n i ctx hi hge
    refine ⟨rfl, ?_, by simp [psdNoiseLoop, wavOpsA, decA]⟩
    rw [if_pos rfl]
    rfl
  | succ fuel ih =>
    intro st F n i ctx hi hge
    have h13 : non_noise_bits = 13 := rfl
    have hnlt : ¬ i < non_noise_bits := by omega
    have hkind : wavSrc.kind ⟨st.models, n, i, ctx⟩ = .direct := by
      show wavKind _ = _
      unfold wavKind
      rw [if_neg hnlt]
    have hsk : decStepK (wavSrc.kind ⟨st.models, n, i, ctx⟩) F st.dec =
        rcDecodeD F st.dec := by
      rw [hkind]
      rfl
    rw [psdNoiseLoop]
    by_cases hlast : fuel = 0
    · subst hlast
      have hi15 : i = 15 := by omega
      subst hi15
      have hnext : wavSrc.next ⟨st.models, n, 15, ctx⟩ (rcDecodeD F st.dec).1 =
          ⟨st.models, n + 1, 0, 1⟩ := by
        show wavNext ⟨st.models, n, 15, ctx⟩ (rcDecodeD F st.dec).1 =
          ⟨st.models, n + 1, 0, 1⟩
        unfold wavNext
        rw [if_neg hnlt, if_pos rfl]
      simp only [decA]
      rw [hsk]
      rw [hnext]
      refine ⟨rfl, ?_, ?_⟩
      · rw [if_neg (Nat.succ_ne_zero 0)]
        rfl
      · have hops : wavOpsA ⟨st.models, n, 15, ctx⟩ [(rcDecodeD F st.dec).1] =
            [TOp.direct (rcDecodeD F st.dec).1] := by
          rw [wavOpsA]
          rw [show wavKind ⟨st.models, n, 15, ctx⟩ = .direct from hkind]
          rfl
        rw [hops]
        simp [psdNoiseLoop]
    · have hnext : wavSrc.next ⟨st.models, n, i, ctx⟩ (rcDecodeD F st.dec).1 =
          ⟨st.models, n, i + 1, ctx * 2 + (rcDecodeD F st.dec).1⟩ := by
        show wavNext ⟨st.models, n, i, ctx⟩ (rcDecodeD F st.dec).1 =
          ⟨st.models, n, i + 1, ctx * 2 + (rcDecodeD F st.dec).1⟩
        unfold wavNext
        rw [if_neg hnlt, if_neg (by omega : ¬ i + 1 = 16)]
      obtain ⟨ih1, ih2, ih3⟩ := ih
        { ctx := st.ctx * 2 + (rcDecodeD F st.dec).1
          models := st.models
          dec := (rcDecodeD F st.dec).2
          ops := st.ops ++ [TOp.direct (rcDecodeD F st.dec).1] }
        F n (i + 1) (ctx * 2 + (rcDecodeD F st.dec).1) (by omega) (by omega)
      simp only [decA]
      rw [hsk]
      rw [hnext]
      refine ⟨ih1, ?_, ?_⟩
      · rw [ih2, if_neg hlast, if_neg (Nat.succ_ne_zero fuel)]
      · rw [ih3]
        have hops : wavOpsA ⟨st.models, n, i, ctx⟩
            ((rcDecodeD F st.dec).1 ::
              (decA wavSrc ⟨st.models, n, i + 1, ctx * 2 + (rcDecodeD F st.dec).1⟩
                fuel F (rcDecodeD F st.dec).2).1) =
            TOp.direct (rcDecodeD F st.dec).1 ::
              wavOpsA (wavSrc.next ⟨st.models, n, i, ctx⟩ (rcDecodeD F st.dec).1)
                (decA wavSrc ⟨st.models, n, i + 1, ctx * 2 + (rcDecodeD F st.dec).1⟩
                  fuel F (rcDecodeD F st.dec).2).1 := by
          rw [wavOpsA]
          rw [show wavKind ⟨st.models, n, i, ctx⟩ = .direct from hkind]
          rfl
        rw [hops, hnext]
        simp

lemma decA_state {σ : Type} (M : BitSrc σ) : ∀ (k : ℕ) (s : σ) (F : List ℕ) (d : RDec),
    (decA M s k F d).2.1 = nextFold M s (decA M s k F d).1 := by
  intro k
  induction k with
  | zero => intro s F d; rfl
  | succ k ih =>
    intro s F d
    show (decA M (M.next s (decStepK (M.kind s) F d).1) k F
      (decStepK (M.kind s) F d).2).2.1 = _
    rw [ih]
    rfl

lemma sampleDec_decA (models : ℕ → ℕ) (d : RDec) (F : List ℕ) (n : ℕ) :
    (decA wavSrc (wavAt models n) 16 F d).2.2 =
        (processSampleDec models d F 0 (n % 2)).dec ∧
      (decA wavSrc (wavAt models n) 16 F d).2.1 =
        wavAt (processSampleDec models d F 0 (n % 2)).models (n + 1) ∧
      (processSampleDec models d F 0 (n % 2)).ops =
        wavOpsA (wavAt models n) (decA wavSrc (wavAt models n) 16 F d).1 := by
  have hbase : (0 * 2 + n % 2) <<< non_noise_bits = (n % 2) <<< non_noise_bits := by
    norm_num
  have hpsd : processSampleDec models d F 0 (n % 2) =
      ⟨(psdNoiseLoop 3 F (psdModelledLoop 13 ((n % 2) <<< non_noise_bits) F
            ⟨1, models, d, []⟩)).ctx ^^^ (1 <<< 16),
        (psdNoiseLoop 3 F (psdModelledLoop 13 ((n % 2) <<< non_noise_bits) F
            ⟨1, models, d, []⟩)).models,
        (psdNoiseLoop 3 F (psdModelledLoop 13 ((n % 2) <<< non_noise_bits) F
            ⟨1, models, d, []⟩)).dec,
        (psdNoiseLoop 3 F (psdModelledLoop 13 ((n % 2) <<< non_noise_bits) F
            ⟨1, models, d, []⟩)).ops⟩ := by
    unfold processSampleDec
    dsimp only
    rw [hbase]
    rfl
  obtain ⟨m1, m2, m3⟩ := psdModelledLoop_decA 13 ⟨1, models, d, []⟩ F n 0 rfl
  have m1' : (decA wavSrc (wavAt models n) 13 F d).2.2 =
      (psdModelledLoop 13 ((n % 2) <<< non_noise_bits) F ⟨1, models, d, []⟩).dec := m1
  have m2' : (decA wavSrc (wavAt models n) 13 F d).2.1 =
      (⟨(psdModelledLoop 13 ((n % 2) <<< non_noise_bits) F ⟨1, models, d, []⟩).models,
          n, 13,
          (psdModelledLoop 13 ((n % 2) <<< non_noise_bits) F ⟨1, models, d, []⟩).ctx⟩ :
        WavCtx) := m2
  have m3' : (psdModelledLoop 13 ((n % 2) <<< non_noise_bits) F ⟨1, models, d, []⟩).ops =
      wavOpsA (wavAt models n) (decA wavSrc (wavAt models n) 13 F d).1 := m3
  obtain ⟨n1, n2, n3⟩ := psdNoiseLoop_decA 3
    (psdModelledLoop 13 ((n % 2) <<< non_noise_bits) F ⟨1, models, d, []⟩) F n 13
    (psdModelledLoop 13 ((n % 2) <<< non_noise_bits) F ⟨1, models, d, []⟩).ctx
    rfl (by decide)
  obtain ⟨a1, a2, a3⟩ := decA_add wavSrc 13 3 (wavAt models n) F d
  refine ⟨?_, ?_, ?_⟩
  · rw [show (16 : ℕ) = 13 + 3 from rfl, a3, m2', m1', n1, hpsd]
  · rw [show (16 : ℕ) = 13 + 3 from rfl, a2, m2', m1', n2,
      if_neg (by norm_num : (3 : ℕ) ≠ 0), hpsd]
    rfl
  · rw [hpsd]
    show (psdNoiseLoop 3 F (psdModelledLoop 13 ((n % 2) <<< non_noise_bits) F
        ⟨1, models, d, []⟩)).ops =
      wavOpsA (wavAt models n) (decA wavSrc (wavAt models n) 16 F d).1
    rw [show (16 : ℕ) = 13 + 3 from rfl, a1, wavOpsA_append, ← decA_state,
      m2', m1', n3, m3']

/-! ### The compress loop is the adaptive machine over the residual bits -/

lemma sget_eof {S : List ℕ} {i : ℕ} (h : S.length ≤ i) : sget S i = -1 := by
  unfold sget
  rw [List.get?_eq_none.mpr h]

lemma resBits_fuel : ∀ (k1 k2 : ℕ) (S : List ℕ) (i la lb la2 lb2 : ℕ),
    S.length ≤ i + 4 * k1 → S.length ≤ i + 4 * k2 →
    resBits k1 S i la lb la2 lb2 = resBits k2 S i la lb la2 lb2 := by
  intro k1
  induction k1 with
  | zero =>
    intro k2 S i la lb la2 lb2 h1 h2
    cases k2 with
    | zero => rfl
    | succ k2 =>
      have hs : resBits (k2 + 1) S i la lb la2 lb2 = [] := by
        rw [resBits]
        rw [if_pos (sget_eof (show S.length ≤ i by omega))]
      rw [hs]
      rfl
  | succ k1 ih =>
    intro k2 S i la lb la2 lb2 h1 h2
    cases k2 with
    | zero =>
      have hs : resBits (k1 + 1) S i la lb la2 lb2 = [] := by
        rw [resBits]
        rw [if_pos (sget_eof (show S.length ≤ i by omega))]
      rw [hs]
      rfl
    | succ k2 =>
      rw [resBits]
      conv_rhs => rw [resBits]
      by_cases hc : sget S i = -1
      · rw [if_pos hc, if_pos hc]
      · rw [if_neg hc, if_neg hc]
        rw [ih k2 S (i + 4) _ _ _ _ (by omega) (by omega)]

lemma compress_encA : ∀ (k : ℕ) (S : List ℕ) (i : ℕ) (st : CmpSt) (f : ℕ),
    (compressLoop k S i st).ent =
      encA wavSrc (wavAt st.models (2 * f))
        (resBits k S i st.last_a st.last_b st.last_a2 st.last_b2) st.ent := by
  intro k
  induction k with
  | zero => intro S i st f; rfl
  | succ k ih =>
    intro S i st f
    have hch0 : (2 * f) % 2 = 0 := Nat.mul_mod_right 2 f
    have hch1 : (2 * f + 1) % 2 = 1 := by omega
    rw [compressLoop, resBits]
    dsimp only
    by_cases hc : sget S i = -1
    · rw [if_pos hc, if_pos hc]
      rfl
    · rw [if_neg hc, if_neg hc]
      rw [ih S (i + 4) _ (f + 1)]
      dsimp only
      obtain ⟨e1a, e2a, _⟩ := sampleEnc_encA st.models st.ent (2 * f)
        (u16 ((u16 (sget S i + sget S (i + 1) * 256) : ℤ) -
          (u16 (2 * (st.last_a : ℤ) - (st.last_a2 : ℤ)) : ℤ)))
      rw [hch0] at e1a e2a
      obtain ⟨e1b, e2b, _⟩ := sampleEnc_encA
        (processSampleEnc st.models st.ent 0 0
          (u16 ((u16 (sget S i + sget S (i + 1) * 256) : ℤ) -
            (u16 (2 * (st.last_a : ℤ) - (st.last_a2 : ℤ)) : ℤ)))).models
        (processSampleEnc st.models st.ent 0 0
          (u16 ((u16 (sget S i + sget S (i + 1) * 256) : ℤ) -
            (u16 (2 * (st.last_a : ℤ) - (st.last_a2 : ℤ)) : ℤ)))).ent
        (2 * f + 1)
        (u16 ((u16 (sget S (i + 2) + sget S (i + 3) * 256) : ℤ) -
          (u16 (2 * (st.last_b : ℤ) - (st.last_b2 : ℤ)) : ℤ)))
      rw [hch1] at e1b e2b
      rw [encA_append, encA_append, nextFold_append, e1a, e2a, e1b, e2b,
        show 2 * (f + 1) = 2 * f + 1 + 1 from by ring]

/-! ### Chunked decoder replay -/

lemma decA_chunk {σ : Type} (M : BitSrc σ) (Inv : σ → Prop) (hsrc : srcOk M Inv) :
    ∀ (xs ys : List ℕ) (s : σ) (e : REnc) (d : RDec),
      (∀ x ∈ xs, x ≤ 1) → Inv s → wfE e →
      relD (rcFlush (encA M s (xs ++ ys) e)) e d →
      (decA M s xs.length (rcFlush (encA M s (xs ++ ys) e)) d).1 = xs ∧
        (decA M s xs.length (rcFlush (encA M s (xs ++ ys) e)) d).2.1 = nextFold M s xs ∧
        relD (rcFlush (encA M s (xs ++ ys) e)) (encA M s xs e)
          (decA M s xs.length (rcFlush (encA M s (xs ++ ys) e)) d).2.2 := by
  intro xs
  induction xs with
  | nil =>
    intro ys s e d _ _ _ hrel
    exact ⟨rfl, rfl, hrel⟩
  | cons b bs ih =>
    intro ys s e d hbits hs hwf hrel
    have hb : b ≤ 1 := hbits b (List.mem_cons_self b bs)
    have hk := hsrc.2 s hs
    have hs' : Inv (M.next s b) := hsrc.1 s b hs
    obtain ⟨q1, q2, q3, q4⟩ := @encStepK_spec e (M.kind s) b hwf hk
    obtain ⟨g1, g2, g3, g4, g5⟩ := encA_X_mem M Inv hsrc (bs ++ ys) (M.next s b)
      (encStepK (M.kind s) b e) hs' q1
    have henc : encA M s ((b :: bs) ++ ys) e =
        encA M (M.next s b) (bs ++ ys) (encStepK (M.kind s) b e) := rfl
    rw [henc] at hrel ⊢
    obtain ⟨hbit, hrel'⟩ := decStep_sim hb hwf hk g1 hrel (by omega) g4 g5
    obtain ⟨i1, i2, i3⟩ := ih ys (M.next s b) (encStepK (M.kind s) b e)
      (decStepK (M.kind s)
        (rcFlush (encA M (M.next s b) (bs ++ ys) (encStepK (M.kind s) b e))) d).2
      (fun x hx => hbits x (List.mem_cons_of_mem b hx)) hs' q1 hrel'
    simp only [List.length_cons, decA]
    rw [hbit]
    refine ⟨by rw [i1], ?_, i3⟩
    rw [i2]
    rfl

lemma relD_init {σ : Type} (M : BitSrc σ) (Inv : σ → Prop) (hsrc : srcOk M Inv)
    (bs : List ℕ) (s : σ) (hs : Inv s) :
    relD (rcFlush (encA M s bs rcInitEnc)) rcInitEnc
      (rcInitDec (rcFlush (encA M s bs rcInitEnc))) := by
  obtain ⟨g1, g2, g3, g4, g5⟩ := encA_X_mem M Inv hsrc bs s rcInitEnc hs wfE_init
  have h4 : 4 ≤ (rcFlush (encA M s bs rcInitEnc)).length := by omega
  refine ⟨rfl, rfl, ?_⟩
  show (((rcFlush (encA M s bs rcInitEnc)).getD 0 0 * 256 +
          (rcFlush (encA M s bs rcInitEnc)).getD 1 0) * 256 +
          (rcFlush (encA M s bs rcInitEnc)).getD 2 0) * 256 +
        (rcFlush (encA M s bs rcInitEnc)).getD 3 0 + absLow rcInitEnc =
      beVal (rcFlush (encA M s bs rcInitEnc)) /
        256 ^ ((rcFlush (encA M s bs rcInitEnc)).length - 4)
  rw [beVal_take_div g1 h4, beVal_take4 h4]
  show _ + (beVal [] * 2 ^ 32 + 0) = _
  simp [beVal]

/-! ### Sample reconstruction arithmetic -/

lemma recon16 (a p : ℕ) (ha : a < 65536) :
    (p + u16 ((a : ℤ) - (p : ℤ))) % 65536 = a := by
  unfold u16
  omega

lemma bits16_value {c : ℕ} (hc : c < 2 ^ 16) : assembleBits (bits16 c) 0 = c := by
  unfold bits16
  have hcode : c <<< 16 % 2 ^ 32 = c * 2 ^ 16 := by
    rw [Nat.shiftLeft_eq]
    exact Nat.mod_eq_of_lt (by
      calc c * 2 ^ 16 < 2 ^ 16 * 2 ^ 16 :=
            (Nat.mul_lt_mul_right (by norm_num : (0 : ℕ) < 2 ^ 16)).mpr hc
        _ = 2 ^ 32 := by norm_num)
  rw [assembleBits_codeBits 16 (by norm_num) _ 0 (Nat.mod_lt _ (by norm_num)), hcode]
  have h1 : c * 2 ^ 16 / 2 ^ (32 - 16) = c := by
    have h2 : (32 : ℕ) - 16 = 16 := by norm_num
    rw [h2]
    exact Nat.mul_div_cancel c (by norm_num)
  omega

lemma frame_bytes (S : List ℕ) (hS : bytesOk S) (i : ℕ) (hi : i < S.length) :
    [u16 (sget S i + sget S (i + 1) * 256) % 256,
      u16 (sget S i + sget S (i + 1) * 256) / 256,
      u16 (sget S (i + 2) + sget S (i + 3) * 256) % 256,
      u16 (sget S (i + 2) + sget S (i + 3) * 256) / 256].take (S.length - i) =
    (S.drop i).take 4 := by
  have hd : ∀ j : ℕ, sget S (i + j) =
      (match (S.drop i).get? j with
        | some v => (v : ℤ)
        | none => -1) := by
    intro j
    unfold sget
    rw [List.get?_drop]
  have hlen : (S.drop i).length = S.length - i := List.length_drop i S
  have hmem : ∀ x ∈ S.drop i, x < 256 := fun x hx => hS x (List.mem_of_mem_drop hx)
  have h0 : sget S i = sget S (i + 0) := by rw [Nat.add_zero]
  obtain ⟨T, hT⟩ : ∃ T, S.drop i = T := ⟨_, rfl⟩
  rw [hT] at hd hlen hmem ⊢
  have hr : 0 < S.length - i := by omega
  rcases T with _ | ⟨x1, T⟩
  · simp at hlen
    omega
  have hx1 : x1 < 256 := hmem x1 (List.mem_cons_self _ _)
  have hv0 : sget S i = (x1 : ℤ) := by
    rw [h0, hd 0]
    rfl
  rcases T with _ | ⟨x2, T⟩
  · -- one remaining octet
    have hr1 : S.length - i = 1 := by simpa using hlen.symm
    have hv1 : sget S (i + 1) = -1 := by
      rw [hd 1]
      rfl
    rw [hr1, hv0, hv1]
    have ha : u16 ((x1 : ℤ) + (-1) * 256) = x1 + 65280 := by
      unfold u16
      omega
    rw [ha]
    have : (x1 + 65280) % 256 = x1 := by omega
    rw [List.take_cons, List.take_zero, this]
    rfl
    all_goals norm_num
  have hx2 : x2 < 256 := hmem x2 (List.mem_cons_of_mem _ (List.mem_cons_self _ _))
  have hv1 : sget S (i + 1) = (x2 : ℤ) := by
    rw [hd 1]
    rfl
  have ha : u16 ((x1 : ℤ) + (x2 : ℤ) * 256) = x1 + x2 * 256 := by
    unfold u16
    omega
  have hamod : (x1 + x2 * 256) % 256 = x1 := by omega
  have hadiv : (x1 + x2 * 256) / 256 = x2 := by omega
  rcases T with _ | ⟨x3, T⟩
  · -- two remaining octets
    have hr2 : S.length - i = 2 := by simpa using hlen.symm
    rw [hr2, hv0, hv1, ha]
    rw [List.take_cons, List.take_cons, List.take_zero, hamod, hadiv]
    rfl
    all_goals norm_num
  have hx3 : x3 < 256 := hmem x3 (List.mem_cons_of_mem _
    (List.mem_cons_of_mem _ (List.mem_cons_self _ _)))
  have hv2 : sget S (i + 2) = (x3 : ℤ) := by
    rw [hd 2]
    rfl
  rcases T with _ | ⟨x4, T⟩
  · -- three remaining octets
    have hr3 : S.length - i = 3 := by simpa using hlen.symm
    have hv3 : sget S (i + 3) = -1 := by
      rw [hd 3]
      rfl
    rw [hr3, hv0, hv1, hv2, hv3, ha]
    have hb : u16 ((x3 : ℤ) + (-1) * 256) = x3 + 65280 := by
      unfold u16
      omega
    rw [hb]
    have hbmod : (x3 + 65280) % 256 = x3 := by omega
    rw [List.take_cons, List.take_cons, List.take_cons, List.take_zero,
      hamod, hadiv, hbmod]
    rfl
    all_goals norm_num
  · -- at least four remaining octets
    have hx4 : x4 < 256 := hmem x4 (List.mem_cons_of_mem _ (List.mem_cons_of_mem _
      (List.mem_cons_of_mem _ (List.mem_cons_self _ _))))
    have hv3 : sget S (i + 3) = (x4 : ℤ) := by
      rw [hd 3]
      rfl
    have hr4 : 4 ≤ S.length - i := by
      simp only [List.length_cons] at hlen
      omega
    have hb : u16 ((x3 : ℤ) + (x4 : ℤ) * 256) = x3 + x4 * 256 := by
      unfold u16
      omega
    rw [hv0, hv1, hv2, hv3, ha, hb]
    have hbmod : (x3 + x4 * 256) % 256 = x3 := by omega
    have hbdiv : (x3 + x4 * 256) / 256 = x4 := by omega
    rw [List.take_all_of_le (by simp; omega), hamod, hadiv, hbmod, hbdiv]
    rfl

/-! ### One-sample lockstep simulation -/

lemma sampleSim (models : ℕ → ℕ) (e : REnc) (d : RDec) (F : List ℕ) (n : ℕ) (E : ℕ)
    (ys : List ℕ) (hE : E < 2 ^ 16)
    (hinv : wavInv (wavAt models n)) (hwf : wfE e)
    (hF : F = rcFlush (encA wavSrc (wavAt models n) (bits16 E ++ ys) e))
    (hrel : relD F e d) :
    (processSampleDec models d F 0 (n % 2)).models =
        (processSampleEnc models e 0 (n % 2) E).models ∧
      (processSampleDec models d F 0 (n % 2)).ops =
        (processSampleEnc models e 0 (n % 2) E).ops ∧
      (processSampleDec models d F 0 (n % 2)).ret = E ∧
      relD F (processSampleEnc models e 0 (n % 2) E).ent
        (processSampleDec models d F 0 (n % 2)).dec ∧
      wfE (processSampleEnc models e 0 (n % 2) E).ent ∧
      wavInv (wavAt (processSampleEnc models e 0 (n % 2) E).models (n + 1)) ∧
      F = rcFlush (encA wavSrc
        (wavAt (processSampleEnc models e 0 (n % 2) E).models (n + 1)) ys
        (processSampleEnc models e 0 (n % 2) E).ent) := by
  have hbits : ∀ x ∈ bits16 E, x ≤ 1 := by
    intro x hx
    exact codeBits_le_one 16 _ (Nat.mod_lt _ (by norm_num)) x hx
  obtain ⟨e1, e2, e3⟩ := sampleEnc_encA models e n E
  obtain ⟨c1, c2, c3⟩ := decA_chunk wavSrc wavInv wavSrcOk (bits16 E) ys
    (wavAt models n) e d hbits hinv hwf (hF ▸ hrel)
  rw [← hF] at c1 c2 c3
  have hlen : (bits16 E).length = 16 := codeBits_length 16 _
  rw [hlen] at c1 c2 c3
  obtain ⟨d1, d2, d3⟩ := sampleDec_decA models d F n
  have hmods : (processSampleDec models d F 0 (n % 2)).models =
      (processSampleEnc models e 0 (n % 2) E).models :=
    (congrArg WavCtx.models (e2.symm.trans (c2.symm.trans d2))).symm
  have hops : (processSampleDec models d F 0 (n % 2)).ops =
      (processSampleEnc models e 0 (n % 2) E).ops := by
    rw [d3, c1, e3]
  have hret : (processSampleDec models d F 0 (n % 2)).ret = E := by
    obtain ⟨q1, q2, q3⟩ := processSampleDec_ops_facts models d F (n % 2)
    rw [q3, d3, c1, wavOpsA_bits, bits16_value hE]
  rw [e1, d1] at c3
  have hwf' : wfE (processSampleEnc models e 0 (n % 2) E).ent := by
    rw [← e1]
    exact encA_wf wavSrcOk _ _ _ hinv hwf
  have hinv' : wavInv (wavAt (processSampleEnc models e 0 (n % 2) E).models (n + 1)) := by
    rw [← e2]
    exact nextFold_inv wavSrcOk _ _ hinv
  have hF' : F = rcFlush (encA wavSrc
      (wavAt (processSampleEnc models e 0 (n % 2) E).models (n + 1)) ys
      (processSampleEnc models e 0 (n % 2) E).ent) := by
    rw [hF, encA_append, e1, e2]
  exact ⟨hmods, hops, hret, c3, hwf', hinv', hF'⟩

/-! ### One-frame lockstep simulation -/

lemma simStep (S F : List ℕ) (hS : bytesOk S) (f : ℕ) (st_e : CmpSt) (st_d : DecSt)
    (hf : 4 * f < S.length)
    (hinv : simInv S F f st_e st_d) :
    ∃ st_e' : CmpSt, ∃ st_d' : DecSt,
      (∀ k : ℕ, compressLoop (k + 1) S (4 * f) st_e =
        compressLoop k S (4 * (f + 1)) st_e') ∧
      (∀ k : ℕ, decompressLoop (k + 1) F (S.length - 4 * f) st_d =
        decompressLoop k F (S.length - 4 * (f + 1)) st_d') ∧
      simInv S F (f + 1) st_e' st_d' ∧
      st_e'.last_a = u16 (sget S (4 * f) + sget S (4 * f + 1) * 256) ∧
      st_e'.last_b = u16 (sget S (4 * f + 2) + sget S (4 * f + 3) * 256) ∧
      st_e'.last_a2 = st_e.last_a ∧ st_e'.last_b2 = st_e.last_b ∧
      st_e'.last_a3 = st_e.last_a2 ∧ st_e'.last_b3 = st_e.last_b2 ∧
      st_e'.frames = st_e.frames + 1 ∧
      st_e'.ops = st_e.ops ++
        (processSampleEnc st_e.models st_e.ent 0 0
          (u16 ((u16 (sget S (4 * f) + sget S (4 * f + 1) * 256) : ℤ) -
            (u16 (2 * (st_e.last_a : ℤ) - (st_e.last_a2 : ℤ)) : ℤ)))).ops ++
        (processSampleEnc
          (processSampleEnc st_e.models st_e.ent 0 0
            (u16 ((u16 (sget S (4 * f) + sget S (4 * f + 1) * 256) : ℤ) -
              (u16 (2 * (st_e.last_a : ℤ) - (st_e.last_a2 : ℤ)) : ℤ)))).models
          (processSampleEnc st_e.models st_e.ent 0 0
            (u16 ((u16 (sget S (4 * f) + sget S (4 * f + 1) * 256) : ℤ) -
              (u16 (2 * (st_e.last_a : ℤ) - (st_e.last_a2 : ℤ)) : ℤ)))).ent
          0 1
          (u16 ((u16 (sget S (4 * f + 2) + sget S (4 * f + 3) * 256) : ℤ) -
            (u16 (2 * (st_e.last_b : ℤ) - (st_e.last_b2 : ℤ)) : ℤ)))).ops := by
  obtain ⟨hmods, hla, hlb, hla2, hlb2, hla3, hlb3, hops, hout, hbound, hwf, hrel, hFeq⟩ :=
    hinv
  have hc1 : ¬ sget S (4 * f) = -1 := sget_ne_eof hf
  have hbz : ¬ (S.length - 4 * f) = 0 := by omega
  have hch0 : (2 * f) % 2 = 0 := Nat.mul_mod_right 2 f
  have hch1 : (2 * f + 1) % 2 = 1 := by omega
  obtain ⟨m, hm⟩ : ∃ m, (S.length + 3) / 4 = m + 1 :=
    ⟨(S.length + 3) / 4 - 1, by omega⟩
  have hres : resBits ((S.length + 3) / 4) S (4 * f)
      st_e.last_a st_e.last_b st_e.last_a2 st_e.last_b2 =
      (bits16 (u16 ((u16 (sget S (4 * f) + sget S (4 * f + 1) * 256) : ℤ) -
          (u16 (2 * (st_e.last_a : ℤ) - (st_e.last_a2 : ℤ)) : ℤ))) ++
        bits16 (u16 ((u16 (sget S (4 * f + 2) + sget S (4 * f + 3) * 256) : ℤ) -
          (u16 (2 * (st_e.last_b : ℤ) - (st_e.last_b2 : ℤ)) : ℤ)))) ++
      resBits ((S.length + 3) / 4) S (4 * (f + 1))
        (u16 (sget S (4 * f) + sget S (4 * f + 1) * 256))
        (u16 (sget S (4 * f + 2) + sget S (4 * f + 3) * 256))
        st_e.last_a st_e.last_b := by
    conv_lhs => rw [hm, resBits]
    rw [if_neg hc1]
    rw [resBits_fuel m ((S.length + 3) / 4) S (4 * f + 4)
      (u16 (sget S (4 * f) + sget S (4 * f + 1) * 256))
      (u16 (sget S (4 * f + 2) + sget S (4 * f + 3) * 256))
      st_e.last_a st_e.last_b (by omega) (by omega)]
    rw [show 4 * f + 4 = 4 * (f + 1) from by ring]
  have hF1 : F = rcFlush (encA wavSrc (wavAt st_e.models (2 * f))
      (bits16 (u16 ((u16 (sget S (4 * f) + sget S (4 * f + 1) * 256) : ℤ) -
          (u16 (2 * (st_e.last_a : ℤ) - (st_e.last_a2 : ℤ)) : ℤ))) ++
        (bits16 (u16 ((u16 (sget S (4 * f + 2) + sget S (4 * f + 3) * 256) : ℤ) -
          (u16 (2 * (st_e.last_b : ℤ) - (st_e.last_b2 : ℤ)) : ℤ))) ++
        resBits ((S.length + 3) / 4) S (4 * (f + 1))
          (u16 (sget S (4 * f) + sget S (4 * f + 1) * 256))
          (u16 (sget S (4 * f + 2) + sget S (4 * f + 3) * 256))
          st_e.last_a st_e.last_b)) st_e.ent) := by
    rw [hFeq, hres, List.append_assoc]
  obtain ⟨p1, p2, p3, p4, p5, p6, p7⟩ := sampleSim st_e.models st_e.ent st_d.dec F
    (2 * f)
    (u16 ((u16 (sget S (4 * f) + sget S (4 * f + 1) * 256) : ℤ) -
      (u16 (2 * (st_e.last_a : ℤ) - (st_e.last_a2 : ℤ)) : ℤ)))
    (bits16 (u16 ((u16 (sget S (4 * f + 2) + sget S (4 * f + 3) * 256) : ℤ) -
        (u16 (2 * (st_e.last_b : ℤ) - (st_e.last_b2 : ℤ)) : ℤ))) ++
      resBits ((S.length + 3) / 4) S (4 * (f + 1))
        (u16 (sget S (4 * f) + sget S (4 * f + 1) * 256))
        (u16 (sget S (4 * f + 2) + sget S (4 * f + 3) * 256))
        st_e.last_a st_e.last_b)
    (u16_lt _) hbound hwf hF1 hrel
  rw [hch0] at p1 p2 p3 p4 p5 p6 p7
  obtain ⟨q1, q2, q3, q4, q5, q6, q7⟩ := sampleSim
    (processSampleEnc st_e.models st_e.ent 0 0
      (u16 ((u16 (sget S (4 * f) + sget S (4 * f + 1) * 256) : ℤ) -
        (u16 (2 * (st_e.last_a : ℤ) - (st_e.last_a2 : ℤ)) : ℤ)))).models
    (processSampleEnc st_e.models st_e.ent 0 0
      (u16 ((u16 (sget S (4 * f) + sget S (4 * f + 1) * 256) : ℤ) -
        (u16 (2 * (st_e.last_a : ℤ) - (st_e.last_a2 : ℤ)) : ℤ)))).ent
    (processSampleDec st_e.models st_d.dec F 0 0).dec F
    (2 * f + 1)
    (u16 ((u16 (sget S (4 * f + 2) + sget S (4 * f + 3) * 256) : ℤ) -
      (u16 (2 * (st_e.last_b : ℤ) - (st_e.last_b2 : ℤ)) : ℤ)))
    (resBits ((S.length + 3) / 4) S (4 * (f + 1))
      (u16 (sget S (4 * f) + sget S (4 * f + 1) * 256))
      (u16 (sget S (4 * f + 2) + sget S (4 * f + 3) * 256))
      st_e.last_a st_e.last_b)
    (u16_lt _) p6 p5 p7 p4
  rw [hch1] at q1 q2 q3 q4 q5 q6 q7
  have hD1 : processSampleDec st_d.models st_d.dec F 0 0 =
      processSampleDec st_e.models st_d.dec F 0 0 := by
    rw [hmods]
  have hA : u16 (sget S (4 * f) + sget S (4 * f + 1) * 256) < 65536 := by
    have h := u16_lt (sget S (4 * f) + sget S (4 * f + 1) * 256)
    norm_num at h
    exact h
  have hB : u16 (sget S (4 * f + 2) + sget S (4 * f + 3) * 256) < 65536 := by
    have h := u16_lt (sget S (4 * f + 2) + sget S (4 * f + 3) * 256)
    norm_num at h
    exact h
  have hAD : (u16 (2 * (st_d.last_a : ℤ) - (st_d.last_a2 : ℤ)) +
      (processSampleDec st_d.models st_d.dec F 0 0).ret) % 65536 =
      u16 (sget S (4 * f) + sget S (4 * f + 1) * 256) := by
    rw [hla, hla2, hD1, p3]
    exact recon16 _ _ hA
  have hBD : (u16 (2 * (st_d.last_b : ℤ) - (st_d.last_b2 : ℤ)) +
      (processSampleDec (processSampleDec st_d.models st_d.dec F 0 0).models
        (processSampleDec st_d.models st_d.dec F 0 0).dec F 0 1).ret) % 65536 =
      u16 (sget S (4 * f + 2) + sget S (4 * f + 3) * 256) := by
    rw [hlb, hlb2, hD1, p1, q3]
    exact recon16 _ _ hB
  refine ⟨⟨(processSampleEnc
        (processSampleEnc st_e.models st_e.ent 0 0
          (u16 ((u16 (sget S (4 * f) + sget S (4 * f + 1) * 256) : ℤ) -
            (u16 (2 * (st_e.last_a : ℤ) - (st_e.last_a2 : ℤ)) : ℤ)))).models
        (processSampleEnc st_e.models st_e.ent 0 0
          (u16 ((u16 (sget S (4 * f) + sget S (4 * f + 1) * 256) : ℤ) -
            (u16 (2 * (st_e.last_a : ℤ) - (st_e.last_a2 : ℤ)) : ℤ)))).ent
        0 1
        (u16 ((u16 (sget S (4 * f + 2) + sget S (4 * f + 3) * 256) : ℤ) -
          (u16 (2 * (st_e.last_b : ℤ) - (st_e.last_b2 : ℤ)) : ℤ)))).models,
      (processSampleEnc
        (processSampleEnc st_e.models st_e.ent 0 0
          (u16 ((u16 (sget S (4 * f) + sget S (4 * f + 1) * 256) : ℤ) -
            (u16 (2 * (st_e.last_a : ℤ) - (st_e.last_a2 : ℤ)) : ℤ)))).models
        (processSampleEnc st_e.models st_e.ent 0 0
          (u16 ((u16 (sget S (4 * f) + sget S (4 * f + 1) * 256) : ℤ) -
            (u16 (2 * (st_e.last_a : ℤ) - (st_e.last_a2 : ℤ)) : ℤ)))).ent
        0 1
        (u16 ((u16 (sget S (4 * f + 2) + sget S (4 * f + 3) * 256) : ℤ) -
          (u16 (2 * (st_e.last_b : ℤ) - (st_e.last_b2 : ℤ)) : ℤ)))).ent,
      u16 (sget S (4 * f) + sget S (4 * f + 1) * 256),
      u16 (sget S (4 * f + 2) + sget S (4 * f + 3) * 256),
      st_e.last_a, st_e.last_b, st_e.last_a2, st_e.last_b2,
      st_e.ops ++
        (processSampleEnc st_e.models st_e.ent 0 0
          (u16 ((u16 (sget S (4 * f) + sget S (4 * f + 1) * 256) : ℤ) -
            (u16 (2 * (st_e.last_a : ℤ) - (st_e.last_a2 : ℤ)) : ℤ)))).ops ++
        (processSampleEnc
          (processSampleEnc st_e.models st_e.ent 0 0
            (u16 ((u16 (sget S (4 * f) + sget S (4 * f + 1) * 256) : ℤ) -
              (u16 (2 * (st_e.last_a : ℤ) - (st_e.last_a2 : ℤ)) : ℤ)))).models
          (processSampleEnc st_e.models st_e.ent 0 0
            (u16 ((u16 (sget S (4 * f) + sget S (4 * f + 1) * 256) : ℤ) -
              (u16 (2 * (st_e.last_a : ℤ) - (st_e.last_a2 : ℤ)) : ℤ)))).ent
          0 1
          (u16 ((u16 (sget S (4 * f + 2) + sget S (4 * f + 3) * 256) : ℤ) -
            (u16 (2 * (st_e.last_b : ℤ) - (st_e.last_b2 : ℤ)) : ℤ)))).ops,
      st_e.frames + 1⟩,
    ⟨(processSampleDec (processSampleDec st_d.models st_d.dec F 0 0).models
        (processSampleDec st_d.models st_d.dec F 0 0).dec F 0 1).models,
      (processSampleDec (processSampleDec st_d.models st_d.dec F 0 0).models
        (processSampleDec st_d.models st_d.dec F 0 0).dec F 0 1).dec,
      (u16 (2 * (st_d.last_a : ℤ) - (st_d.last_a2 : ℤ)) +
        (processSampleDec st_d.models st_d.dec F 0 0).ret) % 65536,
      (u16 (2 * (st_d.last_b : ℤ) - (st_d.last_b2 : ℤ)) +
        (processSampleDec (processSampleDec st_d.models st_d.dec F 0 0).models
          (processSampleDec st_d.models st_d.dec F 0 0).dec F 0 1).ret) % 65536,
      st_d.last_a, st_d.last_b, st_d.last_a2, st_d.last_b2,
      st_d.outBytes ++
        ([(u16 (2 * (st_d.last_a : ℤ) - (st_d.last_a2 : ℤ)) +
            (processSampleDec st_d.models st_d.dec F 0 0).ret) % 65536 % 256,
          (u16 (2 * (st_d.last_a : ℤ) - (st_d.last_a2 : ℤ)) +
            (processSampleDec st_d.models st_d.dec F 0 0).ret) % 65536 / 256,
          (u16 (2 * (st_d.last_b : ℤ) - (st_d.last_b2 : ℤ)) +
            (processSampleDec (processSampleDec st_d.models st_d.dec F 0 0).models
              (processSampleDec st_d.models st_d.dec F 0 0).dec F 0 1).ret) % 65536 % 256,
          (u16 (2 * (st_d.last_b : ℤ) - (st_d.last_b2 : ℤ)) +
            (processSampleDec (processSampleDec st_d.models st_d.dec F 0 0).models
              (processSampleDec st_d.models st_d.dec F 0 0).dec F 0 1).ret) % 65536 / 256].take
          (S.length - 4 * f)),
      st_d.ops ++ (processSampleDec st_d.models st_d.dec F 0 0).ops ++
        (processSampleDec (processSampleDec st_d.models st_d.dec F 0 0).models
          (processSampleDec st_d.models st_d.dec F 0 0).dec F 0 1).ops⟩,
    ?_, ?_, ?_, rfl, rfl, rfl, rfl, rfl, rfl, rfl, rfl⟩
  · intro k
    rw [compressLoop]
    rw [if_neg hc1]
    rw [show 4 * f + 4 = 4 * (f + 1) from by ring]
  · intro k
    rw [decompressLoop]
    rw [if_neg hbz]
    rw [show S.length - 4 * f - 4 = S.length - 4 * (f + 1) from by omega]
  refine ⟨?_, hAD, hBD, by rw [hla], by rw [hlb], by rw [hla2], by rw [hlb2],
    ?_, ?_, q6, q5, ?_, ?_⟩
  · show (processSampleDec (processSampleDec st_d.models st_d.dec F 0 0).models
      (processSampleDec st_d.models st_d.dec F 0 0).dec F 0 1).models = _
    rw [hD1, p1, q1]
  · show st_d.ops ++ _ ++ _ = st_e.ops ++ _ ++ _
    rw [hops, hD1, p2, p1, q2]
  · show st_d.outBytes ++ _ = S.take (4 * (f + 1))
    rw [hout, hAD, hBD, frame_bytes S hS (4 * f) hf,
      show 4 * (f + 1) = 4 * f + 4 from by ring, List.take_add]
  · show relD F _ (processSampleDec (processSampleDec st_d.models st_d.dec F 0 0).models
      (processSampleDec st_d.models st_d.dec F 0 0).dec F 0 1).dec
    rw [hD1, p1]
    exact q4
  · show F = rcFlush (encA wavSrc (wavAt _ (2 * (f + 1))) _ _)
    rw [show 2 * (f + 1) = 2 * f + 1 + 1 from by ring]
    exact q7

lemma simRun : ∀ (k : ℕ) (S F : List ℕ), bytesOk S →
    ∀ (f : ℕ) (st_e : CmpSt) (st_d : DecSt),
    4 * (f + k) ≤ S.length + 3 →
    simInv S F f st_e st_d →
    simInv S F (f + k) (compressLoop k S (4 * f) st_e)
        (decompressLoop k F (S.length - 4 * f) st_d) ∧
      (∀ j : ℕ, compressLoop (k + j) S (4 * f) st_e =
        compressLoop j S (4 * (f + k)) (compressLoop k S (4 * f) st_e)) ∧
      (∀ j : ℕ, decompressLoop (k + j) F (S.length - 4 * f) st_d =
        decompressLoop j F (S.length - 4 * (f + k))
          (decompressLoop k F (S.length - 4 * f) st_d)) := by
  intro k
  induction k with
  | zero =>
    intro S F hS f st_e st_d hk hinv
    refine ⟨hinv, ?_, ?_⟩
    · intro j
      rw [Nat.zero_add, Nat.add_zero]
      rfl
    · intro j
      rw [Nat.zero_add, Nat.add_zero]
      rfl
  | succ k ih =>
    intro S F hS f st_e st_d hk hinv
    have hf : 4 * f < S.length := by omega
    obtain ⟨st_e', st_d', hE, hD, hinv', _⟩ := simStep S F hS f st_e st_d hf hinv
    obtain ⟨iInv, iE, iD⟩ := ih S F hS (f + 1) st_e' st_d' (by omega) hinv'
    have hfk : f + (k + 1) = f + 1 + k := by ring
    refine ⟨?_, ?_, ?_⟩
    · rw [hE k, hD k, hfk]
      exact iInv
    · intro j
      rw [show k + 1 + j = (k + j) + 1 from by ring, hE (k + j), iE j, hE k, hfk]
    · intro j
      rw [show k + 1 + j = (k + j) + 1 from by ring, hD (k + j), iD j, hD k, hfk]

lemma simInit (S : List ℕ) :
    simInv S (wav16Compress S) 0 cmpInit
      ⟨wav16InitModels, rcInitDec (wav16Compress S), 0, 0, 0, 0, 0, 0, [], []⟩ := by
  have hC : wav16Compress S = rcFlush (encA wavSrc (wavAt wav16InitModels 0)
      (resBits ((S.length + 3) / 4) S 0 0 0 0 0) rcInitEnc) := by
    show rcFlush (compressLoop ((S.length + 3) / 4) S 0 cmpInit).ent = _
    rw [compress_encA ((S.length + 3) / 4) S 0 cmpInit 0]
    rfl
  have hwavinv : wavInv (wavAt wav16InitModels 0) := by
    intro j
    show fastBitModelInit < kMaxValue
    decide
  refine ⟨rfl, rfl, rfl, rfl, rfl, rfl, rfl, rfl, rfl, ?_, wfE_init, ?_, ?_⟩
  · intro j
    show fastBitModelInit < kMaxValue
    decide
  · show relD (wav16Compress S) rcInitEnc (rcInitDec (wav16Compress S))
    rw [hC]
    exact relD_init wavSrc wavInv wavSrcOk
      (resBits ((S.length + 3) / 4) S 0 0 0 0 0) (wavAt wav16InitModels 0) hwavinv
  · exact hC

/-! ### Claims C1 - C3 -/

/-- C1: for every octet sequence `S` (entries < 256) and requested byte
count `L = |S|`, including lengths that are not multiples of 4,
decompressing the compressed stream with byte budget `L` reproduces `S`
exactly and emits exactly `L` octets. -/
theorem claim_C1_roundtrip (S : List ℕ) (hS : bytesOk S) :
    wav16Decompress (wav16Compress S) S.length = S ∧
      (wav16Decompress (wav16Compress S) S.length).length = S.length := by
  obtain ⟨hinv, _, _⟩ := simRun ((S.length + 3) / 4) S (wav16Compress S) hS 0 cmpInit
    ⟨wav16InitModels, rcInitDec (wav16Compress S), 0, 0, 0, 0, 0, 0, [], []⟩
    (by omega) (simInit S)
  have hout : (decompressLoop ((S.length + 3) / 4) (wav16Compress S) S.length
      ⟨wav16InitModels, rcInitDec (wav16Compress S),
        0, 0, 0, 0, 0, 0, [], []⟩).outBytes =
      S.take (4 * (0 + (S.length + 3) / 4)) := hinv.2.2.2.2.2.2.2.2.1
  have heq : wav16Decompress (wav16Compress S) S.length = S := by
    show (decompressLoop ((S.length + 3) / 4) (wav16Compress S) S.length
        ⟨wav16InitModels, rcInitDec (wav16Compress S),
          0, 0, 0, 0, 0, 0, [], []⟩).outBytes = S
    rw [hout]
    exact List.take_all_of_le (by omega)
  exact ⟨heq, by rw [heq]⟩

/-- Witness for C1 at a concrete 3-octet input (a length that is not a
multiple of 4). -/
theorem claim_C1_witness :
    bytesOk [5, 1, 255] ∧
      wav16Decompress (wav16Compress [5, 1, 255]) 3 = [5, 1, 255] :=
  ⟨by unfold bytesOk; decide, (claim_C1_roundtrip [5, 1, 255] (by unfold bytesOk; decide)).1⟩

/-- C2: after the encoder has encoded any prefix (the first `k` frames) of
`S`, the decoder's model table after decoding the same prefix from the
encoded stream is identical, and both sides performed the identical
sequence of coding operations — the same model indices with the same
point-of-use probabilities and the same bits, hence the same
`update(bit)` calls. -/
theorem claim_C2_model_parity (S : List ℕ) (hS : bytesOk S) (k : ℕ)
    (hk : k ≤ (S.length + 3) / 4) :
    (decompressLoop k (wav16Compress S) S.length
        ⟨wav16InitModels, rcInitDec (wav16Compress S),
          0, 0, 0, 0, 0, 0, [], []⟩).models =
      (compressLoop k S 0 cmpInit).models ∧
      (decompressLoop k (wav16Compress S) S.length
        ⟨wav16InitModels, rcInitDec (wav16Compress S),
          0, 0, 0, 0, 0, 0, [], []⟩).ops =
      (compressLoop k S 0 cmpInit).ops := by
  obtain ⟨hinv, _, _⟩ := simRun k S (wav16Compress S) hS 0 cmpInit
    ⟨wav16InitModels, rcInitDec (wav16Compress S), 0, 0, 0, 0, 0, 0, [], []⟩
    (by omega) (simInit S)
  exact ⟨hinv.1, hinv.2.2.2.2.2.2.2.1⟩

/-- Witness for C2 at a concrete 5-octet input after one frame. -/
theorem claim_C2_witness :
    bytesOk [9, 8, 7, 6, 5] ∧ 1 ≤ (([9, 8, 7, 6, 5] : List ℕ).length + 3) / 4 ∧
      ((decompressLoop 1 (wav16Compress [9, 8, 7, 6, 5]) 5
          ⟨wav16InitModels, rcInitDec (wav16Compress [9, 8, 7, 6, 5]),
            0, 0, 0, 0, 0, 0, [], []⟩).models =
        (compressLoop 1 [9, 8, 7, 6, 5] 0 cmpInit).models ∧
      (decompressLoop 1 (wav16Compress [9, 8, 7, 6, 5]) 5
          ⟨wav16InitModels, rcInitDec (wav16Compress [9, 8, 7, 6, 5]),
            0, 0, 0, 0, 0, 0, [], []⟩).ops =
        (compressLoop 1 [9, 8, 7, 6, 5] 0 cmpInit).ops) :=
  ⟨by unfold bytesOk; decide, by decide, claim_C2_model_parity [9, 8, 7, 6, 5] (by unfold bytesOk; decide) 1 (by decide)⟩

/-- C3: for each channel independently, with history initialized to zero:
the prediction of frame `k+1` is `2 * last1 - last2` mod `2^16`, the
residual pushed through the coder is `sample - pred` mod `2^16` (visible as
the coded bit trace of the frame), and after the frame the history shifts
`last3 <- last2 <- last1 <- sample`; and the decoder applies the identical
update, so encoder and decoder histories agree before every frame. -/
theorem claim_C3_predictor_history (S : List ℕ) (hS : bytesOk S) (k : ℕ) :
    (k ≤ (S.length + 3) / 4 →
      (decompressLoop k (wav16Compress S) S.length
          ⟨wav16InitModels, rcInitDec (wav16Compress S),
            0, 0, 0, 0, 0, 0, [], []⟩).last_a =
          (compressLoop k S 0 cmpInit).last_a ∧
        (decompressLoop k (wav16Compress S) S.length
          ⟨wav16InitModels, rcInitDec (wav16Compress S),
            0, 0, 0, 0, 0, 0, [], []⟩).last_b =
          (compressLoop k S 0 cmpInit).last_b ∧
        (decompressLoop k (wav16Compress S) S.length
          ⟨wav16InitModels, rcInitDec (wav16Compress S),
            0, 0, 0, 0, 0, 0, [], []⟩).last_a2 =
          (compressLoop k S 0 cmpInit).last_a2 ∧
        (decompressLoop k (wav16Compress S) S.length
          ⟨wav16InitModels, rcInitDec (wav16Compress S),
            0, 0, 0, 0, 0, 0, [], []⟩).last_b2 =
          (compressLoop k S 0 cmpInit).last_b2 ∧
        (decompressLoop k (wav16Compress S) S.length
          ⟨wav16InitModels, rcInitDec (wav16Compress S),
            0, 0, 0, 0, 0, 0, [], []⟩).last_a3 =
          (compressLoop k S 0 cmpInit).last_a3 ∧
        (decompressLoop k (wav16Compress S) S.length
          ⟨wav16InitModels, rcInitDec (wav16Compress S),
            0, 0, 0, 0, 0, 0, [], []⟩).last_b3 =
          (compressLoop k S 0 cmpInit).last_b3) ∧
    (4 * k < S.length →
      (compressLoop (k + 1) S 0 cmpInit).last_a =
          u16 (sget S (4 * k) + sget S (4 * k + 1) * 256) ∧
        (compressLoop (k + 1) S 0 cmpInit).last_b =
          u16 (sget S (4 * k + 2) + sget S (4 * k + 3) * 256) ∧
        (compressLoop (k + 1) S 0 cmpInit).last_a2 =
          (compressLoop k S 0 cmpInit).last_a ∧
        (compressLoop (k + 1) S 0 cmpInit).last_b2 =
          (compressLoop k S 0 cmpInit).last_b ∧
        (compressLoop (k + 1) S 0 cmpInit).last_a3 =
          (compressLoop k S 0 cmpInit).last_a2 ∧
        (compressLoop (k + 1) S 0 cmpInit).last_b3 =
          (compressLoop k S 0 cmpInit).last_b2 ∧
        ∃ ops1 ops2 : List TOp,
          (compressLoop (k + 1) S 0 cmpInit).ops =
            (compressLoop k S 0 cmpInit).ops ++ ops1 ++ ops2 ∧
          ops1.map TOp.bit = bits16 (u16
            ((u16 (sget S (4 * k) + sget S (4 * k + 1) * 256) : ℤ) -
              (u16 (2 * ((compressLoop k S 0 cmpInit).last_a : ℤ) -
                ((compressLoop k S 0 cmpInit).last_a2 : ℤ)) : ℤ))) ∧
          ops2.map TOp.bit = bits16 (u16
            ((u16 (sget S (4 * k + 2) + sget S (4 * k + 3) * 256) : ℤ) -
              (u16 (2 * ((compressLoop k S 0 cmpInit).last_b : ℤ) -
                ((compressLoop k S 0 cmpInit).last_b2 : ℤ)) : ℤ)))) := by
  constructor
  · intro hk
    obtain ⟨hinv, _, _⟩ := simRun k S (wav16Compress S) hS 0 cmpInit
      ⟨wav16InitModels, rcInitDec (wav16Compress S), 0, 0, 0, 0, 0, 0, [], []⟩
      (by omega) (simInit S)
    exact ⟨hinv.2.1, hinv.2.2.1, hinv.2.2.2.1, hinv.2.2.2.2.1,
      hinv.2.2.2.2.2.1, hinv.2.2.2.2.2.2.1⟩
  · intro h4k
    obtain ⟨hinvk, hEadd, _⟩ := simRun k S (wav16Compress S) hS 0 cmpInit
      ⟨wav16InitModels, rcInitDec (wav16Compress S), 0, 0, 0, 0, 0, 0, [], []⟩
      (by omega) (simInit S)
    have hinvk' : simInv S (wav16Compress S) k (compressLoop k S 0 cmpInit)
        (decompressLoop k (wav16Compress S) S.length
          ⟨wav16InitModels, rcInitDec (wav16Compress S),
            0, 0, 0, 0, 0, 0, [], []⟩) := by
      have h := hinvk
      rw [Nat.zero_add] at h
      exact h
    obtain ⟨st_e', st_d', hE, hD, hinv', d1, d2, d3, d4, d5, d6, d7, d8⟩ :=
      simStep S (wav16Compress S) hS k (compressLoop k S 0 cmpInit)
        (decompressLoop k (wav16Compress S) S.length
          ⟨wav16InitModels, rcInitDec (wav16Compress S),
            0, 0, 0, 0, 0, 0, [], []⟩) h4k hinvk'
    have h1' : compressLoop (k + 1) S 0 cmpInit =
        compressLoop 1 S (4 * k) (compressLoop k S 0 cmpInit) := by
      have h := hEadd 1
      rw [Nat.zero_add] at h
      exact h
    have hid : compressLoop (k + 1) S 0 cmpInit = st_e' := by
      rw [h1']
      exact hE 0
    refine ⟨by rw [hid]; exact d1, by rw [hid]; exact d2, by rw [hid]; exact d3,
      by rw [hid]; exact d4, by rw [hid]; exact d5, by rw [hid]; exact d6, ?_⟩
    refine ⟨(processSampleEnc (compressLoop k S 0 cmpInit).models
        (compressLoop k S 0 cmpInit).ent 0 0
        (u16 ((u16 (sget S (4 * k) + sget S (4 * k + 1) * 256) : ℤ) -
          (u16 (2 * ((compressLoop k S 0 cmpInit).last_a : ℤ) -
            ((compressLoop k S 0 cmpInit).last_a2 : ℤ)) : ℤ)))).ops,
      (processSampleEnc
        (processSampleEnc (compressLoop k S 0 cmpInit).models
          (compressLoop k S 0 cmpInit).ent 0 0
          (u16 ((u16 (sget S (4 * k) + sget S (4 * k + 1) * 256) : ℤ) -
            (u16 (2 * ((compressLoop k S 0 cmpInit).last_a : ℤ) -
              ((compressLoop k S 0 cmpInit).last_a2 : ℤ)) : ℤ)))).models
        (processSampleEnc (compressLoop k S 0 cmpInit).models
          (compressLoop k S 0 cmpInit).ent 0 0
          (u16 ((u16 (sget S (4 * k) + sget S (4 * k + 1) * 256) : ℤ) -
            (u16 (2 * ((compressLoop k S 0 cmpInit).last_a : ℤ) -
              ((compressLoop k S 0 cmpInit).last_a2 : ℤ)) : ℤ)))).ent
        0 1
        (u16 ((u16 (sget S (4 * k + 2) + sget S (4 * k + 3) * 256) : ℤ) -
          (u16 (2 * ((compressLoop k S 0 cmpInit).last_b : ℤ) -
            ((compressLoop k S 0 cmpInit).last_b2 : ℤ)) : ℤ)))).ops,
      ?_, ?_, ?_⟩
    · rw [hid]
      exact d8
    · exact (processSampleEnc_ops_facts _ _ _ _ (u16_lt _)).1
    · exact (processSampleEnc_ops_facts _ _ _ _ (u16_lt _)).1

/-- Witness for C3 at a concrete 5-octet input with one full frame. -/
theorem claim_C3_witness :
    bytesOk [2, 0, 130, 1, 77] ∧
      (1 ≤ (([2, 0, 130, 1, 77] : List ℕ).length + 3) / 4 →
        (decompressLoop 1 (wav16Compress [2, 0, 130, 1, 77]) 5
            ⟨wav16InitModels, rcInitDec (wav16Compress [2, 0, 130, 1, 77]),
              0, 0, 0, 0, 0, 0, [], []⟩).last_a =
            (compressLoop 1 [2, 0, 130, 1, 77] 0 cmpInit).last_a ∧
          (decompressLoop 1 (wav16Compress [2, 0, 130, 1, 77]) 5
            ⟨wav16InitModels, rcInitDec (wav16Compress [2, 0, 130, 1, 77]),
              0, 0, 0, 0, 0, 0, [], []⟩).last_b =
            (compressLoop 1 [2, 0, 130, 1, 77] 0 cmpInit).last_b ∧
          (decompressLoop 1 (wav16Compress [2, 0, 130, 1, 77]) 5
            ⟨wav16InitModels, rcInitDec (wav16Compress [2, 0, 130, 1, 77]),
              0, 0, 0, 0, 0, 0, [], []⟩).last_a2 =
            (compressLoop 1 [2, 0, 130, 1, 77] 0 cmpInit).last_a2 ∧
          (decompressLoop 1 (wav16Compress [2, 0, 130, 1, 77]) 5
            ⟨wav16InitModels, rcInitDec (wav16Compress [2, 0, 130, 1, 77]),
              0, 0, 0, 0, 0, 0, [], []⟩).last_b2 =
            (compressLoop 1 [2, 0, 130, 1, 77] 0 cmpInit).last_b2 ∧
          (decompressLoop 1 (wav16Compress [2, 0, 130, 1, 77]) 5
            ⟨wav16InitModels, rcInitDec (wav16Compress [2, 0, 130, 1, 77]),
              0, 0, 0, 0, 0, 0, [], []⟩).last_a3 =
            (compressLoop 1 [2, 0, 130, 1, 77] 0 cmpInit).last_a3 ∧
          (decompressLoop 1 (wav16Compress [2, 0, 130, 1, 77]) 5
            ⟨wav16InitModels, rcInitDec (wav16Compress [2, 0, 130, 1, 77]),
              0, 0, 0, 0, 0, 0, [], []⟩).last_b3 =
            (compressLoop 1 [2, 0, 130, 1, 77] 0 cmpInit).last_b3) :=
  ⟨by unfold bytesOk; decide, (claim_C3_predictor_history [2, 0, 130, 1, 77] (by unfold bytesOk; decide) 1).1⟩

end Mcm
